import Mathlib

/-!
# Verification of the Time_Table_Management_System scheduling core

Shallow embedding of `backend/app/services/solver.py`,
`backend/app/services/timetable_manager.py`,
`backend/app/services/normalization_agent.py` and (modelled from the
specification, the file being absent) the repair engine, together with
proofs of the frozen claims about them.

Conventions:
* machine integers are `Nat` (ids, day numbers);
* `datetime.time` values are minutes after midnight (`Nat`); equality and
  order of minute counts coincide with equality and order of the Python
  `time` objects, and with equality of their fixed-format string forms;
* Python `dict`s built by iteration with overwriting are modelled as
  "last matching entry wins" lookups over the building list;
* Python truthiness of an optional integer (`if following_slot_id:`) is
  `some n` with `n ≠ 0`.
-/

set_option autoImplicit false
set_option maxHeartbeats 1000000

namespace TTMS

/-! ## Solver input model (`solver.py`, dataclasses) -/

/-- `SolverSection` (solver.py lines 15-26).  One requirement line.
`fixed_assignments` is a list of `(room_id, timeslot_id)` pairs. -/
structure SolverSection where
  id : Nat
  section_id : Nat
  name : String
  course_id : Nat
  faculty_id : Nat
  room_type_required : String
  required_periods : Nat
  allowed_slot_ids : List Nat
  is_lab : Bool
  fixed_assignments : Option (List (Nat × Nat))
deriving DecidableEq, Repr

/-- `SolverRoom` (solver.py lines 28-32). -/
structure SolverRoom where
  id : Nat
  name : String
  type : String
deriving DecidableEq, Repr

/-- `SolverTimeslot` (solver.py lines 34-39); times in minutes after midnight. -/
structure SolverTimeslot where
  id : Nat
  day : Nat
  start_time : Nat
  end_time : Nat
deriving DecidableEq, Repr

/-- One entry of `SolverResult.assignments`:
`{"section_id": .., "room_id": .., "timeslot_id": ..}`. -/
structure Alloc where
  section_id : Nat
  room_id : Nat
  timeslot_id : Nat
deriving DecidableEq, Repr

/-- `SolverResult` (solver.py lines 41-46). -/
structure SolverResult where
  is_feasible : Bool
  status : String
  assignments : List Alloc
  conflict_reason : Option String
deriving DecidableEq, Repr

/-- A CP variable key `(section.id, p_idx, room.id, timeslot_id)` of the
dictionary `x` in `SolverService.solve`. -/
structure Var where
  sec : Nat
  p : Nat
  room : Nat
  slot : Nat
deriving DecidableEq, Repr

/-! ## Timeslot metadata (solver.py lines 68-77 and 236-243)

`slot_map` maps `(day, start_time)` to a slot id; building a Python dict by
iteration lets later entries overwrite earlier ones, so a lookup finds the
last matching timeslot.  `next_slot_lookup` stores, for each slot id, the id
of a slot on the same day starting when it ends, guarded by Python
truthiness (`if following_slot_id:`), which also drops an id equal to 0. -/

/-- `slot_map.get((day, start))`: id of the last timeslot with this day and
start time. -/
def slotMapFind (ts : List SolverTimeslot) (day start : Nat) : Option Nat :=
  (ts.reverse.find? (fun t => t.day == day && t.start_time == start)).map (·.id)

/-- Python truthiness of an `Optional[int]`. -/
def truthy : Option Nat → Bool
  | some n => n != 0
  | none => false

/-- `next_slot_lookup.get(i)`: the `slot_map` entry at `(t.day, t.end_time)`
of the last timeslot `t` with id `i` for which that entry is truthy. -/
def nextLookup (ts : List SolverTimeslot) (i : Nat) : Option Nat :=
  match ts.reverse.find? (fun t => t.id == i && truthy (slotMapFind ts t.day t.end_time)) with
  | some t => slotMapFind ts t.day t.end_time
  | none => none

/-- `slot_by_id.get(i)` (solver.py line 239): last timeslot with id `i`. -/
def slotById (ts : List SolverTimeslot) (i : Nat) : Option SolverTimeslot :=
  ts.reverse.find? (fun t => t.id == i)

/-! ## The CP model (`SolverService.solve`, solver.py lines 59-226)

The OR-Tools backend builds a boolean variable per key of `x` and adds the
constraints C1, C1.1, C2, C3, C4, C5 below, then asks CP-SAT for any
satisfying assignment.  We embed the model itself: a candidate solution is
the list of variable keys set to 1 (each at most once, i.e. no duplicate),
and `cpSatisfies` states that it satisfies every constraint the code adds.
The sums the code builds may mention one variable several times (when input
lists contain duplicates); the embedding counts with the same multiplicity
by counting over the very index lists the loops iterate. -/

/-- A room suits a section (`section.room_type_required != room.type: continue`). -/
def roomMatches (s : SolverSection) (r : SolverRoom) : Bool :=
  s.room_type_required == r.type

/-- Key membership in the variable dictionary `x` (solver.py lines 83-92):
a variable exists for `(sec, p, room, slot)` iff some input section with
this id has `p` below its period count, some room with this id suits it,
and the slot is in its allowed list. -/
def xHasKey (sections : List SolverSection) (rooms : List SolverRoom) (v : Var) : Bool :=
  sections.any fun s =>
    s.id == v.sec && decide (v.p < s.required_periods) &&
    rooms.any (fun r => r.id == v.room && roomMatches s r) &&
    s.allowed_slot_ids.contains v.slot

/-- The fixed assignment governing period `p` of `s`, if any
(`if section.fixed_assignments and p_idx < len(section.fixed_assignments)`;
an absent or empty list is falsy). -/
def fixedFor (s : SolverSection) (p : Nat) : Option (Nat × Nat) :=
  match s.fixed_assignments with
  | none => none
  | some l => if l.isEmpty then none else l[p]?

/-- The `(room_id, slot)` pairs iterated when collecting the candidates of a
period of `s` restricted to suitable rooms, in loop order and with
multiplicity. -/
def matchingPairs (rooms : List SolverRoom) (s : SolverSection) : List (Nat × Nat) :=
  (rooms.filter (roomMatches s)).flatMap fun r => s.allowed_slot_ids.map (fun t => (r.id, t))

/-- All `(section.id, p_idx)` pairs, in loop order and with multiplicity
(solver.py lines 151-152 and elsewhere). -/
def secPeriodList (sections : List SolverSection) : List (Nat × Nat) :=
  sections.flatMap fun s => (List.range s.required_periods).map (fun p => (s.id, p))

/-- Constraint C1 part 1: each pinned variable is 1
(`self.model.Add(x[fixed_key] == 1)`, solver.py line 106). -/
def pinOk (sections : List SolverSection) (sol : List Var) : Bool :=
  sections.all fun s =>
    (List.range s.required_periods).all fun p =>
      match fixedFor s p with
      | some (fr, ft) => sol.contains ⟨s.id, p, fr, ft⟩
      | none => true

/-- Constraint C1 part 2: for every non-pinned period the candidate sum is
exactly 1 (solver.py line 121).  Candidates of `(s, p)` are the variables
`(s.id, p, room.id, slot)` for suitable rooms and allowed slots; these keys
always exist in `x`, so the `in x` filter is the identity here. -/
def exactOneOk (sections : List SolverSection) (rooms : List SolverRoom)
    (sol : List Var) : Bool :=
  sections.all fun s =>
    (List.range s.required_periods).all fun p =>
      match fixedFor s p with
      | some _ => true
      | none =>
        decide (((matchingPairs rooms s).countP
          (fun rt => sol.contains ⟨s.id, p, rt.1, rt.2⟩)) = 1)

/-- Constraint C1.1 (solver.py lines 123-145): for a 2-period lab, a set
first-period variable at `(room, t)` forces the second period into the same
room at the successor slot; when the successor variable does not exist the
first-period variable is forced to 0. -/
def labOk (sections : List SolverSection) (rooms : List SolverRoom)
    (ts : List SolverTimeslot) (sol : List Var) : Bool :=
  sections.all fun s =>
    if s.is_lab && s.required_periods == 2 then
      (rooms.filter (roomMatches s)).all fun r =>
        s.allowed_slot_ids.all fun t =>
          if sol.contains ⟨s.id, 0, r.id, t⟩ then
            match nextLookup ts t with
            | some n =>
                xHasKey sections rooms ⟨s.id, 1, r.id, n⟩ &&
                sol.contains ⟨s.id, 1, r.id, n⟩
            | none => false
          else true
    else true

/-- Constraint C2 (solver.py lines 147-157): at most one variable per
`(room, slot)` over all sections and periods. -/
def roomOk (sections : List SolverSection) (rooms : List SolverRoom)
    (ts : List SolverTimeslot) (sol : List Var) : Bool :=
  rooms.all fun r => ts.all fun t =>
    decide (((secPeriodList sections).countP
      (fun sp => sol.contains ⟨sp.1, sp.2, r.id, t.id⟩)) ≤ 1)

/-- Constraint C3 (solver.py lines 159-172): at most one variable per
`(faculty, slot)`; the sum ranges over the sections of that faculty, their
periods and all rooms, filtered by key existence. -/
def facOk (sections : List SolverSection) (rooms : List SolverRoom)
    (ts : List SolverTimeslot) (sol : List Var) : Bool :=
  (sections.map (·.faculty_id)).all fun f => ts.all fun t =>
    decide ((((sections.filter (fun s => s.faculty_id == f)).flatMap fun s =>
        (List.range s.required_periods).flatMap fun p =>
          rooms.map fun r => (s.id, p, r.id)).countP
      (fun k => xHasKey sections rooms ⟨k.1, k.2.1, k.2.2, t.id⟩ &&
        sol.contains ⟨k.1, k.2.1, k.2.2, t.id⟩)) ≤ 1)

/-- Constraint C4 (solver.py lines 174-192): at most one variable per
(student group, slot). -/
def grpOk (sections : List SolverSection) (rooms : List SolverRoom)
    (ts : List SolverTimeslot) (sol : List Var) : Bool :=
  (sections.map (·.section_id)).all fun g => ts.all fun t =>
    decide ((((sections.filter (fun s => s.section_id == g)).flatMap fun s =>
        (List.range s.required_periods).flatMap fun p =>
          rooms.map fun r => (s.id, p, r.id)).countP
      (fun k => xHasKey sections rooms ⟨k.1, k.2.1, k.2.2, t.id⟩ &&
        sol.contains ⟨k.1, k.2.1, k.2.2, t.id⟩)) ≤ 1)

/-- Constraint C5 (solver.py lines 194-210): for a non-lab section, at most
two periods per day; the day set is deduplicated (iteration order of the
sorted set does not matter for a conjunction of constraints). -/
def dayOk (sections : List SolverSection) (rooms : List SolverRoom)
    (ts : List SolverTimeslot) (sol : List Var) : Bool :=
  sections.all fun s =>
    if s.is_lab then true
    else
      ((ts.map (·.day)).eraseDups).all fun d =>
        decide ((((List.range s.required_periods).flatMap fun p =>
            (rooms.filter (roomMatches s)).flatMap fun r =>
              ((ts.filter (fun t => t.day == d)).map (·.id)).map fun t => (p, r.id, t)).countP
          (fun k => sol.contains ⟨s.id, k.1, k.2.1, k.2.2⟩)) ≤ 2)

/-- A solution of the CP model: a duplicate-free list of existing variable
keys (the variables set to 1) satisfying every added constraint. -/
def cpSatisfies (sections : List SolverSection) (rooms : List SolverRoom)
    (ts : List SolverTimeslot) (sol : List Var) : Bool :=
  decide sol.Nodup &&
  sol.all (xHasKey sections rooms) &&
  pinOk sections sol &&
  exactOneOk sections rooms sol &&
  labOk sections rooms ts sol &&
  roomOk sections rooms ts sol &&
  facOk sections rooms ts sol &&
  grpOk sections rooms ts sol &&
  dayOk sections rooms ts sol

/-! ## Early infeasibility returns (solver.py lines 97-121)

While adding constraint C1 the code returns immediately on the first period
whose pinned key is missing from `x`, or whose candidate list is empty.
Both returns carry status `"INFEASIBLE"`, empty placements and a reason
naming the requirement. -/

/-- The early result returned when a fixed assignment has no variable
(solver.py line 109). -/
def fixedErr (s : SolverSection) : SolverResult :=
  ⟨false, "INFEASIBLE", [],
    some ("Fixed assignment for " ++ s.name ++ " is in an invalid slot/room.")⟩

/-- The early result returned when a period has no candidate variables
(solver.py line 119). -/
def noCandErr (s : SolverSection) (p : Nat) : SolverResult :=
  ⟨false, "INFEASIBLE", [],
    some ("Section " ++ s.name ++ " (Period " ++ toString p ++ ") has no valid candidates.")⟩

/-- Check of one `(section, p_idx)` iteration of the C1 loop: `none` when
construction proceeds, `some r` when the code returns `r` early. -/
def checkPeriod (sections : List SolverSection) (rooms : List SolverRoom)
    (s : SolverSection) (p : Nat) : Option SolverResult :=
  match fixedFor s p with
  | some (fr, ft) =>
      if xHasKey sections rooms ⟨s.id, p, fr, ft⟩ then none else some (fixedErr s)
  | none =>
      if rooms.any (fun r => s.allowed_slot_ids.any
          (fun t => xHasKey sections rooms ⟨s.id, p, r.id, t⟩)) then none
      else some (noCandErr s p)

/-- First `some` produced by `f` along a list. -/
def firstSome {α β : Type} (f : α → Option β) : List α → Option β
  | [] => none
  | a :: l => match f a with
    | some b => some b
    | none => firstSome f l

/-- The early-return scan of `SolverService.solve`: sections in list order,
periods in ascending order; `some r` is the first early return. -/
def solveChecks (sections : List SolverSection) (rooms : List SolverRoom) :
    Option SolverResult :=
  firstSome (fun s => firstSome (fun p => checkPeriod sections rooms s p)
    (List.range s.required_periods)) sections

/-- The feasible result assembled from a solution (solver.py lines 215-224).
The code lists set variables in insertion order of `x`; the embedding leaves
the enumeration order of `sol` unconstrained (every order is admitted by the
relation below). -/
def mkFeasible (sol : List Var) : SolverResult :=
  ⟨true, "FEASIBLE", sol.map (fun v => ⟨v.sec, v.room, v.slot⟩), none⟩

/-- The catch-all infeasible result (solver.py line 226). -/
def cpNoSolution : SolverResult :=
  ⟨false, "INFEASIBLE", [], some "Conflicts detected (No solution found)"⟩

/-- Input/output relation of the OR-Tools backend of `SolverService.solve`:
either the construction stops at the first failing period, or CP-SAT
(complete, no time limit is configured) returns a satisfying assignment
when one exists and the catch-all infeasible result otherwise. -/
def cpSolveRel (sections : List SolverSection) (rooms : List SolverRoom)
    (ts : List SolverTimeslot) (res : SolverResult) : Prop :=
  match solveChecks sections rooms with
  | some err => res = err
  | none =>
      (∃ sol, cpSatisfies sections rooms ts sol = true ∧ res = mkFeasible sol) ∨
      ((¬ ∃ sol, cpSatisfies sections rooms ts sol = true) ∧ res = cpNoSolution)

/-! ## The pure-backtracking fallback (`SolverService._solve_fallback`,
solver.py lines 228-424)

The Python search keeps an `assignments` dict together with derived
conflict maps (`room_slot_map`, `faculty_slot_map`, `group_slot_map`,
`section_day_count`) updated in lockstep.  The embedding keeps a single
list of `Placed` records, newest first (so the final result, which lists
the dict in insertion order, is the reverse of the state); the maps are
the obvious views of that list.  `countsDay` records whether the
placement was counted in `section_day_count` (it is exactly the
placements made by the non-lab branch).  `fac`, `grp`, `day` copy the
values the Python code inserts into the maps.

The general recursion of the Python backtracker is embedded with a fuel
argument bounding recursion depth; all theorems quantify over the fuel,
and a run that returns a state never depends on how much fuel is left. -/

/-- One placed period in the fallback state. -/
structure Placed where
  sec : Nat
  idx : Nat
  room : Nat
  slot : Nat
  fac : Nat
  grp : Nat
  day : Nat
  countsDay : Bool
deriving DecidableEq, Repr

/-- `(room_id, slot) in room_slot_map`. -/
def roomTaken (st : List Placed) (r t : Nat) : Bool :=
  st.any fun q => q.room == r && q.slot == t

/-- `(faculty_id, slot) in faculty_slot_map and faculty_slot_map[..]`. -/
def facTaken (st : List Placed) (f t : Nat) : Bool :=
  st.any fun q => q.fac == f && q.slot == t

/-- `(group_id, slot) in group_slot_map and group_slot_map[..]`. -/
def grpTaken (st : List Placed) (g t : Nat) : Bool :=
  st.any fun q => q.grp == g && q.slot == t

/-- `section_day_count.get((group_id, day), 0)`. -/
def dayCount (st : List Placed) (g d : Nat) : Nat :=
  st.countP fun q => q.grp == g && q.day == d && q.countsDay

/-- `lunch_starts = {time(12,0), time(13,0)}` (solver.py line 247). -/
def isLunchStart (m : Nat) : Bool := m == 720 || m == 780

/-- `can_place` (solver.py lines 277-315).  `slot_by_id[slot_id]` raises a
`KeyError` in Python when the slot id is unknown, aborting the whole solve;
the embedding answers `false` there, which coincides whenever every allowed
slot id names a timeslot (the hypotheses of all theorems below). -/
def canPlace (ts : List SolverTimeslot) (st : List Placed)
    (s : SolverSection) (r : SolverRoom) (slot : Nat) : Bool :=
  roomMatches s r &&
  s.allowed_slot_ids.contains slot &&
  match slotById ts slot with
  | none => false
  | some sl =>
    !isLunchStart sl.start_time &&
    !roomTaken st r.id slot &&
    !facTaken st s.faculty_id slot &&
    !grpTaken st s.section_id slot &&
    (s.is_lab || decide (dayCount st s.section_id sl.day + 1 ≤ 2))

/-- Strict order of the fallback variable ordering
`sorted(sections, key=lambda s: (-s.required_periods, s.id))`. -/
def orderLt (a b : SolverSection) : Bool :=
  b.required_periods < a.required_periods ||
    (a.required_periods == b.required_periods && a.id < b.id)

/-- Stable insertion: `x` goes before the first strictly greater element. -/
def insertOrd (x : SolverSection) : List SolverSection → List SolverSection
  | [] => [x]
  | y :: ys => if orderLt x y then x :: y :: ys else y :: insertOrd x ys

/-- The stable sort of the fallback (`sorted` with key `(-periods, id)`). -/
def sortSections (l : List SolverSection) : List SolverSection :=
  l.foldl (fun acc x => insertOrd x acc) []

/-- The day stored with a placement (`slot_by_id[slot_id].day`). -/
def dayOf (ts : List SolverTimeslot) (slot : Nat) : Nat :=
  ((slotById ts slot).map (·.day)).getD 0

/-- A non-lab-branch placement (solver.py lines 396-401). -/
def placeOne (ts : List SolverTimeslot) (s : SolverSection) (p : Nat)
    (r : SolverRoom) (t : Nat) (st : List Placed) : List Placed :=
  ⟨s.id, p, r.id, t, s.faculty_id, s.section_id, dayOf ts t, true⟩ :: st

/-- A lab-branch double placement (solver.py lines 356-363): period 0 at
`t`, period 1 at the successor `n`, both in room `r`; neither is counted in
`section_day_count`. -/
def placeLab (ts : List SolverTimeslot) (s : SolverSection)
    (r : SolverRoom) (t n : Nat) (st : List Placed) : List Placed :=
  ⟨s.id, 1, r.id, n, s.faculty_id, s.section_id, dayOf ts n, false⟩ ::
  ⟨s.id, 0, r.id, t, s.faculty_id, s.section_id, dayOf ts t, false⟩ :: st

/-- The gate of the lab branch for one `(room, slot)` try (solver.py lines
332-353), returning the successor slot id when the double placement is
legal.  Line 342 compares the raw `start_time` strings with the `time`
objects in `lunch_starts`, which is always false in Python, so it filters
nothing; the period-0 lunch check happens inside `can_place`. -/
def labCheck (ts : List SolverTimeslot) (st : List Placed)
    (s : SolverSection) (r : SolverRoom) (t : Nat) : Option Nat :=
  match nextLookup ts t with
  | none => none
  | some n =>
    if !(s.allowed_slot_ids.contains n) then none
    else if !(canPlace ts st s r t) then none
    else if roomTaken st r.id n then none
    else if facTaken st s.faculty_id n then none
    else if grpTaken st s.section_id n then none
    else some n

/-- Context threaded through the fallback recursion. -/
structure FBCtx where
  rooms : List SolverRoom
  timeslots : List SolverTimeslot
deriving Repr

mutual

/-- `backtrack(idx)` (solver.py lines 320-415) over the remaining ordered
sections. -/
def fbSections (ctx : FBCtx) : Nat → List SolverSection → List Placed →
    Option (List Placed)
  | 0, _, _ => none
  | _ + 1, [], st => some st
  | fuel + 1, s :: rest, st =>
      if s.is_lab && s.required_periods == 2 then
        fbLabRooms ctx fuel s ctx.rooms rest st
      else
        fbPeriods ctx fuel s 0 rest st

/-- Lab branch, loop over rooms (solver.py line 329). -/
def fbLabRooms (ctx : FBCtx) : Nat → SolverSection → List SolverRoom →
    List SolverSection → List Placed → Option (List Placed)
  | 0, _, _, _, _ => none
  | _ + 1, _, [], _, _ => none
  | fuel + 1, s, r :: rs, rest, st =>
      if roomMatches s r then
        match fbLabSlots ctx fuel s r s.allowed_slot_ids rest st with
        | some res => some res
        | none => fbLabRooms ctx fuel s rs rest st
      else fbLabRooms ctx fuel s rs rest st

/-- Lab branch, loop over allowed slots (solver.py line 332). -/
def fbLabSlots (ctx : FBCtx) : Nat → SolverSection → SolverRoom →
    List Nat → List SolverSection → List Placed → Option (List Placed)
  | 0, _, _, _, _, _ => none
  | _ + 1, _, _, [], _, _ => none
  | fuel + 1, s, r, t :: trest, rest, st =>
      match labCheck ctx.timeslots st s r t with
      | some n =>
          (match fbSections ctx fuel rest (placeLab ctx.timeslots s r t n st) with
           | some res => some res
           | none => fbLabSlots ctx fuel s r trest rest st)
      | none => fbLabSlots ctx fuel s r trest rest st

/-- `assign_period(p_idx)` (solver.py lines 384-415). -/
def fbPeriods (ctx : FBCtx) : Nat → SolverSection → Nat →
    List SolverSection → List Placed → Option (List Placed)
  | 0, _, _, _, _ => none
  | fuel + 1, s, p, rest, st =>
      if p < s.required_periods then
        fbPerRooms ctx fuel s p ctx.rooms rest st
      else
        fbSections ctx fuel rest st

/-- Non-lab branch, loop over rooms (solver.py line 389). -/
def fbPerRooms (ctx : FBCtx) : Nat → SolverSection → Nat → List SolverRoom →
    List SolverSection → List Placed → Option (List Placed)
  | 0, _, _, _, _, _ => none
  | _ + 1, _, _, [], _, _ => none
  | fuel + 1, s, p, r :: rs, rest, st =>
      if roomMatches s r then
        match fbPerSlots ctx fuel s p r s.allowed_slot_ids rest st with
        | some res => some res
        | none => fbPerRooms ctx fuel s p rs rest st
      else fbPerRooms ctx fuel s p rs rest st

/-- Non-lab branch, loop over allowed slots (solver.py line 391). -/
def fbPerSlots (ctx : FBCtx) : Nat → SolverSection → Nat → SolverRoom →
    List Nat → List SolverSection → List Placed → Option (List Placed)
  | 0, _, _, _, _, _, _ => none
  | _ + 1, _, _, _, [], _, _ => none
  | fuel + 1, s, p, r, t :: trest, rest, st =>
      if canPlace ctx.timeslots st s r t then
        match fbPeriods ctx fuel s (p + 1) rest (placeOne ctx.timeslots s p r t st) with
        | some res => some res
        | none => fbPerSlots ctx fuel s p r trest rest st
      else fbPerSlots ctx fuel s p r trest rest st

end

/-- `_solve_fallback` with recursion-depth fuel.  The Python result lists
the surviving `assignments` dict in insertion order, i.e. the reverse of
the embedded state.  `fixed_assignments` of the input sections are never
read by the fallback. -/
def solveFallbackFuel (fuel : Nat) (sections : List SolverSection)
    (rooms : List SolverRoom) (timeslots : List SolverTimeslot) : SolverResult :=
  match fbSections ⟨rooms, timeslots⟩ fuel (sortSections sections) [] with
  | some st =>
      ⟨true, "FEASIBLE_PYTHON",
        st.reverse.map (fun q => ⟨q.sec, q.room, q.slot⟩), none⟩
  | none =>
      ⟨false, "INFEASIBLE_PYTHON", [], some "Constraints violated in fallback solver"⟩

/-! ## The orchestrator (`TimetableManager.generate_timetable`,
timetable_manager.py lines 24-186)

Database rows are value records; `time` columns are minutes after
midnight; nullable columns are `Option`s.  Python truthiness of a nullable
integer column (`if a.room_id and a.timeslot_id`) is `truthy`.  The
orchestrator reads the catalog tables (sections, courses, rooms,
timeslots) and mutates only the assignment table and the version table. -/

/-- `Section` row (models/section.py); only the columns the orchestrator
reads. -/
structure DBSection where
  id : Nat
  code : String
  shift : Option String
deriving DecidableEq, Repr

/-- `Course` row (models/course.py); only the columns the orchestrator
reads. -/
structure DBCourse where
  id : Nat
  code : String
  name : String
  type : String
  credits : Nat
  needs_room_type : String
deriving DecidableEq, Repr

/-- `Room` row (models/room.py). -/
structure DBRoom where
  id : Nat
  code : String
  type : String
deriving DecidableEq, Repr

/-- `Timeslot` row (models/timeslot.py); day 0 = Monday. -/
structure DBTimeslot where
  id : Nat
  day : Nat
  start_time : Nat
  end_time : Nat
deriving DecidableEq, Repr

/-- `Assignment` row (models/assignment.py). -/
structure DBAssignment where
  id : Nat
  section_id : Nat
  faculty_id : Nat
  course_id : Nat
  room_id : Option Nat
  timeslot_id : Option Nat
deriving DecidableEq, Repr

/-- `TimetableVersion` row.  The structured `snapshot_data` body built by
`_build_structured_output` is a pure function of the post-update tables;
no claim depends on its shape, so only the solver status stored in the
snapshot is kept here. -/
structure TVersion where
  version_number : Nat
  is_published : Bool
  snapshot_status : String
deriving DecidableEq, Repr

/-- The read-only catalog tables. -/
structure Catalog where
  sections : List DBSection
  courses : List DBCourse
  rooms : List DBRoom
  timeslots : List DBTimeslot
deriving Repr

/-- The tables `generate_timetable` mutates. -/
structure DBState where
  assignments : List DBAssignment
  versions : List TVersion
deriving DecidableEq, Repr

/-- Primary-key lookup (unique key in the database). -/
def sectionById (cat : Catalog) (i : Nat) : Option DBSection :=
  cat.sections.find? (·.id == i)

/-- Primary-key lookup. -/
def courseById (cat : Catalog) (i : Nat) : Option DBCourse :=
  cat.courses.find? (·.id == i)

/-- `a.section.code`; a dangling foreign key would raise in Python, the
default is never reached under the well-formedness hypotheses used below. -/
def sectionCodeOf (cat : Catalog) (a : DBAssignment) : String :=
  ((sectionById cat a.section_id).map (·.code)).getD ""

/-- Shift-window filter of the allowed-slot loop (timetable_manager.py
lines 63-73): weekday slots inside the shift envelope, every weekday slot
for any other (or absent) shift value. -/
def slotPasses (shift : Option String) (t : DBTimeslot) : Bool :=
  !(decide (4 < t.day)) &&
  (if shift == some "SHIFT_8_4" then
      decide (480 ≤ t.start_time) && decide (t.end_time ≤ 960)
   else if shift == some "SHIFT_10_6" then
      decide (600 ≤ t.start_time) && decide (t.end_time ≤ 1080)
   else true)

/-- The lunch start removed for a shift (timetable_manager.py lines 77-83). -/
def lunchOf (shift : Option String) : Option Nat :=
  if shift == some "SHIFT_8_4" then some 720
  else if shift == some "SHIFT_10_6" then some 780
  else none

/-- `allowed_slots` of one assignment (timetable_manager.py lines 62-93):
the shift-filtered weekday slots, then first-occurrence removal of the id
of every timeslot starting at the shift lunch time. -/
def computeAllowedSlots (shift : Option String) (ts : List DBTimeslot) : List Nat :=
  let base := (ts.filter (slotPasses shift)).map (·.id)
  match lunchOf shift with
  | none => base
  | some lt =>
      (ts.filter (fun t => t.start_time == lt)).foldl
        (fun acc t => if acc.contains t.id then acc.erase t.id else acc) base

/-- Python `str.upper()`; course type codes are ASCII, where uppering is
per-character. -/
def pyUpper (s : String) : String := ⟨s.data.map Char.toUpper⟩

/-- `is_lab` of an assignment (`c_model.type.upper() == "LAB"`). -/
def isLabOf (cat : Catalog) (a : DBAssignment) : Bool :=
  ((courseById cat a.course_id).map (fun c => pyUpper c.type == "LAB")).getD false

/-- `req_periods` of an assignment (2 for labs, else the course credits). -/
def periodsOf (cat : Catalog) (a : DBAssignment) : Nat :=
  if isLabOf cat a then 2
  else ((courseById cat a.course_id).map (·.credits)).getD 0

/-- Whether an assignment belongs to the targeted sections (full
generation targets everything). -/
def isTarget (cat : Catalog) (targets : Option (List String)) (a : DBAssignment) : Bool :=
  match targets with
  | none => true
  | some names => names.contains (sectionCodeOf cat a)

/-- The `SolverSection` built for one assignment row (timetable_manager.py
lines 58-118).  A fixed (non-targeted) row contributes its current
`(room, slot)` only when both columns are truthy. -/
def buildSolverSection (cat : Catalog) (targets : Option (List String))
    (a : DBAssignment) : SolverSection :=
  let s := (sectionById cat a.section_id).getD ⟨0, "", none⟩
  let c := (courseById cat a.course_id).getD ⟨0, "", "", "LECTURE", 0, "LECTURE"⟩
  { id := a.id
    section_id := s.id
    name := s.code ++ "_" ++ c.code
    course_id := c.id
    faculty_id := a.faculty_id
    room_type_required := c.needs_room_type
    required_periods := periodsOf cat a
    allowed_slot_ids := computeAllowedSlots s.shift cat.timeslots
    is_lab := isLabOf cat a
    fixed_assignments :=
      if !(isTarget cat targets a) && truthy a.room_id && truthy a.timeslot_id then
        some [(a.room_id.getD 0, a.timeslot_id.getD 0)]
      else none }

/-- The full solver input of a generation run. -/
def buildSolverSections (cat : Catalog) (db : DBState)
    (targets : Option (List String)) : List SolverSection :=
  db.assignments.map (buildSolverSection cat targets)

/-- `solver_rooms` (timetable_manager.py line 120). -/
def buildSolverRooms (cat : Catalog) : List SolverRoom :=
  cat.rooms.map (fun r => ⟨r.id, r.code, r.type⟩)

/-- `solver_slots` (timetable_manager.py line 121); `str(t.start_time)` is
injective on times, so minute counts stand in for the strings. -/
def buildSolverSlots (cat : Catalog) : List SolverTimeslot :=
  cat.timeslots.map (fun t => ⟨t.id, t.day, t.start_time, t.end_time⟩)

/-- Update the first assignment row carrying the alloc's id (the partial
path mutates the single ORM object found by `next(...)`). -/
def updateFirst (rows : List DBAssignment) (al : Alloc) : List DBAssignment :=
  match rows with
  | [] => []
  | a :: rs =>
      if a.id == al.section_id then
        { a with room_id := some al.room_id, timeslot_id := some al.timeslot_id } :: rs
      else a :: updateFirst rs al

/-- Row lookup by primary key. -/
def rowById (rows : List DBAssignment) (i : Nat) : Option DBAssignment :=
  rows.find? (·.id == i)

/-- `generate_timetable` given the solver's result (the solver call itself
is related to its inputs by `cpSolveRel` or realised by
`solveFallbackFuel`, depending on the backend).  Returns the created
version, if any, and the new database state.  Fresh rows inserted by the
full path receive autoincrement ids, modelled as 0 (no claim reads them). -/
def generateWith (cat : Catalog) (db : DBState) (version : Nat)
    (targets : Option (List String)) (result : SolverResult) :
    Option TVersion × DBState :=
  if db.assignments.isEmpty then (none, db)
  else
    -- the solver input is built (read-only) before the solve whose
    -- outcome `result` reflects; recorded here for fidelity
    let _inputs := (buildSolverSections cat db targets,
      buildSolverRooms cat, buildSolverSlots cat)
    if result.is_feasible = false then (none, db)
    else
    let newAssignments :=
      match targets with
      | none =>
          result.assignments.map (fun al =>
            let orig := (rowById db.assignments al.section_id).getD
              ⟨0, 0, 0, 0, none, none⟩
            ({ id := 0, section_id := orig.section_id,
               faculty_id := orig.faculty_id, course_id := orig.course_id,
               room_id := some al.room_id,
               timeslot_id := some al.timeslot_id } : DBAssignment))
      | some _ =>
          result.assignments.foldl updateFirst db.assignments
    let newV : TVersion := ⟨version, false, result.status⟩
    (some newV, ⟨newAssignments, db.versions ++ [newV]⟩)

/-! ## Normalization agent (`normalization_agent.py`)

Only the fields read by `apply_confirmations` and
`_suggest_canonical_name` are modelled.  Python dicts keyed by strings are
association lists with replace-first-or-append insertion (the exact `dict`
behaviour: assignment keeps the position of an existing key). -/

/-- `NormalizationSuggestion` (normalization_agent.py lines 37-55),
restricted to the fields `apply_confirmations` reads. -/
structure Suggestion where
  cluster_id : Nat
  detected_names : List String
  suggested_canonical : String
deriving DecidableEq, Repr

/-- Python `dict` assignment `d[k] = v`. -/
def dictInsert : List (String × String) → String → String → List (String × String)
  | [], k, v => [(k, v)]
  | kv :: rest, k, v =>
      if kv.1 == k then (k, v) :: rest else kv :: dictInsert rest k v

/-- Python `d.get(k)` / `d[k]` on a string-keyed dict. -/
def dictGet (d : List (String × String)) (k : String) : Option String :=
  (d.find? (·.1 == k)).map (·.2)

/-- `confirmations.get(cluster_id, "rejected")`. -/
def confGet (confs : List (Nat × String)) (cid : Nat) : String :=
  ((confs.find? (·.1 == cid)).map (·.2)).getD "rejected"

/-- Python `str.lower()`; the confirmation values compared with it are
ASCII, where lowering is per-character. -/
def pyLower (s : String) : String := ⟨s.data.map Char.toLower⟩

/-- `NormalizationAgent.apply_confirmations` (normalization_agent.py lines
425-464): for every suggestion whose confirmation lower-cases to
`"accepted"`, map each detected name to the suggested canonical. -/
def applyConfirmations (suggestions : List Suggestion)
    (confs : List (Nat × String)) : List (String × String) :=
  suggestions.foldl
    (fun mapping sug =>
      if pyLower (confGet confs sug.cluster_id) == "accepted" then
        sug.detected_names.foldl
          (fun m name => dictInsert m name sug.suggested_canonical) mapping
      else mapping)
    []

/-- `NormalizationAgent._suggest_canonical_name` (normalization_agent.py
lines 311-328): `max(cluster, key=len)`, i.e. the first name of maximal
length.  Python `max` raises on an empty cluster; suggestions are
validated to be non-empty, so the `[]` case is unreachable. -/
def suggestCanonical : List String → String
  | [] => ""
  | n :: rest => rest.foldl (fun acc x => if acc.length < x.length then x else acc) n

/-- Applying a final mapping at a call site: mapped names are rewritten,
absent names pass through unchanged. -/
def applyName (m : List (String × String)) (x : String) : String :=
  (dictGet m x).getD x

/-! ## Repair engine (modelled from the spec)

`backend/app/services/repair_engine.py` is not part of the sources (only
`backend/tests/test_repair_engine.py` is), so `repair_schedule` is
modelled from the specification, §4.3: invoke the solver with the locked
assignments pinned and the problem assignments free, forbidding each
problem item's current `(room, slot)` to guarantee movement; if
infeasible, report failure and leave the schedule unchanged. -/

/-- One entry of `current_assignments` as the repair tests build them. -/
structure RepairAssignment where
  id : Nat
  section_id : Nat
  name : String
  course_id : Nat
  faculty_id : Nat
  room_type_required : String
  allowed_slot_ids : List Nat
  room_id : Nat
  timeslot_id : Nat
deriving DecidableEq, Repr

/-- `RepairResult`: success flag, message and the full final assignment
list (entries keyed like solver allocs, `section_id` being the assignment
id). -/
structure RepairResult where
  success : Bool
  message : String
  final_assignments : List Alloc
deriving DecidableEq, Repr

/-- A placement held while re-solving: the assignment together with the
room and slot it occupies. -/
structure RPlaced where
  a : RepairAssignment
  room : Nat
  slot : Nat
deriving DecidableEq, Repr

/-- Modelled from the spec: room type suitability of a repair candidate. -/
def repairRoomOkay (a : RepairAssignment) (r : SolverRoom) : Bool :=
  a.room_type_required == r.type

/-- Modelled from the spec: a candidate `(room, slot)` for a problem
assignment must lie in its allowed domain, differ from its current pair
(movement is forced), and collide with no held placement on room,
faculty or student group. -/
def repairFree (held : List RPlaced) (a : RepairAssignment)
    (r : SolverRoom) (t : Nat) : Bool :=
  repairRoomOkay a r &&
  a.allowed_slot_ids.contains t &&
  !((r.id, t) == (a.room_id, a.timeslot_id)) &&
  !(held.any fun q => q.room == r.id && q.slot == t) &&
  !(held.any fun q => q.a.faculty_id == a.faculty_id && q.slot == t) &&
  !(held.any fun q => q.a.section_id == a.section_id && q.slot == t)

mutual

/-- Modelled from the spec: complete backtracking over the problem
assignments, each receiving one `(room, slot)`. -/
def rpProblems (rooms : List SolverRoom) : Nat → List RepairAssignment →
    List RPlaced → Option (List RPlaced)
  | 0, _, _ => none
  | _ + 1, [], held => some held
  | fuel + 1, a :: rest, held => rpRooms rooms fuel a rooms rest held

/-- Modelled from the spec: loop over candidate rooms. -/
def rpRooms (rooms : List SolverRoom) : Nat → RepairAssignment →
    List SolverRoom → List RepairAssignment → List RPlaced →
    Option (List RPlaced)
  | 0, _, _, _, _ => none
  | _ + 1, _, [], _, _ => none
  | fuel + 1, a, r :: rs, rest, held =>
      match rpSlots rooms fuel a r a.allowed_slot_ids rest held with
      | some res => some res
      | none => rpRooms rooms fuel a rs rest held

/-- Modelled from the spec: loop over candidate slots of one room. -/
def rpSlots (rooms : List SolverRoom) : Nat → RepairAssignment →
    SolverRoom → List Nat → List RepairAssignment → List RPlaced →
    Option (List RPlaced)
  | 0, _, _, _, _, _ => none
  | _ + 1, _, _, [], _, _ => none
  | fuel + 1, a, r, t :: ts, rest, held =>
      if repairFree held a r t then
        match rpProblems rooms fuel rest (⟨a, r.id, t⟩ :: held) with
        | some res => some res
        | none => rpSlots rooms fuel a r ts rest held
      else rpSlots rooms fuel a r ts rest held

end

/-- Modelled from the spec: `RepairEngine.repair_schedule`.  Assignments
outside the problem set (locked or unlisted) are pinned at their current
`(room, slot)`; problem assignments are re-solved with their current pair
forbidden.  On failure the result reports `success = false` with a
"Repair Failed" message and returns the current schedule unchanged. -/
def repairSchedule (fuel : Nat) (current : List RepairAssignment)
    (problem_ids locked_ids : List Nat) (rooms : List SolverRoom)
    (timeslots : List SolverTimeslot) : RepairResult :=
  let _ := (locked_ids, timeslots)
  let pinned := current.filter (fun a => !(problem_ids.contains a.id))
  let probs := current.filter (fun a => problem_ids.contains a.id)
  let held0 : List RPlaced := pinned.map (fun a => ⟨a, a.room_id, a.timeslot_id⟩)
  match rpProblems rooms fuel probs held0 with
  | some held =>
      ⟨true, "Repair successful",
        held.reverse.map (fun q => ⟨q.a.id, q.room, q.slot⟩)⟩
  | none =>
      ⟨false, "Repair Failed: no conflict-free reassignment exists",
        current.map (fun a => ⟨a.id, a.room_id, a.timeslot_id⟩)⟩

/-! ## Statement-level predicates -/

/-- Well-formed solver input: distinct timeslot, room and requirement ids,
duplicate-free allowed lists naming existing timeslots, and no
zero-duration timeslot. -/
def WFInput (sections : List SolverSection) (rooms : List SolverRoom)
    (ts : List SolverTimeslot) : Prop :=
  (ts.map (·.id)).Nodup ∧
  (rooms.map (·.id)).Nodup ∧
  (sections.map (·.id)).Nodup ∧
  (∀ s ∈ sections, s.allowed_slot_ids.Nodup ∧
    ∀ i ∈ s.allowed_slot_ids, i ∈ ts.map (·.id)) ∧
  (∀ t ∈ ts, t.start_time ≠ t.end_time)

/-- Exclusivity of two returned placements: distinct `(room, slot)`, and
distinct slots whenever the owning requirements share a faculty or share a
student group. -/
def allocExcl (sections : List SolverSection) (a b : Alloc) : Prop :=
  ¬(a.room_id = b.room_id ∧ a.timeslot_id = b.timeslot_id) ∧
  (∀ s1 ∈ sections, ∀ s2 ∈ sections, s1.id = a.section_id → s2.id = b.section_id →
    s1.faculty_id = s2.faculty_id → a.timeslot_id ≠ b.timeslot_id) ∧
  (∀ s1 ∈ sections, ∀ s2 ∈ sections, s1.id = a.section_id → s2.id = b.section_id →
    s1.section_id = s2.section_id → a.timeslot_id ≠ b.timeslot_id)

/-- Pairwise exclusivity of a returned placement list. -/
def resultExcl (sections : List SolverSection) (L : List Alloc) : Prop :=
  L.Pairwise (allocExcl sections)

/-- Exclusivity of two fallback placements (over the metadata they carry). -/
def placedExcl (a b : Placed) : Prop :=
  ¬(a.room = b.room ∧ a.slot = b.slot) ∧
  (a.fac = b.fac → a.slot ≠ b.slot) ∧
  (a.grp = b.grp → a.slot ≠ b.slot)

/-- Consistency of one fallback placement with the input tables. -/
def placedMeta (sections : List SolverSection) (rooms : List SolverRoom)
    (ts : List SolverTimeslot) (q : Placed) : Prop :=
  ∃ s ∈ sections, q.sec = s.id ∧ q.fac = s.faculty_id ∧ q.grp = s.section_id ∧
    q.idx < s.required_periods ∧
    (∃ r ∈ rooms, r.id = q.room ∧ roomMatches s r = true) ∧
    q.slot ∈ s.allowed_slot_ids ∧
    (∃ t ∈ ts, t.id = q.slot ∧ q.day = t.day) ∧
    q.countsDay = !(s.is_lab && s.required_periods == 2)

/-- Per-day bound on counted placements of each non-lab requirement. -/
def dayCapped (sections : List SolverSection) (st : List Placed) : Prop :=
  ∀ s ∈ sections, s.is_lab = false → ∀ d,
    st.countP (fun q => q.sec == s.id && q.day == d && q.countsDay) ≤ 2

/-- The running fallback state invariant. -/
def GoodSt (sections : List SolverSection) (rooms : List SolverRoom)
    (ts : List SolverTimeslot) (st : List Placed) : Prop :=
  st.Pairwise placedExcl ∧ (∀ q ∈ st, placedMeta sections rooms ts q) ∧
  dayCapped sections st

/-- What a completed run over a section list adds to the state. -/
def DeltaSpec (ts : List SolverTimeslot) (l : List SolverSection)
    (Δ : List Placed) : Prop :=
  (∀ q ∈ Δ, ∃ s ∈ l, q.sec = s.id) ∧
  (∀ s ∈ l, ∀ p, p < s.required_periods →
    Δ.countP (fun q => q.sec == s.id && q.idx == p) = 1) ∧
  (∀ s ∈ l, s.is_lab = true → s.required_periods = 2 →
    ∃ ro t n, nextLookup ts t = some n ∧ t ∈ s.allowed_slot_ids ∧
      n ∈ s.allowed_slot_ids ∧
      ∀ q ∈ Δ, q.sec = s.id →
        (q.idx = 0 ∧ q.room = ro ∧ q.slot = t) ∨
        (q.idx = 1 ∧ q.room = ro ∧ q.slot = n))

/-- What a completed period run (periods ≥ `p` of `s`, then the rest) adds. -/
def DeltaSpecP (ts : List SolverTimeslot) (s : SolverSection) (p : Nat)
    (rest : List SolverSection) (Δ : List Placed) : Prop :=
  (∀ q ∈ Δ, (q.sec = s.id ∧ p ≤ q.idx) ∨ ∃ s' ∈ rest, q.sec = s'.id) ∧
  (∀ i, p ≤ i → i < s.required_periods →
    Δ.countP (fun q => q.sec == s.id && q.idx == i) = 1) ∧
  (∀ s' ∈ rest, ∀ i, i < s'.required_periods →
    Δ.countP (fun q => q.sec == s'.id && q.idx == i) = 1) ∧
  (∀ s' ∈ rest, s'.is_lab = true → s'.required_periods = 2 →
    ∃ ro t n, nextLookup ts t = some n ∧ t ∈ s'.allowed_slot_ids ∧
      n ∈ s'.allowed_slot_ids ∧
      ∀ q ∈ Δ, q.sec = s'.id →
        (q.idx = 0 ∧ q.room = ro ∧ q.slot = t) ∨
        (q.idx = 1 ∧ q.room = ro ∧ q.slot = n))

/-- The CP variable a fallback placement corresponds to. -/
def toVar (q : Placed) : Var := ⟨q.sec, q.idx, q.room, q.slot⟩

/-! ## Claim C4: instances -/

/-- Counterexample instance: a single requirement whose only allowed slot
starts at 12:00.  The CP backend never blocks lunch slots; the fallback
blocks 12:00/13:00 starts globally in `can_place`. -/
def c4Sec : SolverSection :=
  ⟨1, 1, "S", 1, 1, "Lecture", 1, [1], false, none⟩

def c4Room : SolverRoom := ⟨1, "R", "Lecture"⟩

def c4Slot : SolverTimeslot := ⟨1, 0, 720, 780⟩

/-- Witness instance: one requirement, one room, one 9:00-10:00 slot. -/
def c4wSec : SolverSection :=
  ⟨1, 1, "S", 1, 1, "Lecture", 1, [1], false, none⟩

def c4wRoom : SolverRoom := ⟨1, "R", "Lecture"⟩

def c4wSlot : SolverTimeslot := ⟨1, 0, 540, 600⟩

/-! ## Claim C3 -/

/-- Counterexample instance: a requirement with no candidate variables
(no rooms exist). -/
def c3Sec : SolverSection := ⟨1, 1, "S", 1, 1, "Lecture", 1, [], false, none⟩

/-- Counterexample instance: a fixed assignment naming a room/slot outside
the (empty) variable dictionary. -/
def c3FixSec : SolverSection :=
  ⟨2, 2, "F", 1, 1, "Lecture", 1, [1], false, some [(9, 9)]⟩

/-! ## Claim C7 -/

/-- Witness instance for C7: a one-row assignment table. -/
def c7Cat : Catalog := ⟨[], [], [], []⟩

def c7Db : DBState := ⟨[⟨1, 1, 1, 1, none, none⟩], []⟩

/-- Witness instance for C10, mirroring `test_basic_repair_move_one`:
A1 (id 101) at (room 1, slot 1) is the problem, A2 (id 102) at
(room 1, slot 2) is locked. -/
def c10Current : List RepairAssignment :=
  [⟨101, 1, "A1", 10, 10, "Lecture", [1, 2], 1, 1⟩,
   ⟨102, 2, "A2", 11, 11, "Lecture", [1, 2], 1, 2⟩]

def c10Rooms : List SolverRoom := [⟨1, "R1", "Lecture"⟩, ⟨2, "R2", "Lecture"⟩]

def c10Slots : List SolverTimeslot := [⟨1, 0, 540, 600⟩, ⟨2, 0, 600, 660⟩]

/-- Counterexample instance for C6: one non-targeted assignment whose
course has 2 credits.  Only its first period is pinned; the solver places
the second period at slot 2 and the partial-path update overwrites the
row. -/
def c6Cat : Catalog :=
  ⟨[⟨1, "S1", none⟩],
   [⟨10, "C1", "Course", "LECTURE", 2, "Lecture"⟩],
   [⟨1, "R", "Lecture"⟩],
   [⟨1, 0, 540, 600⟩, ⟨2, 0, 600, 660⟩]⟩

def c6Row : DBAssignment := ⟨5, 1, 7, 10, some 1, some 1⟩

def c6Db : DBState := ⟨[c6Row], []⟩

def c6Sol : List Var := [⟨5, 0, 1, 1⟩, ⟨5, 1, 1, 2⟩]

/-- Witness instance for C6: the same shape with a 1-credit course, so the
single period is pinned and the row survives unchanged. -/
def c6wCat : Catalog :=
  ⟨[⟨1, "S1", none⟩],
   [⟨10, "C1", "Course", "LECTURE", 1, "Lecture"⟩],
   [⟨1, "R", "Lecture"⟩],
   [⟨1, 0, 540, 600⟩, ⟨2, 0, 600, 660⟩]⟩

def c6wDb : DBState := ⟨[⟨5, 1, 7, 10, some 1, some 1⟩], []⟩

def c6wSol : List Var := [⟨5, 0, 1, 1⟩]

/-! ## Claims C1 and C2: instances -/

/-- Witness instance for C1. -/
def c1wSec : SolverSection :=
  ⟨1, 1, "S", 1, 1, "Lecture", 1, [1], false, none⟩

def c1wRoom : SolverRoom := ⟨1, "R", "Lecture"⟩

def c1wSlot : SolverTimeslot := ⟨1, 0, 540, 600⟩

/-- Counterexample instance for C2: a 2-period lab whose two periods are
both pinned by `fixed_assignments`; pinning skips the exactly-one sum, so
a third variable may be set. -/
def c2xSec : SolverSection :=
  ⟨1, 1, "L", 1, 1, "Lab", 2, [1, 2, 3], true, some [(1, 1), (1, 2)]⟩

def c2xRoom : SolverRoom := ⟨1, "R", "Lab"⟩

def c2xSlots : List SolverTimeslot :=
  [⟨1, 0, 540, 600⟩, ⟨2, 0, 600, 660⟩, ⟨3, 0, 660, 720⟩]

def c2xSol : List Var := [⟨1, 0, 1, 1⟩, ⟨1, 1, 1, 2⟩, ⟨1, 1, 1, 3⟩]

/-- Witness instance for C2: an unpinned 2-period lab over two adjacent
slots. -/
def c2wSec : SolverSection :=
  ⟨1, 1, "L", 1, 1, "Lab", 2, [1, 2], true, none⟩

def c2wRoom : SolverRoom := ⟨1, "R", "Lab"⟩

def c2wSlots : List SolverTimeslot := [⟨1, 0, 540, 600⟩, ⟨2, 0, 600, 660⟩]

/-! ## Theorems -/

/-! ## General list lemmas -/

theorem contains_true_iff {α : Type} [BEq α] [LawfulBEq α] (l : List α) (a : α) :
    l.contains a = true ↔ a ∈ l := by
  rw [List.contains_eq_any_beq]
  simp only [List.any_eq_true, beq_iff_eq]
  constructor
  · rintro ⟨x, hx, rfl⟩; exact hx
  · intro h; exact ⟨a, h, rfl⟩

theorem firstSome_eq_some {α β : Type} (f : α → Option β) (l : List α) (b : β)
    (h : firstSome f l = some b) : ∃ a ∈ l, f a = some b := by
  induction l with
  | nil => simp [firstSome] at h
  | cons a l ih =>
      simp only [firstSome] at h
      cases hfa : f a with
      | some b' =>
          rw [hfa] at h
          exact ⟨a, List.mem_cons_self a l, by simpa [hfa] using h⟩
      | none =>
          rw [hfa] at h
          obtain ⟨a', ha', hfa'⟩ := ih h
          exact ⟨a', List.mem_cons_of_mem _ ha', hfa'⟩

theorem two_mem_le_countP {α : Type} (p : α → Bool) (l : List α) (a b : α)
    (ha : a ∈ l) (hb : b ∈ l) (hab : a ≠ b) (hpa : p a = true) (hpb : p b = true) :
    2 ≤ l.countP p := by
  induction l with
  | nil => simp at ha
  | cons x l ih =>
      rcases List.mem_cons.mp ha with rfl | ha'
      · have hb' : b ∈ l := by
          rcases List.mem_cons.mp hb with rfl | hb'
          · exact absurd rfl hab
          · exact hb'
        have h1 : 1 ≤ l.countP p := by
          have := List.countP_pos_iff.mpr ⟨b, hb', hpb⟩
          omega
        rw [List.countP_cons_of_pos (p := p) _ hpa]; omega
      · rcases List.mem_cons.mp hb with rfl | hb'
        · have h1 : 1 ≤ l.countP p := by
            have := List.countP_pos_iff.mpr ⟨a, ha', hpa⟩
            omega
          rw [List.countP_cons_of_pos (p := p) _ hpb]; omega
        · have := ih ha' hb'
          rw [List.countP_cons]
          omega

theorem three_mem_le_countP {α : Type} (p : α → Bool) (l : List α) (a b c : α)
    (ha : a ∈ l) (hb : b ∈ l) (hc : c ∈ l)
    (hab : a ≠ b) (hac : a ≠ c) (hbc : b ≠ c)
    (hpa : p a = true) (hpb : p b = true) (hpc : p c = true) :
    3 ≤ l.countP p := by
  induction l with
  | nil => simp at ha
  | cons x l ih =>
      by_cases hx : x = a
      · subst hx
        have hb' : b ∈ l := by
          rcases List.mem_cons.mp hb with rfl | h
          · exact absurd rfl (Ne.symm hab)
          · exact h
        have hc' : c ∈ l := by
          rcases List.mem_cons.mp hc with rfl | h
          · exact absurd rfl (Ne.symm hac)
          · exact h
        have := two_mem_le_countP p l b c hb' hc' hbc hpb hpc
        rw [List.countP_cons_of_pos (p := p) _ hpa]; omega
      · by_cases hxb : x = b
        · subst hxb
          have ha' : a ∈ l := by
            rcases List.mem_cons.mp ha with rfl | h
            · exact absurd rfl hx
            · exact h
          have hc' : c ∈ l := by
            rcases List.mem_cons.mp hc with rfl | h
            · exact absurd rfl (Ne.symm hbc)
            · exact h
          have := two_mem_le_countP p l a c ha' hc' hac hpa hpc
          rw [List.countP_cons_of_pos (p := p) _ hpb]; omega
        · by_cases hxc : x = c
          · subst hxc
            have ha' : a ∈ l := by
              rcases List.mem_cons.mp ha with rfl | h
              · exact absurd rfl hx
              · exact h
            have hb' : b ∈ l := by
              rcases List.mem_cons.mp hb with rfl | h
              · exact absurd rfl hxb
              · exact h
            have := two_mem_le_countP p l a b ha' hb' hab hpa hpb
            rw [List.countP_cons_of_pos (p := p) _ hpc]; omega
          · have ha' : a ∈ l := by
              rcases List.mem_cons.mp ha with rfl | h
              · exact absurd rfl hx
              · exact h
            have hb' : b ∈ l := by
              rcases List.mem_cons.mp hb with rfl | h
              · exact absurd rfl hxb
              · exact h
            have hc' : c ∈ l := by
              rcases List.mem_cons.mp hc with rfl | h
              · exact absurd rfl hxc
              · exact h
            have := ih ha' hb' hc'
            rw [List.countP_cons]
            omega

theorem countP_eq_one_unique {α : Type} (p : α → Bool) (l : List α)
    (h : l.countP p = 1) (a b : α) (ha : a ∈ l) (hb : b ∈ l)
    (hpa : p a = true) (hpb : p b = true) : a = b := by
  by_contra hne
  have := two_mem_le_countP p l a b ha hb hne hpa hpb
  omega

theorem countP_eq_one_exists {α : Type} (p : α → Bool) (l : List α)
    (h : l.countP p = 1) : ∃ a ∈ l, p a = true := by
  have : 0 < l.countP p := by omega
  obtain ⟨a, ha, hpa⟩ := List.countP_pos_iff.mp this
  exact ⟨a, ha, hpa⟩

/-! ## Decoding the CP constraints -/

theorem xHasKey_elim {sections : List SolverSection} {rooms : List SolverRoom}
    {v : Var} (h : xHasKey sections rooms v = true) :
    ∃ s ∈ sections, s.id = v.sec ∧ v.p < s.required_periods ∧
      (∃ r ∈ rooms, r.id = v.room ∧ roomMatches s r = true) ∧
      v.slot ∈ s.allowed_slot_ids := by
  simp only [xHasKey, List.any_eq_true, Bool.and_eq_true, beq_iff_eq,
    decide_eq_true_eq, contains_true_iff] at h
  obtain ⟨s, hs, ⟨⟨hid, hp⟩, hr⟩, hslot⟩ := h
  exact ⟨s, hs, hid, hp, by simpa using hr, by simpa using hslot⟩

theorem cpSatisfies_elim {sections : List SolverSection} {rooms : List SolverRoom}
    {ts : List SolverTimeslot} {sol : List Var}
    (h : cpSatisfies sections rooms ts sol = true) :
    sol.Nodup ∧ (∀ v ∈ sol, xHasKey sections rooms v = true) ∧
    pinOk sections sol = true ∧ exactOneOk sections rooms sol = true ∧
    labOk sections rooms ts sol = true ∧ roomOk sections rooms ts sol = true ∧
    facOk sections rooms ts sol = true ∧ grpOk sections rooms ts sol = true ∧
    dayOk sections rooms ts sol = true := by
  simp only [cpSatisfies, Bool.and_eq_true, decide_eq_true_eq, List.all_eq_true] at h
  tauto

theorem roomOk_elim {sections : List SolverSection} {rooms : List SolverRoom}
    {ts : List SolverTimeslot} {sol : List Var}
    (h : roomOk sections rooms ts sol = true) :
    ∀ r ∈ rooms, ∀ t ∈ ts,
      (secPeriodList sections).countP
        (fun sp => sol.contains ⟨sp.1, sp.2, r.id, t.id⟩) ≤ 1 := by
  simp only [roomOk, List.all_eq_true, decide_eq_true_eq] at h
  exact h

theorem facOk_elim {sections : List SolverSection} {rooms : List SolverRoom}
    {ts : List SolverTimeslot} {sol : List Var}
    (h : facOk sections rooms ts sol = true) :
    ∀ f ∈ sections.map (·.faculty_id), ∀ t ∈ ts,
      (((sections.filter (fun s => s.faculty_id == f)).flatMap fun s =>
        (List.range s.required_periods).flatMap fun p =>
          rooms.map fun r => (s.id, p, r.id)).countP
      (fun k => xHasKey sections rooms ⟨k.1, k.2.1, k.2.2, t.id⟩ &&
        sol.contains ⟨k.1, k.2.1, k.2.2, t.id⟩)) ≤ 1 := by
  simp only [facOk, List.all_eq_true, decide_eq_true_eq] at h
  exact h

theorem grpOk_elim {sections : List SolverSection} {rooms : List SolverRoom}
    {ts : List SolverTimeslot} {sol : List Var}
    (h : grpOk sections rooms ts sol = true) :
    ∀ g ∈ sections.map (·.section_id), ∀ t ∈ ts,
      (((sections.filter (fun s => s.section_id == g)).flatMap fun s =>
        (List.range s.required_periods).flatMap fun p =>
          rooms.map fun r => (s.id, p, r.id)).countP
      (fun k => xHasKey sections rooms ⟨k.1, k.2.1, k.2.2, t.id⟩ &&
        sol.contains ⟨k.1, k.2.1, k.2.2, t.id⟩)) ≤ 1 := by
  simp only [grpOk, List.all_eq_true, decide_eq_true_eq] at h
  exact h

/-- Members of a list whose images under an id map are distinct coincide
when their ids do. -/
theorem id_inj {α : Type} {l : List α} {f : α → Nat}
    (h : (l.map f).Nodup) {a b : α} (ha : a ∈ l) (hb : b ∈ l)
    (hf : f a = f b) : a = b :=
  List.inj_on_of_nodup_map h ha hb hf

/-- CP side of claim C1: distinct variables of a satisfying assignment are
pairwise exclusive. -/
theorem cp_excl {sections : List SolverSection} {rooms : List SolverRoom}
    {ts : List SolverTimeslot} {sol : List Var}
    (hwf : WFInput sections rooms ts)
    (h : cpSatisfies sections rooms ts sol = true) :
    sol.Pairwise (fun u v =>
      allocExcl sections ⟨u.sec, u.room, u.slot⟩ ⟨v.sec, v.room, v.slot⟩) := by
  obtain ⟨htsN, hrN, hsN, hallow, hdur⟩ := hwf
  obtain ⟨hnodup, hvalid, _hpin, _hone, _hlab, hroom, hfac, hgrp, _hday⟩ :=
    cpSatisfies_elim h
  have hroom' := roomOk_elim hroom
  have hfac' := facOk_elim hfac
  have hgrp' := grpOk_elim hgrp
  refine List.Pairwise.imp_of_mem ?_ hnodup
  intro u v hu hv hne
  obtain ⟨su, hsu, hsuid, hsup, ⟨ru, hru, hruid, hrum⟩, hslotu⟩ :=
    xHasKey_elim (hvalid u hu)
  obtain ⟨sv, hsv, hsvid, hsvp, ⟨rv, hrv, hrvid, hrvm⟩, hslotv⟩ :=
    xHasKey_elim (hvalid v hv)
  obtain ⟨Tu, hTu, hTuid⟩ : ∃ T ∈ ts, T.id = u.slot := by
    have := (hallow su hsu).2 u.slot hslotu
    simpa [List.mem_map, eq_comm] using this
  have memSP : ∀ (w : Var) (sw : SolverSection), sw ∈ sections → sw.id = w.sec →
      w.p < sw.required_periods → (w.sec, w.p) ∈ secPeriodList sections := by
    intro w sw hsw hswid hswp
    simp only [secPeriodList, List.mem_flatMap, List.mem_map]
    exact ⟨sw, hsw, w.p, by simpa using hswp, by simp [hswid]⟩
  refine ⟨?_, ?_, ?_⟩
  · -- no shared (room, slot)
    rintro ⟨hroomEq', hslotEq'⟩
    have hroomEq : u.room = v.room := hroomEq'
    have hslotEq : u.slot = v.slot := hslotEq'
    have hcnt := hroom' ru hru Tu hTu
    have hcu : (List.contains sol ⟨u.sec, u.p, ru.id, Tu.id⟩) = true := by
      rw [contains_true_iff]
      have : (⟨u.sec, u.p, ru.id, Tu.id⟩ : Var) = u := by
        cases u; simp_all
      rwa [this]
    have hcv : (List.contains sol ⟨v.sec, v.p, ru.id, Tu.id⟩) = true := by
      rw [contains_true_iff]
      have : (⟨v.sec, v.p, ru.id, Tu.id⟩ : Var) = v := by
        cases v; simp_all
      rwa [this]
    by_cases hsp : (u.sec, u.p) = (v.sec, v.p)
    · apply hne
      have h1 : u.sec = v.sec := congrArg Prod.fst hsp
      have h2 : u.p = v.p := congrArg Prod.snd hsp
      cases u; cases v; simp_all
    · have h2le := two_mem_le_countP
        (fun sp => sol.contains ⟨sp.1, sp.2, ru.id, Tu.id⟩)
        (secPeriodList sections) (u.sec, u.p) (v.sec, v.p)
        (memSP u su hsu hsuid hsup) (memSP v sv hsv hsvid hsvp) hsp hcu hcv
      omega
  · -- no shared (faculty, slot)
    intro s1 hs1 s2 hs2 hid1' hid2' hfeq hsloteq'
    have hid1 : s1.id = u.sec := hid1'
    have hid2 : s2.id = v.sec := hid2'
    have hsloteq : u.slot = v.slot := hsloteq'
    have hs1u : s1 = su := id_inj hsN hs1 hsu (by rw [hid1, hsuid])
    have hs2v : s2 = sv := id_inj hsN hs2 hsv (by rw [hid2, hsvid])
    have hfmem : s1.faculty_id ∈ sections.map (·.faculty_id) :=
      List.mem_map.mpr ⟨s1, hs1, rfl⟩
    have hcnt := hfac' s1.faculty_id hfmem Tu hTu
    set trips := ((sections.filter (fun s => s.faculty_id == s1.faculty_id)).flatMap fun s =>
      (List.range s.required_periods).flatMap fun p =>
        rooms.map fun r => (s.id, p, r.id)) with htrips
    have memT : ∀ (w : Var) (sw : SolverSection) (rw' : SolverRoom),
        sw ∈ sections → sw.id = w.sec → w.p < sw.required_periods →
        sw.faculty_id = s1.faculty_id → rw' ∈ rooms → rw'.id = w.room →
        (w.sec, w.p, w.room) ∈ trips := by
      intro w sw rw' hsw hswid hswp hswf hrw hrwid
      rw [htrips]
      simp only [List.mem_flatMap, List.mem_map, List.mem_filter, List.mem_range]
      exact ⟨sw, ⟨hsw, by simp [hswf]⟩, w.p, hswp, rw', hrw, by simp [hswid, hrwid]⟩
    have predHolds : ∀ (w : Var), w ∈ sol → w.slot = Tu.id →
        ((xHasKey sections rooms ⟨w.sec, w.p, w.room, Tu.id⟩ &&
          sol.contains ⟨w.sec, w.p, w.room, Tu.id⟩) = true) := by
      intro w hw hwslot
      have hwv : (⟨w.sec, w.p, w.room, Tu.id⟩ : Var) = w := by
        cases w; simp_all
      rw [hwv, Bool.and_eq_true, contains_true_iff]
      exact ⟨hvalid w hw, hw⟩
    have hufac : su.faculty_id = s1.faculty_id := by rw [hs1u]
    have hvfac : sv.faculty_id = s1.faculty_id := by rw [← hs2v]; exact hfeq.symm
    have hmemu := memT u su ru hsu hsuid hsup hufac hru hruid
    have hmemv := memT v sv rv hsv hsvid hsvp hvfac hrv hrvid
    have hcu := predHolds u hu hTuid.symm
    have hcv := predHolds v hv (by rw [hTuid, hsloteq])
    by_cases htr : (u.sec, u.p, u.room) = (v.sec, v.p, v.room)
    · apply hne
      simp only [Prod.mk.injEq] at htr
      obtain ⟨e1, e2, e3⟩ := htr
      cases u; cases v; simp_all
    · have h2le := two_mem_le_countP
        (fun k => xHasKey sections rooms ⟨k.1, k.2.1, k.2.2, Tu.id⟩ &&
          sol.contains ⟨k.1, k.2.1, k.2.2, Tu.id⟩)
        trips _ _ hmemu hmemv htr hcu hcv
      omega
  · -- no shared (student group, slot)
    intro s1 hs1 s2 hs2 hid1' hid2' hgeq hsloteq'
    have hid1 : s1.id = u.sec := hid1'
    have hid2 : s2.id = v.sec := hid2'
    have hsloteq : u.slot = v.slot := hsloteq'
    have hs1u : s1 = su := id_inj hsN hs1 hsu (by rw [hid1, hsuid])
    have hs2v : s2 = sv := id_inj hsN hs2 hsv (by rw [hid2, hsvid])
    have hgmem : s1.section_id ∈ sections.map (·.section_id) :=
      List.mem_map.mpr ⟨s1, hs1, rfl⟩
    have hcnt := hgrp' s1.section_id hgmem Tu hTu
    set trips := ((sections.filter (fun s => s.section_id == s1.section_id)).flatMap fun s =>
      (List.range s.required_periods).flatMap fun p =>
        rooms.map fun r => (s.id, p, r.id)) with htrips
    have memT : ∀ (w : Var) (sw : SolverSection) (rw' : SolverRoom),
        sw ∈ sections → sw.id = w.sec → w.p < sw.required_periods →
        sw.section_id = s1.section_id → rw' ∈ rooms → rw'.id = w.room →
        (w.sec, w.p, w.room) ∈ trips := by
      intro w sw rw' hsw hswid hswp hswf hrw hrwid
      rw [htrips]
      simp only [List.mem_flatMap, List.mem_map, List.mem_filter, List.mem_range]
      exact ⟨sw, ⟨hsw, by simp [hswf]⟩, w.p, hswp, rw', hrw, by simp [hswid, hrwid]⟩
    have predHolds : ∀ (w : Var), w ∈ sol → w.slot = Tu.id →
        ((xHasKey sections rooms ⟨w.sec, w.p, w.room, Tu.id⟩ &&
          sol.contains ⟨w.sec, w.p, w.room, Tu.id⟩) = true) := by
      intro w hw hwslot
      have hwv : (⟨w.sec, w.p, w.room, Tu.id⟩ : Var) = w := by
        cases w; simp_all
      rw [hwv, Bool.and_eq_true, contains_true_iff]
      exact ⟨hvalid w hw, hw⟩
    have hugrp : su.section_id = s1.section_id := by rw [hs1u]
    have hvgrp : sv.section_id = s1.section_id := by rw [← hs2v]; exact hgeq.symm
    have hmemu := memT u su ru hsu hsuid hsup hugrp hru hruid
    have hmemv := memT v sv rv hsv hsvid hsvp hvgrp hrv hrvid
    have hcu := predHolds u hu hTuid.symm
    have hcv := predHolds v hv (by rw [hTuid, hsloteq])
    by_cases htr : (u.sec, u.p, u.room) = (v.sec, v.p, v.room)
    · apply hne
      simp only [Prod.mk.injEq] at htr
      obtain ⟨e1, e2, e3⟩ := htr
      cases u; cases v; simp_all
    · have h2le := two_mem_le_countP
        (fun k => xHasKey sections rooms ⟨k.1, k.2.1, k.2.2, Tu.id⟩ &&
          sol.contains ⟨k.1, k.2.1, k.2.2, Tu.id⟩)
        trips _ _ hmemu hmemv htr hcu hcv
      omega

theorem countP_imp_le {α : Type} {p q : α → Bool} (l : List α)
    (h : ∀ a ∈ l, p a = true → q a = true) : l.countP p ≤ l.countP q := by
  induction l with
  | nil => simp
  | cons x l ih =>
      have hx := h x (List.mem_cons_self x l)
      have ih' := ih (fun a ha => h a (List.mem_cons_of_mem _ ha))
      rw [List.countP_cons, List.countP_cons]
      by_cases hp : p x = true
      · rw [hp, if_pos rfl, h x (List.mem_cons_self x l) hp, if_pos rfl]; omega
      · have : ¬(q x = true) → True := fun _ => trivial
        by_cases hq : q x = true
        · simp only [hq, if_pos rfl]
          simp only [Bool.not_eq_true] at hp
          simp [hp]; omega
        · simp only [Bool.not_eq_true] at hp hq
          simp [hp, hq]; omega

/-! ## Lookup table facts -/

theorem slotMapFind_spec {ts : List SolverTimeslot} {day start n : Nat}
    (h : slotMapFind ts day start = some n) :
    ∃ u ∈ ts, u.day = day ∧ u.start_time = start ∧ u.id = n := by
  unfold slotMapFind at h
  cases hf : ts.reverse.find? (fun t => t.day == day && t.start_time == start) with
  | none => rw [hf] at h; simp at h
  | some u =>
      rw [hf] at h
      simp only [Option.map_some'] at h
      have hmem : u ∈ ts := List.mem_reverse.mp (List.mem_of_find?_eq_some hf)
      have hp := List.find?_some hf
      simp only [Bool.and_eq_true, beq_iff_eq] at hp
      exact ⟨u, hmem, hp.1, hp.2, by simpa using h⟩

theorem nextLookup_spec {ts : List SolverTimeslot} {i n : Nat}
    (h : nextLookup ts i = some n) :
    n ≠ 0 ∧ ∃ t' ∈ ts, t'.id = i ∧
      ∃ u ∈ ts, u.id = n ∧ u.day = t'.day ∧ u.start_time = t'.end_time := by
  unfold nextLookup at h
  cases hf : ts.reverse.find?
      (fun t => t.id == i && truthy (slotMapFind ts t.day t.end_time)) with
  | none => rw [hf] at h; simp at h
  | some t' =>
      rw [hf] at h
      have hmem : t' ∈ ts := List.mem_reverse.mp (List.mem_of_find?_eq_some hf)
      have hp := List.find?_some hf
      simp only [Bool.and_eq_true, beq_iff_eq] at hp
      obtain ⟨hid, htr⟩ := hp
      have h' : slotMapFind ts t'.day t'.end_time = some n := h
      obtain ⟨u, hu, hud, hus, huid⟩ := slotMapFind_spec h'
      refine ⟨?_, t', hmem, hid, u, hu, huid, hud, hus⟩
      rw [h'] at htr
      simpa [truthy] using htr

theorem nextLookup_ne_self {ts : List SolverTimeslot} {i : Nat}
    (hts : (ts.map (·.id)).Nodup) (hdur : ∀ t ∈ ts, t.start_time ≠ t.end_time) :
    nextLookup ts i ≠ some i := by
  intro h
  obtain ⟨_, t', ht', hid, u, hu, huid, hud, hus⟩ := nextLookup_spec h
  have : u = t' := id_inj hts hu ht' (by rw [huid, hid])
  subst this
  exact hdur u hu hus

theorem slotById_spec {ts : List SolverTimeslot} {i : Nat} {T : SolverTimeslot}
    (h : slotById ts i = some T) : T ∈ ts ∧ T.id = i := by
  unfold slotById at h
  have hmem : T ∈ ts := List.mem_reverse.mp (List.mem_of_find?_eq_some h)
  have hp := List.find?_some h
  simp only [beq_iff_eq] at hp
  exact ⟨hmem, hp⟩

theorem slotById_of_mem {ts : List SolverTimeslot} {i : Nat}
    (h : i ∈ ts.map (·.id)) : ∃ T, slotById ts i = some T := by
  obtain ⟨t, ht, rfl⟩ := List.mem_map.mp h
  unfold slotById
  cases hf : ts.reverse.find? (fun u => u.id == t.id) with
  | some T => exact ⟨T, rfl⟩
  | none =>
      exfalso
      have := List.find?_eq_none.mp hf t (List.mem_reverse.mpr ht)
      simp at this

/-! ## Decoding the fallback checks -/

theorem roomTaken_false {st : List Placed} {a b : Nat}
    (h : roomTaken st a b = false) : ∀ q ∈ st, ¬(q.room = a ∧ q.slot = b) := by
  intro q hq hcontra
  have : roomTaken st a b = true := by
    simp only [roomTaken, List.any_eq_true]
    exact ⟨q, hq, by simp [hcontra.1, hcontra.2]⟩
  rw [h] at this; exact Bool.false_ne_true this

theorem facTaken_false {st : List Placed} {a b : Nat}
    (h : facTaken st a b = false) : ∀ q ∈ st, ¬(q.fac = a ∧ q.slot = b) := by
  intro q hq hcontra
  have : facTaken st a b = true := by
    simp only [facTaken, List.any_eq_true]
    exact ⟨q, hq, by simp [hcontra.1, hcontra.2]⟩
  rw [h] at this; exact Bool.false_ne_true this

theorem grpTaken_false {st : List Placed} {a b : Nat}
    (h : grpTaken st a b = false) : ∀ q ∈ st, ¬(q.grp = a ∧ q.slot = b) := by
  intro q hq hcontra
  have : grpTaken st a b = true := by
    simp only [grpTaken, List.any_eq_true]
    exact ⟨q, hq, by simp [hcontra.1, hcontra.2]⟩
  rw [h] at this; exact Bool.false_ne_true this

theorem canPlace_elim {ts : List SolverTimeslot} {st : List Placed}
    {s : SolverSection} {r : SolverRoom} {t : Nat}
    (h : canPlace ts st s r t = true) :
    roomMatches s r = true ∧ t ∈ s.allowed_slot_ids ∧
    ∃ sl, slotById ts t = some sl ∧ isLunchStart sl.start_time = false ∧
      roomTaken st r.id t = false ∧ facTaken st s.faculty_id t = false ∧
      grpTaken st s.section_id t = false ∧
      (s.is_lab = true ∨ dayCount st s.section_id sl.day + 1 ≤ 2) := by
  unfold canPlace at h
  rw [Bool.and_eq_true, Bool.and_eq_true] at h
  obtain ⟨⟨hm, hallow⟩, hrest⟩ := h
  refine ⟨hm, by simpa [contains_true_iff] using hallow, ?_⟩
  cases hsl : slotById ts t with
  | none => rw [hsl] at hrest; simp at hrest
  | some sl =>
      rw [hsl] at hrest
      simp only [Bool.and_eq_true, Bool.not_eq_true', Bool.or_eq_true,
        decide_eq_true_eq] at hrest
      obtain ⟨⟨⟨⟨hl, hr⟩, hfa⟩, hg⟩, ho⟩ := hrest
      exact ⟨sl, rfl, hl, hr, hfa, hg, ho⟩

theorem labCheck_elim {ts : List SolverTimeslot} {st : List Placed}
    {s : SolverSection} {r : SolverRoom} {t n : Nat}
    (h : labCheck ts st s r t = some n) :
    nextLookup ts t = some n ∧ n ∈ s.allowed_slot_ids ∧
    canPlace ts st s r t = true ∧ roomTaken st r.id n = false ∧
    facTaken st s.faculty_id n = false ∧ grpTaken st s.section_id n = false := by
  unfold labCheck at h
  split at h
  next => simp at h
  next n' hnl =>
    split at h
    next h1 => simp at h
    next h1 =>
      split at h
      next h2 => simp at h
      next h2 =>
        split at h
        next h3 => simp at h
        next h3 =>
          split at h
          next h4 => simp at h
          next h4 =>
            split at h
            next h5 => simp at h
            next h5 =>
              obtain rfl : n' = n := by simpa using h
              refine ⟨hnl, ?_, ?_, ?_, ?_, ?_⟩
              · have h1' := h1
                simp only [Bool.not_eq_true', Bool.not_eq_false] at h1'
                simpa [contains_true_iff] using h1'
              · have h2' := h2
                simp only [Bool.not_eq_true', Bool.not_eq_false] at h2'
                exact h2'
              · simpa using h3
              · simpa using h4
              · simpa using h5

theorem matchingPairs_mem {rooms : List SolverRoom} {s : SolverSection}
    {r : SolverRoom} {t' : Nat} (hr : r ∈ rooms) (hm : roomMatches s r = true)
    (ht : t' ∈ s.allowed_slot_ids) : (r.id, t') ∈ matchingPairs rooms s := by
  simp only [matchingPairs, List.mem_flatMap, List.mem_filter, List.mem_map]
  exact ⟨r, ⟨hr, hm⟩, t', ht, rfl⟩

theorem exactOneOk_elim {sections : List SolverSection} {rooms : List SolverRoom}
    {sol : List Var} (h : exactOneOk sections rooms sol = true)
    {s : SolverSection} (hs : s ∈ sections) {p : Nat}
    (hp : p < s.required_periods) (hnf : fixedFor s p = none) :
    (matchingPairs rooms s).countP
      (fun rt => sol.contains ⟨s.id, p, rt.1, rt.2⟩) = 1 := by
  simp only [exactOneOk, List.all_eq_true] at h
  have := h s hs p (by simpa using List.mem_range.mpr hp)
  rw [hnf] at this
  simpa using this

theorem labOk_elim' {sections : List SolverSection} {rooms : List SolverRoom}
    {ts : List SolverTimeslot} {sol : List Var}
    (h : labOk sections rooms ts sol = true)
    {s : SolverSection} (hs : s ∈ sections) (hlab : s.is_lab = true)
    (hp2 : s.required_periods = 2)
    {r : SolverRoom} (hr : r ∈ rooms) (hm : roomMatches s r = true)
    {t : Nat} (ht : t ∈ s.allowed_slot_ids)
    (hc : sol.contains ⟨s.id, 0, r.id, t⟩ = true) :
    ∃ n, nextLookup ts t = some n ∧
      xHasKey sections rooms ⟨s.id, 1, r.id, n⟩ = true ∧
      sol.contains ⟨s.id, 1, r.id, n⟩ = true := by
  simp only [labOk, List.all_eq_true] at h
  have hsOk := h s hs
  have hcond : (s.is_lab && (s.required_periods == 2)) = true := by
    rw [hlab, hp2]; rfl
  rw [if_pos hcond] at hsOk
  simp only [List.all_eq_true] at hsOk
  have h1 := hsOk r (List.mem_filter.mpr ⟨hr, hm⟩) t ht
  rw [if_pos hc] at h1
  cases hnl : nextLookup ts t with
  | none =>
      rw [hnl] at h1
      simp at h1
  | some n =>
      rw [hnl] at h1
      have h2 : (xHasKey sections rooms ⟨s.id, 1, r.id, n⟩ &&
        sol.contains ⟨s.id, 1, r.id, n⟩) = true := h1
      rw [Bool.and_eq_true] at h2
      exact ⟨n, rfl, h2.1, h2.2⟩

/-- CP side of claim C2: a 2-period lab requirement without fixed
assignments occupies, in any satisfying assignment, exactly two variables:
same room, adjacent slots of the same day. -/
theorem cp_lab {sections : List SolverSection} {rooms : List SolverRoom}
    {ts : List SolverTimeslot} {sol : List Var}
    (hwf : WFInput sections rooms ts)
    (h : cpSatisfies sections rooms ts sol = true)
    {s : SolverSection} (hs : s ∈ sections) (hlab : s.is_lab = true)
    (hp2 : s.required_periods = 2) (hnf : s.fixed_assignments = none) :
    ∃ ro t n, nextLookup ts t = some n ∧
      (sol.filter (fun v => v.sec == s.id)).Perm
        [⟨s.id, 0, ro, t⟩, ⟨s.id, 1, ro, n⟩] ∧
      ∃ T ∈ ts, T.id = t ∧ ∃ T' ∈ ts, T'.id = n ∧ T'.day = T.day ∧
        T'.start_time = T.end_time := by
  obtain ⟨htsN, hrN, hsN, hallow, hdur⟩ := hwf
  obtain ⟨hnodup, hvalid, _hpin, hone, hlabc, _hroom, _hfac, _hgrp, _hday⟩ :=
    cpSatisfies_elim h
  have hnf' : ∀ p, fixedFor s p = none := by intro p; simp [fixedFor, hnf]
  have cnt0 := exactOneOk_elim hone hs (p := 0) (by omega) (hnf' 0)
  have cnt1 := exactOneOk_elim hone hs (p := 1) (by omega) (hnf' 1)
  obtain ⟨⟨ro, t⟩, hpair0, hcon0⟩ := countP_eq_one_exists _ _ cnt0
  have hu0 : (⟨s.id, 0, ro, t⟩ : Var) ∈ sol := by
    have := hcon0
    simpa [contains_true_iff] using this
  -- uniqueness of solution variables per period
  have uniq : ∀ p₀ : Nat, p₀ < 2 →
      ∀ w ∈ sol, w.sec = s.id → w.p = p₀ → ∀ w' ∈ sol, w'.sec = s.id → w'.p = p₀ →
      w = w' := by
    intro p₀ hplt w hw hwsec hwp w' hw' hwsec' hwp'
    obtain ⟨sw, hswm, hswid, _, ⟨rw', hrw, hrwid, hrwm⟩, hwslot⟩ :=
      xHasKey_elim (hvalid w hw)
    obtain rfl : s = sw := id_inj hsN hs hswm (by rw [hswid, hwsec])
    obtain ⟨sw', hswm', hswid', _, ⟨rw'', hrw', hrwid', hrwm'⟩, hwslot'⟩ :=
      xHasKey_elim (hvalid w' hw')
    obtain rfl : s = sw' := id_inj hsN hs hswm' (by rw [hswid', hwsec'])
    have cntp := exactOneOk_elim hone hs (p := p₀) (by omega) (hnf' p₀)
    have hmw : (w.room, w.slot) ∈ matchingPairs rooms s := by
      have : rw'.id = w.room := hrwid
      rw [← this]
      exact matchingPairs_mem hrw hrwm hwslot
    have hmw' : (w'.room, w'.slot) ∈ matchingPairs rooms s := by
      have : rw''.id = w'.room := hrwid'
      rw [← this]
      exact matchingPairs_mem hrw' hrwm' hwslot'
    have hcw : (sol.contains ⟨s.id, p₀, w.room, w.slot⟩) = true := by
      rw [contains_true_iff]
      have hww : (⟨s.id, p₀, w.room, w.slot⟩ : Var) = w := by
        obtain ⟨wsec, wp, wroom, wslot⟩ := w
        simp only [Var.mk.injEq]
        exact ⟨hwsec.symm, hwp.symm, trivial, trivial⟩
      rwa [hww]
    have hcw' : (sol.contains ⟨s.id, p₀, w'.room, w'.slot⟩) = true := by
      rw [contains_true_iff]
      have hww : (⟨s.id, p₀, w'.room, w'.slot⟩ : Var) = w' := by
        obtain ⟨wsec, wp, wroom, wslot⟩ := w'
        simp only [Var.mk.injEq]
        exact ⟨hwsec'.symm, hwp'.symm, trivial, trivial⟩
      rwa [hww]
    have hpr := countP_eq_one_unique _ _ cntp (w.room, w.slot) (w'.room, w'.slot)
      hmw hmw' hcw hcw'
    have h1 : w.room = w'.room := congrArg Prod.fst hpr
    have h2 : w.slot = w'.slot := congrArg Prod.snd hpr
    obtain ⟨wsec, wp, wroom, wslot⟩ := w
    obtain ⟨wsec', wp', wroom', wslot'⟩ := w'
    simp only [Var.mk.injEq]
    refine ⟨?_, ?_, h1, h2⟩
    · rw [show wsec = s.id from hwsec, show wsec' = s.id from hwsec']
    · rw [show wp = p₀ from hwp, show wp' = p₀ from hwp']
  -- the period-0 variable pins down the period-1 variable by C1.1
  obtain ⟨su, hsu, hsuid, _, ⟨ru, hru, hruid, hrum⟩, hslotu⟩ :=
    xHasKey_elim (hvalid _ hu0)
  obtain rfl : s = su := id_inj hsN hs hsu hsuid.symm
  have hslt : t ∈ s.allowed_slot_ids := hslotu
  have hcon0' : sol.contains ⟨s.id, 0, ru.id, t⟩ = true := by
    rw [hruid]; exact hcon0
  obtain ⟨n, hnl, _hxk1, hc1⟩ := labOk_elim' hlabc hs hlab hp2 hru hrum hslt hcon0'
  have hu1 : (⟨s.id, 1, ru.id, n⟩ : Var) ∈ sol := by
    simpa [contains_true_iff] using hc1
  have hu1' : (⟨s.id, 1, ro, n⟩ : Var) ∈ sol := by rwa [hruid] at hu1
  -- the filtered list is a permutation of the two variables
  have hne01 : (⟨s.id, 0, ro, t⟩ : Var) ≠ ⟨s.id, 1, ro, n⟩ := by
    intro hcontra
    have : (0 : Nat) = 1 := congrArg Var.p hcontra
    omega
  have hmemF0 : (⟨s.id, 0, ro, t⟩ : Var) ∈ sol.filter (fun v => v.sec == s.id) :=
    List.mem_filter.mpr ⟨hu0, by simp⟩
  have hmemF1 : (⟨s.id, 1, ro, n⟩ : Var) ∈ sol.filter (fun v => v.sec == s.id) :=
    List.mem_filter.mpr ⟨hu1', by simp⟩
  have hsubF : ∀ x ∈ sol.filter (fun v => v.sec == s.id),
      x = ⟨s.id, 0, ro, t⟩ ∨ x = ⟨s.id, 1, ro, n⟩ := by
    intro x hx
    obtain ⟨hxsol, hxsec⟩ := List.mem_filter.mp hx
    have hxsec' : x.sec = s.id := by simpa using hxsec
    obtain ⟨sx, hsxm, hsxid, hxp, _, _⟩ := xHasKey_elim (hvalid x hxsol)
    obtain rfl : s = sx := id_inj hsN hs hsxm (by rw [hsxid, hxsec'])
    rw [hp2] at hxp
    interval_cases hxpv : x.p
    · exact Or.inl (uniq 0 (by omega) x hxsol hxsec' hxpv _ hu0 rfl rfl)
    · exact Or.inr (uniq 1 (by omega) x hxsol hxsec' hxpv _ hu1' rfl rfl)
  refine ⟨ro, t, n, hnl, ?_, ?_⟩
  · have hFnodup : (sol.filter (fun v => v.sec == s.id)).Nodup :=
      hnodup.filter _
    have hpairN : ([⟨s.id, 0, ro, t⟩, ⟨s.id, 1, ro, n⟩] : List Var).Nodup := by
      simp [hne01]
    apply List.Subperm.antisymm
    · exact List.subperm_of_subset hFnodup (by
        intro x hx
        rcases hsubF x hx with rfl | rfl <;> simp)
    · exact List.subperm_of_subset hpairN (by
        intro x hx
        rcases List.mem_cons.mp hx with rfl | hx'
        · exact hmemF0
        · rcases List.mem_cons.mp hx' with rfl | hx''
          · exact hmemF1
          · simp at hx'')
  · obtain ⟨_, t', ht', htid, u, hu, huid, hud, hus⟩ := nextLookup_spec hnl
    exact ⟨t', ht', htid, u, hu, huid, hud, hus⟩

/-! ## Fallback search invariants -/

theorem dayCount_own_le {U : List SolverSection} {rooms : List SolverRoom}
    {ts : List SolverTimeslot} {st : List Placed} {s : SolverSection} {d : Nat}
    (HUid : (U.map (·.id)).Nodup) (hsU : s ∈ U)
    (hMeta : ∀ q ∈ st, placedMeta U rooms ts q) :
    st.countP (fun q => q.sec == s.id && q.day == d && q.countsDay) ≤
      dayCount st s.section_id d := by
  apply countP_imp_le
  intro q hq hpq
  simp only [Bool.and_eq_true, beq_iff_eq] at hpq
  obtain ⟨⟨hqsec, hqday⟩, hqc⟩ := hpq
  obtain ⟨s', hs', hqsec', _, hqgrp, _⟩ := hMeta q hq
  obtain rfl : s = s' := id_inj HUid hsU hs' (by rw [← hqsec, hqsec'])
  simp [hqgrp, hqday, hqc]

theorem goodSt_placeOne {U : List SolverSection} {rooms : List SolverRoom}
    {ts : List SolverTimeslot} {st : List Placed} {s : SolverSection}
    {r : SolverRoom} {t p : Nat}
    (HUid : (U.map (·.id)).Nodup)
    (hG : GoodSt U rooms ts st) (hsU : s ∈ U) (hr : r ∈ rooms)
    (hguard : (s.is_lab && (s.required_periods == 2)) = false)
    (hp : p < s.required_periods)
    (hc : canPlace ts st s r t = true) :
    GoodSt U rooms ts (placeOne ts s p r t st) := by
  obtain ⟨hPair, hMeta, hCap⟩ := hG
  obtain ⟨hm, hallow, sl, hsl, _hlunch, hroomF, hfacF, hgrpF, hday⟩ :=
    canPlace_elim hc
  obtain ⟨hslmem, hslid⟩ := slotById_spec hsl
  have hdayOf : dayOf ts t = sl.day := by simp [dayOf, hsl]
  refine ⟨?_, ?_, ?_⟩
  · rw [placeOne, List.pairwise_cons]
    refine ⟨?_, hPair⟩
    intro q hq
    refine ⟨?_, ?_, ?_⟩
    · rintro ⟨h1, h2⟩
      exact roomTaken_false hroomF q hq ⟨h1.symm, h2.symm⟩
    · intro h1 h2
      exact facTaken_false hfacF q hq ⟨h1.symm, h2.symm⟩
    · intro h1 h2
      exact grpTaken_false hgrpF q hq ⟨h1.symm, h2.symm⟩
  · intro q hq
    rcases List.mem_cons.mp hq with rfl | hq'
    · refine ⟨s, hsU, rfl, rfl, rfl, hp, ⟨r, hr, rfl, hm⟩, hallow,
        ⟨sl, hslmem, hslid, hdayOf⟩, ?_⟩
      simp [hguard]
    · exact hMeta q hq'
  · intro s' hs' hs'lab d
    rw [placeOne, List.countP_cons]
    by_cases hpq : ((⟨s.id, p, r.id, t, s.faculty_id, s.section_id, dayOf ts t,
        true⟩ : Placed).sec == s'.id &&
        (⟨s.id, p, r.id, t, s.faculty_id, s.section_id, dayOf ts t,
        true⟩ : Placed).day == d &&
        (⟨s.id, p, r.id, t, s.faculty_id, s.section_id, dayOf ts t,
        true⟩ : Placed).countsDay) = true
    · rw [if_pos hpq]
      have hpq' := hpq
      simp only [Bool.and_eq_true, beq_iff_eq] at hpq'
      obtain ⟨⟨hsec, hdayq⟩, _⟩ := hpq'
      obtain rfl : s = s' := id_inj HUid hsU hs' hsec
      have hisl : s.is_lab = false := hs'lab
      have hd2 : dayCount st s.section_id sl.day + 1 ≤ 2 := by
        rcases hday with h | h
        · rw [hisl] at h; exact absurd h (by simp)
        · exact h
      have hown := dayCount_own_le (d := d) HUid hsU hMeta
      have hdayq' : dayOf ts t = d := hdayq
      have hdeq : d = sl.day := by rw [← hdayq', hdayOf]
      subst hdeq
      have hfin : st.countP
          (fun q => q.sec == s.id && q.day == sl.day && q.countsDay) ≤ 1 :=
        le_trans hown (by omega)
      omega
    · rw [if_neg hpq]
      simpa using hCap s' hs' hs'lab d

theorem goodSt_placeLab {U : List SolverSection} {rooms : List SolverRoom}
    {ts : List SolverTimeslot} {st : List Placed} {s : SolverSection}
    {r : SolverRoom} {t n : Nat}
    (Hts : (ts.map (·.id)).Nodup)
    (Hdur : ∀ u ∈ ts, u.start_time ≠ u.end_time)
    (_HUid : (U.map (·.id)).Nodup)
    (hG : GoodSt U rooms ts st) (hsU : s ∈ U) (hr : r ∈ rooms)
    (hlab : s.is_lab = true) (hp2 : s.required_periods = 2)
    (hchk : labCheck ts st s r t = some n) :
    GoodSt U rooms ts (placeLab ts s r t n st) := by
  obtain ⟨hPair, hMeta, hCap⟩ := hG
  obtain ⟨hnl, hnallow, hcp, hroomF2, hfacF2, hgrpF2⟩ := labCheck_elim hchk
  obtain ⟨hm, hallow, sl, hsl, _hlunch, hroomF, hfacF, hgrpF, _⟩ :=
    canPlace_elim hcp
  obtain ⟨hslmem, hslid⟩ := slotById_spec hsl
  have htn : t ≠ n := by
    intro hcontra
    exact nextLookup_ne_self Hts Hdur (by rwa [hcontra] at hnl)
  obtain ⟨_, _, _, _, u, hu, huid, _, _⟩ := nextLookup_spec hnl
  have hslByN : slotById ts n = some u := by
    obtain ⟨T, hT⟩ := slotById_of_mem (List.mem_map.mpr ⟨u, hu, huid⟩)
    obtain ⟨hTm, hTid⟩ := slotById_spec hT
    have : T = u := id_inj Hts hTm hu (by rw [hTid, huid])
    rwa [this] at hT
  have hdayOfN : dayOf ts n = u.day := by simp [dayOf, hslByN]
  have hdayOfT : dayOf ts t = sl.day := by simp [dayOf, hsl]
  refine ⟨?_, ?_, ?_⟩
  · rw [placeLab, List.pairwise_cons]
    constructor
    · intro q hq
      rcases List.mem_cons.mp hq with rfl | hq'
      · -- the period-1 placement against the period-0 placement
        refine ⟨?_, ?_, ?_⟩
        · rintro ⟨_, h2⟩
          exact htn (by simpa using h2.symm)
        · intro _ h2
          exact htn (by simpa using h2.symm)
        · intro _ h2
          exact htn (by simpa using h2.symm)
      · refine ⟨?_, ?_, ?_⟩
        · rintro ⟨h1, h2⟩
          exact roomTaken_false hroomF2 q hq' ⟨h1.symm, h2.symm⟩
        · intro h1 h2
          exact facTaken_false hfacF2 q hq' ⟨h1.symm, h2.symm⟩
        · intro h1 h2
          exact grpTaken_false hgrpF2 q hq' ⟨h1.symm, h2.symm⟩
    · rw [List.pairwise_cons]
      refine ⟨?_, hPair⟩
      intro q hq
      refine ⟨?_, ?_, ?_⟩
      · rintro ⟨h1, h2⟩
        exact roomTaken_false hroomF q hq ⟨h1.symm, h2.symm⟩
      · intro h1 h2
        exact facTaken_false hfacF q hq ⟨h1.symm, h2.symm⟩
      · intro h1 h2
        exact grpTaken_false hgrpF q hq ⟨h1.symm, h2.symm⟩
  · intro q hq
    rcases List.mem_cons.mp hq with rfl | hq'
    · refine ⟨s, hsU, rfl, rfl, rfl, by simp [hp2], ⟨r, hr, rfl, hm⟩, hnallow,
        ⟨u, hu, huid, hdayOfN⟩, ?_⟩
      simp [hlab, hp2]
    · rcases List.mem_cons.mp hq' with rfl | hq''
      · refine ⟨s, hsU, rfl, rfl, rfl, by simp [hp2], ⟨r, hr, rfl, hm⟩, hallow,
          ⟨sl, hslmem, hslid, hdayOfT⟩, ?_⟩
        simp [hlab, hp2]
      · exact hMeta q hq''
  · intro s' hs' hs'lab d
    rw [placeLab, List.countP_cons, List.countP_cons]
    have h1 : ((⟨s.id, 1, r.id, n, s.faculty_id, s.section_id, dayOf ts n,
        false⟩ : Placed).sec == s'.id &&
        (⟨s.id, 1, r.id, n, s.faculty_id, s.section_id, dayOf ts n,
        false⟩ : Placed).day == d &&
        (⟨s.id, 1, r.id, n, s.faculty_id, s.section_id, dayOf ts n,
        false⟩ : Placed).countsDay) = false := by simp
    have h0 : ((⟨s.id, 0, r.id, t, s.faculty_id, s.section_id, dayOf ts t,
        false⟩ : Placed).sec == s'.id &&
        (⟨s.id, 0, r.id, t, s.faculty_id, s.section_id, dayOf ts t,
        false⟩ : Placed).day == d &&
        (⟨s.id, 0, r.id, t, s.faculty_id, s.section_id, dayOf ts t,
        false⟩ : Placed).countsDay) = false := by simp
    rw [h1, h0]
    simpa using hCap s' hs' hs'lab d

/-- The master invariant of the fallback search: every successful run
extends the state by placements that satisfy the exclusivity invariant,
cover each pending requirement period exactly once, and place 2-period
labs as same-room adjacent pairs. -/
theorem fbMain (rooms : List SolverRoom) (ts : List SolverTimeslot)
    (U : List SolverSection)
    (HUid : (U.map (·.id)).Nodup)
    (Hts : (ts.map (·.id)).Nodup)
    (Hdur : ∀ t ∈ ts, t.start_time ≠ t.end_time) :
    ∀ fuel : Nat,
    (∀ l st st', (∀ s ∈ l, s ∈ U) → (l.map (·.id)).Nodup →
      (∀ s ∈ l, ∀ q ∈ st, q.sec ≠ s.id) →
      GoodSt U rooms ts st →
      fbSections ⟨rooms, ts⟩ fuel l st = some st' →
      GoodSt U rooms ts st' ∧ ∃ Δ, st' = Δ ++ st ∧ DeltaSpec ts l Δ) ∧
    (∀ s rl rest st st', s ∈ U → (∀ s' ∈ rest, s' ∈ U) →
      ((s :: rest).map (·.id)).Nodup →
      (∀ q ∈ st, q.sec ≠ s.id) →
      (∀ s' ∈ rest, ∀ q ∈ st, q.sec ≠ s'.id) →
      (∀ r ∈ rl, r ∈ rooms) →
      s.is_lab = true → s.required_periods = 2 →
      GoodSt U rooms ts st →
      fbLabRooms ⟨rooms, ts⟩ fuel s rl rest st = some st' →
      GoodSt U rooms ts st' ∧ ∃ Δ, st' = Δ ++ st ∧ DeltaSpec ts (s :: rest) Δ) ∧
    (∀ s r tl rest st st', s ∈ U → (∀ s' ∈ rest, s' ∈ U) →
      ((s :: rest).map (·.id)).Nodup →
      (∀ q ∈ st, q.sec ≠ s.id) →
      (∀ s' ∈ rest, ∀ q ∈ st, q.sec ≠ s'.id) →
      r ∈ rooms →
      s.is_lab = true → s.required_periods = 2 →
      GoodSt U rooms ts st →
      fbLabSlots ⟨rooms, ts⟩ fuel s r tl rest st = some st' →
      GoodSt U rooms ts st' ∧ ∃ Δ, st' = Δ ++ st ∧ DeltaSpec ts (s :: rest) Δ) ∧
    (∀ s p rest st st', s ∈ U → (∀ s' ∈ rest, s' ∈ U) →
      ((s :: rest).map (·.id)).Nodup →
      (∀ q ∈ st, q.sec = s.id → q.idx < p) →
      (∀ s' ∈ rest, ∀ q ∈ st, q.sec ≠ s'.id) →
      (s.is_lab && (s.required_periods == 2)) = false →
      GoodSt U rooms ts st →
      fbPeriods ⟨rooms, ts⟩ fuel s p rest st = some st' →
      GoodSt U rooms ts st' ∧ ∃ Δ, st' = Δ ++ st ∧ DeltaSpecP ts s p rest Δ) ∧
    (∀ s p rl rest st st', s ∈ U → (∀ s' ∈ rest, s' ∈ U) →
      ((s :: rest).map (·.id)).Nodup →
      (∀ q ∈ st, q.sec = s.id → q.idx < p) →
      (∀ s' ∈ rest, ∀ q ∈ st, q.sec ≠ s'.id) →
      (∀ r ∈ rl, r ∈ rooms) →
      (s.is_lab && (s.required_periods == 2)) = false →
      p < s.required_periods →
      GoodSt U rooms ts st →
      fbPerRooms ⟨rooms, ts⟩ fuel s p rl rest st = some st' →
      GoodSt U rooms ts st' ∧ ∃ Δ, st' = Δ ++ st ∧ DeltaSpecP ts s p rest Δ) ∧
    (∀ s p r tl rest st st', s ∈ U → (∀ s' ∈ rest, s' ∈ U) →
      ((s :: rest).map (·.id)).Nodup →
      (∀ q ∈ st, q.sec = s.id → q.idx < p) →
      (∀ s' ∈ rest, ∀ q ∈ st, q.sec ≠ s'.id) →
      r ∈ rooms →
      (s.is_lab && (s.required_periods == 2)) = false →
      p < s.required_periods →
      GoodSt U rooms ts st →
      fbPerSlots ⟨rooms, ts⟩ fuel s p r tl rest st = some st' →
      GoodSt U rooms ts st' ∧ ∃ Δ, st' = Δ ++ st ∧ DeltaSpecP ts s p rest Δ) := by
  intro fuel
  induction fuel with
  | zero =>
      refine ⟨?_, ?_, ?_, ?_, ?_, ?_⟩ <;> intros <;>
        first
        | exact Option.noConfusion (by assumption :
            fbSections ⟨rooms, ts⟩ 0 _ _ = some _)
        | exact Option.noConfusion (by assumption :
            fbLabRooms ⟨rooms, ts⟩ 0 _ _ _ _ = some _)
        | exact Option.noConfusion (by assumption :
            fbLabSlots ⟨rooms, ts⟩ 0 _ _ _ _ _ = some _)
        | exact Option.noConfusion (by assumption :
            fbPeriods ⟨rooms, ts⟩ 0 _ _ _ _ = some _)
        | exact Option.noConfusion (by assumption :
            fbPerRooms ⟨rooms, ts⟩ 0 _ _ _ _ _ = some _)
        | exact Option.noConfusion (by assumption :
            fbPerSlots ⟨rooms, ts⟩ 0 _ _ _ _ _ _ = some _)
  | succ fuel ih =>
      obtain ⟨ihS, ihLR, ihLS, ihP, ihPR, ihPS⟩ := ih
      refine ⟨?_, ?_, ?_, ?_, ?_, ?_⟩
      -- fbSections
      · intro l st st' hlU hlN hFresh hG hrun
        cases l with
        | nil =>
            have hst : st = st' := by
              simpa [fbSections] using hrun
            subst hst
            exact ⟨hG, [], by simp, by simp [DeltaSpec], by simp [DeltaSpec],
              by simp [DeltaSpec]⟩
        | cons s rest =>
            have hlN' := hlN
            simp only [List.map_cons, List.nodup_cons, List.mem_map,
              not_exists] at hlN'
            have hsid : ∀ s' ∈ rest, s.id ≠ s'.id := by
              intro s' hs' heq
              exact hlN'.1 s' ⟨hs', heq.symm⟩
            have hsU : s ∈ U := hlU s (List.mem_cons_self _ _)
            have hrestU : ∀ s' ∈ rest, s' ∈ U := fun s' hs' =>
              hlU s' (List.mem_cons_of_mem _ hs')
            have hFs : ∀ q ∈ st, q.sec ≠ s.id := fun q hq =>
              hFresh s (List.mem_cons_self _ _) q hq
            have hFr : ∀ s' ∈ rest, ∀ q ∈ st, q.sec ≠ s'.id := fun s' hs' q hq =>
              hFresh s' (List.mem_cons_of_mem _ hs') q hq
            rw [show fbSections ⟨rooms, ts⟩ (fuel + 1) (s :: rest) st =
              (if s.is_lab && s.required_periods == 2 then
                fbLabRooms ⟨rooms, ts⟩ fuel s rooms rest st
              else fbPeriods ⟨rooms, ts⟩ fuel s 0 rest st) from rfl] at hrun
            by_cases hguard : (s.is_lab && (s.required_periods == 2)) = true
            · rw [if_pos hguard] at hrun
              rw [Bool.and_eq_true, beq_iff_eq] at hguard
              exact ihLR s rooms rest st st' hsU hrestU hlN hFs hFr
                (fun r hr => hr) hguard.1 hguard.2 hG hrun
            · rw [if_neg hguard] at hrun
              have hguard' : (s.is_lab && (s.required_periods == 2)) = false :=
                Bool.not_eq_true _ ▸ Bool.eq_false_iff.mpr hguard
              obtain ⟨hG', Δ, heq, hD1, hD2, hD3, hD4⟩ :=
                ihP s 0 rest st st' hsU hrestU hlN
                  (fun q hq hqs => absurd hqs (hFs q hq)) hFr hguard' hG hrun
              refine ⟨hG', Δ, heq, ?_, ?_, ?_⟩
              · intro q hq
                rcases hD1 q hq with ⟨hsec, _⟩ | ⟨s', hs', hsec⟩
                · exact ⟨s, List.mem_cons_self _ _, hsec⟩
                · exact ⟨s', List.mem_cons_of_mem _ hs', hsec⟩
              · intro s'' hs'' p hp
                rcases List.mem_cons.mp hs'' with rfl | hs''r
                · exact hD2 p (Nat.zero_le p) hp
                · exact hD3 s'' hs''r p hp
              · intro s'' hs'' hl2 hr2
                rcases List.mem_cons.mp hs'' with rfl | hs''r
                · exfalso
                  rw [hl2, hr2] at hguard'
                  simp at hguard'
                · exact hD4 s'' hs''r hl2 hr2
      -- fbLabRooms
      · intro s rl rest st st' hsU hrestU hN hFs hFr hrl hlab hp2 hG hrun
        cases rl with
        | nil => exact Option.noConfusion hrun
        | cons r rs =>
            rw [show fbLabRooms ⟨rooms, ts⟩ (fuel + 1) s (r :: rs) rest st =
              (if roomMatches s r then
                match fbLabSlots ⟨rooms, ts⟩ fuel s r s.allowed_slot_ids rest st with
                | some res => some res
                | none => fbLabRooms ⟨rooms, ts⟩ fuel s rs rest st
              else fbLabRooms ⟨rooms, ts⟩ fuel s rs rest st) from rfl] at hrun
            by_cases hm : roomMatches s r = true
            · rw [if_pos hm] at hrun
              split at hrun
              next res hls =>
                obtain rfl : res = st' := by simpa using hrun
                exact ihLS s r s.allowed_slot_ids rest st res hsU hrestU hN
                  hFs hFr (hrl r (List.mem_cons_self _ _)) hlab hp2 hG hls
              next hls =>
                exact ihLR s rs rest st st' hsU hrestU hN hFs hFr
                  (fun r' hr' => hrl r' (List.mem_cons_of_mem _ hr')) hlab hp2
                  hG hrun
            · rw [if_neg hm] at hrun
              exact ihLR s rs rest st st' hsU hrestU hN hFs hFr
                (fun r' hr' => hrl r' (List.mem_cons_of_mem _ hr')) hlab hp2 hG hrun
      -- fbLabSlots
      · intro s r tl rest st st' hsU hrestU hN hFs hFr hr hlab hp2 hG hrun
        cases tl with
        | nil => exact Option.noConfusion hrun
        | cons t trest =>
        rw [show fbLabSlots ⟨rooms, ts⟩ (fuel + 1) s r (t :: trest) rest st =
          (match labCheck ts st s r t with
          | some n =>
              (match fbSections ⟨rooms, ts⟩ fuel rest (placeLab ts s r t n st) with
               | some res => some res
               | none => fbLabSlots ⟨rooms, ts⟩ fuel s r trest rest st)
          | none => fbLabSlots ⟨rooms, ts⟩ fuel s r trest rest st) from rfl] at hrun
        have hN' := hN
        simp only [List.map_cons, List.nodup_cons, List.mem_map,
          not_exists] at hN'
        have hsid : ∀ s' ∈ rest, s.id ≠ s'.id := by
          intro s' hs' heq
          exact hN'.1 s' ⟨hs', heq.symm⟩
        split at hrun
        next n hchk =>
            split at hrun
            next res hrec =>
                obtain rfl : res = st' := by simpa using hrun
                obtain ⟨hnl, hnallow, hcp, _, _, _⟩ := labCheck_elim hchk
                obtain ⟨_, hallow, _⟩ := canPlace_elim hcp
                have hG2 : GoodSt U rooms ts (placeLab ts s r t n st) :=
                  goodSt_placeLab Hts Hdur HUid hG hsU hr hlab hp2 hchk
                have hF2 : ∀ s' ∈ rest, ∀ q ∈ placeLab ts s r t n st,
                    q.sec ≠ s'.id := by
                  intro s' hs' q hq
                  rcases List.mem_cons.mp hq with rfl | hq'
                  · exact fun hc => hsid s' hs' hc
                  · rcases List.mem_cons.mp hq' with rfl | hq''
                    · exact fun hc => hsid s' hs' hc
                    · exact hFr s' hs' q hq''
                obtain ⟨hG', Δr, heqr, hDr1, hDr2, hDr3⟩ :=
                  ihS rest (placeLab ts s r t n st) res hrestU hN'.2
                    hF2 hG2 hrec
                have hΔrSec : ∀ q ∈ Δr, q.sec ≠ s.id := by
                  intro q hq hqsec
                  obtain ⟨s', hs', hqs'⟩ := hDr1 q hq
                  exact hsid s' hs' (by rw [← hqsec, hqs'])
                refine ⟨hG', Δr ++ [⟨s.id, 1, r.id, n, s.faculty_id,
                  s.section_id, dayOf ts n, false⟩,
                  ⟨s.id, 0, r.id, t, s.faculty_id, s.section_id,
                  dayOf ts t, false⟩], ?_, ?_, ?_, ?_⟩
                · rw [heqr]
                  simp [placeLab]
                · intro q hq
                  rcases List.mem_append.mp hq with hq' | hq'
                  · obtain ⟨s', hs', hqs'⟩ := hDr1 q hq'
                    exact ⟨s', List.mem_cons_of_mem _ hs', hqs'⟩
                  · rcases List.mem_cons.mp hq' with rfl | hq''
                    · exact ⟨s, List.mem_cons_self _ _, rfl⟩
                    · rcases List.mem_cons.mp hq'' with rfl | hq'''
                      · exact ⟨s, List.mem_cons_self _ _, rfl⟩
                      · simp at hq'''
                · intro s'' hs'' p hp
                  rw [List.countP_append]
                  rcases List.mem_cons.mp hs'' with rfl | hs''r
                  · have hz : Δr.countP
                        (fun q => q.sec == s''.id && q.idx == p) = 0 := by
                      rw [List.countP_eq_zero]
                      intro q hq hpq
                      simp only [Bool.and_eq_true, beq_iff_eq] at hpq
                      exact hΔrSec q hq hpq.1
                    rw [hz]
                    rw [hp2] at hp
                    interval_cases p <;>
                      simp [List.countP_cons]
                  · have hz : ([⟨s.id, 1, r.id, n, s.faculty_id, s.section_id,
                        dayOf ts n, false⟩,
                        ⟨s.id, 0, r.id, t, s.faculty_id, s.section_id,
                        dayOf ts t, false⟩] : List Placed).countP
                        (fun q => q.sec == s''.id && q.idx == p) = 0 := by
                      rw [List.countP_eq_zero]
                      intro q hq hpq
                      simp only [Bool.and_eq_true, beq_iff_eq] at hpq
                      rcases List.mem_cons.mp hq with rfl | hq'
                      · exact hsid s'' hs''r hpq.1
                      · rcases List.mem_cons.mp hq' with rfl | hq''
                        · exact hsid s'' hs''r hpq.1
                        · simp at hq''
                    rw [hz, hDr2 s'' hs''r p hp]
                · intro s'' hs'' hl2 hr2
                  rcases List.mem_cons.mp hs'' with rfl | hs''r
                  · refine ⟨r.id, t, n, hnl, hallow, hnallow, ?_⟩
                    intro q hq hqsec
                    rcases List.mem_append.mp hq with hq' | hq'
                    · exact absurd hqsec (hΔrSec q hq')
                    · rcases List.mem_cons.mp hq' with rfl | hq''
                      · exact Or.inr ⟨rfl, rfl, rfl⟩
                      · rcases List.mem_cons.mp hq'' with rfl | hq'''
                        · exact Or.inl ⟨rfl, rfl, rfl⟩
                        · simp at hq'''
                  · obtain ⟨ro, t0, n0, hnl0, ht0, hn0, hstruct⟩ :=
                      hDr3 s'' hs''r hl2 hr2
                    refine ⟨ro, t0, n0, hnl0, ht0, hn0, ?_⟩
                    intro q hq hqsec
                    rcases List.mem_append.mp hq with hq' | hq'
                    · exact hstruct q hq' hqsec
                    · exfalso
                      rcases List.mem_cons.mp hq' with rfl | hq''
                      · exact hsid s'' hs''r hqsec
                      · rcases List.mem_cons.mp hq'' with rfl | hq'''
                        · exact hsid s'' hs''r hqsec
                        · simp at hq'''
            next hrec =>
                exact ihLS s r trest rest st st' hsU hrestU hN hFs hFr hr
                  hlab hp2 hG hrun
        next hchk =>
            exact ihLS s r trest rest st st' hsU hrestU hN hFs hFr hr
              hlab hp2 hG hrun
      -- fbPeriods
      · intro s p rest st st' hsU hrestU hN hIdx hFr hguard hG hrun
        rw [show fbPeriods ⟨rooms, ts⟩ (fuel + 1) s p rest st =
          (if p < s.required_periods then
            fbPerRooms ⟨rooms, ts⟩ fuel s p rooms rest st
          else fbSections ⟨rooms, ts⟩ fuel rest st) from rfl] at hrun
        by_cases hp : p < s.required_periods
        · rw [if_pos hp] at hrun
          exact ihPR s p rooms rest st st' hsU hrestU hN hIdx hFr
            (fun r hr => hr) hguard hp hG hrun
        · rw [if_neg hp] at hrun
          obtain ⟨hG', Δ, heq, hD1, hD2, hD3⟩ :=
            ihS rest st st' hrestU
              (by
                have hN' := hN
                simp only [List.map_cons, List.nodup_cons, List.mem_map,
                  not_exists] at hN'
                exact hN'.2) hFr hG hrun
          refine ⟨hG', Δ, heq, ?_, ?_, ?_, ?_⟩
          · intro q hq
            obtain ⟨s', hs', hqs'⟩ := hD1 q hq
            exact Or.inr ⟨s', hs', hqs'⟩
          · intro i hpi hi
            omega
          · exact hD2
          · exact hD3
      -- fbPerRooms
      · intro s p rl rest st st' hsU hrestU hN hIdx hFr hrl hguard hp hG hrun
        cases rl with
        | nil => exact Option.noConfusion hrun
        | cons r rs =>
            rw [show fbPerRooms ⟨rooms, ts⟩ (fuel + 1) s p (r :: rs) rest st =
              (if roomMatches s r then
                match fbPerSlots ⟨rooms, ts⟩ fuel s p r s.allowed_slot_ids rest st with
                | some res => some res
                | none => fbPerRooms ⟨rooms, ts⟩ fuel s p rs rest st
              else fbPerRooms ⟨rooms, ts⟩ fuel s p rs rest st) from rfl] at hrun
            by_cases hm : roomMatches s r = true
            · rw [if_pos hm] at hrun
              split at hrun
              next res hps =>
                obtain rfl : res = st' := by simpa using hrun
                exact ihPS s p r s.allowed_slot_ids rest st res hsU hrestU hN
                  hIdx hFr (hrl r (List.mem_cons_self _ _)) hguard hp hG hps
              next hps =>
                exact ihPR s p rs rest st st' hsU hrestU hN hIdx hFr
                  (fun r' hr' => hrl r' (List.mem_cons_of_mem _ hr')) hguard hp
                  hG hrun
            · rw [if_neg hm] at hrun
              exact ihPR s p rs rest st st' hsU hrestU hN hIdx hFr
                (fun r' hr' => hrl r' (List.mem_cons_of_mem _ hr')) hguard hp hG hrun
      -- fbPerSlots
      · intro s p r tl rest st st' hsU hrestU hN hIdx hFr hr hguard hp hG hrun
        cases tl with
        | nil => exact Option.noConfusion hrun
        | cons t trest =>
        rw [show fbPerSlots ⟨rooms, ts⟩ (fuel + 1) s p r (t :: trest) rest st =
          (if canPlace ts st s r t then
            match fbPeriods ⟨rooms, ts⟩ fuel s (p + 1) rest (placeOne ts s p r t st) with
            | some res => some res
            | none => fbPerSlots ⟨rooms, ts⟩ fuel s p r trest rest st
          else fbPerSlots ⟨rooms, ts⟩ fuel s p r trest rest st) from rfl] at hrun
        have hN' := hN
        simp only [List.map_cons, List.nodup_cons, List.mem_map,
          not_exists] at hN'
        have hsid : ∀ s' ∈ rest, s.id ≠ s'.id := by
          intro s' hs' heq
          exact hN'.1 s' ⟨hs', heq.symm⟩
        by_cases hc : canPlace ts st s r t = true
        · rw [if_pos hc] at hrun
          split at hrun
          next res hrec =>
              obtain rfl : res = st' := by simpa using hrun
              have hG2 : GoodSt U rooms ts (placeOne ts s p r t st) :=
                goodSt_placeOne HUid hG hsU hr hguard hp hc
              have hIdx2 : ∀ q ∈ placeOne ts s p r t st,
                  q.sec = s.id → q.idx < p + 1 := by
                intro q hq hqs
                rcases List.mem_cons.mp hq with rfl | hq'
                · simp
                · exact Nat.lt_succ_of_lt (hIdx q hq' hqs)
              have hF2 : ∀ s' ∈ rest, ∀ q ∈ placeOne ts s p r t st,
                  q.sec ≠ s'.id := by
                intro s' hs' q hq
                rcases List.mem_cons.mp hq with rfl | hq'
                · exact fun hcq => hsid s' hs' hcq
                · exact hFr s' hs' q hq'
              obtain ⟨hG', Δr, heqr, hDr1, hDr2, hDr3, hDr4⟩ :=
                ihP s (p + 1) rest (placeOne ts s p r t st) res hsU hrestU hN
                  hIdx2 hF2 hguard hG2 hrec
              have hΔrNotP : ∀ q ∈ Δr,
                  ¬((q.sec == s.id && q.idx == p) = true) := by
                intro q hq hpq
                simp only [Bool.and_eq_true, beq_iff_eq] at hpq
                rcases hDr1 q hq with ⟨_, hge⟩ | ⟨s', hs', hqs'⟩
                · omega
                · exact hsid s' hs' (by rw [← hpq.1, hqs'])
              refine ⟨hG', Δr ++ [⟨s.id, p, r.id, t, s.faculty_id,
                s.section_id, dayOf ts t, true⟩], ?_, ?_, ?_, ?_, ?_⟩
              · rw [heqr]
                simp [placeOne]
              · intro q hq
                rcases List.mem_append.mp hq with hq' | hq'
                · rcases hDr1 q hq' with ⟨hsec, hge⟩ | hrest'
                  · exact Or.inl ⟨hsec, by omega⟩
                  · exact Or.inr hrest'
                · rcases List.mem_cons.mp hq' with rfl | hq''
                  · exact Or.inl ⟨rfl, le_refl p⟩
                  · simp at hq''
              · intro i hpi hi
                rw [List.countP_append]
                by_cases hip : i = p
                · subst hip
                  have hz : Δr.countP
                      (fun q => q.sec == s.id && q.idx == i) = 0 := by
                    rw [List.countP_eq_zero]
                    exact hΔrNotP
                  rw [hz]
                  simp [List.countP_cons]
                · have h1 := hDr2 i (by omega) hi
                  have hz : ([⟨s.id, p, r.id, t, s.faculty_id, s.section_id,
                      dayOf ts t, true⟩] : List Placed).countP
                      (fun q => q.sec == s.id && q.idx == i) = 0 := by
                    rw [List.countP_eq_zero]
                    intro q hq hpq
                    rcases List.mem_cons.mp hq with rfl | hq'
                    · simp only [Bool.and_eq_true, beq_iff_eq] at hpq
                      exact hip hpq.2.symm
                    · simp at hq'
                  rw [hz, h1]
              · intro s'' hs'' i hi
                rw [List.countP_append]
                have hz : ([⟨s.id, p, r.id, t, s.faculty_id, s.section_id,
                    dayOf ts t, true⟩] : List Placed).countP
                    (fun q => q.sec == s''.id && q.idx == i) = 0 := by
                  rw [List.countP_eq_zero]
                  intro q hq hpq
                  rcases List.mem_cons.mp hq with rfl | hq'
                  · simp only [Bool.and_eq_true, beq_iff_eq] at hpq
                    exact hsid s'' hs'' hpq.1
                  · simp at hq'
                rw [hz, hDr3 s'' hs'' i hi]
              · intro s'' hs'' hl2 hr2
                obtain ⟨ro, t0, n0, hnl0, ht0, hn0, hstruct⟩ :=
                  hDr4 s'' hs'' hl2 hr2
                refine ⟨ro, t0, n0, hnl0, ht0, hn0, ?_⟩
                intro q hq hqsec
                rcases List.mem_append.mp hq with hq' | hq'
                · exact hstruct q hq' hqsec
                · exfalso
                  rcases List.mem_cons.mp hq' with rfl | hq''
                  · exact hsid s'' hs'' hqsec
                  · simp at hq''
          next hrec =>
              exact ihPS s p r trest rest st st' hsU hrestU hN hIdx hFr hr
                hguard hp hG hrun
        · rw [if_neg hc] at hrun
          exact ihPS s p r trest rest st st' hsU hrestU hN hIdx hFr hr
            hguard hp hG hrun

/-! ## Bridging the fallback run to the input lists -/

theorem insertOrd_perm (x : SolverSection) (l : List SolverSection) :
    (insertOrd x l).Perm (x :: l) := by
  induction l with
  | nil => simp [insertOrd]
  | cons y ys ih =>
      rw [insertOrd]
      by_cases h : orderLt x y = true
      · rw [if_pos h]
      · rw [if_neg h]
        exact (ih.cons y).trans (List.Perm.swap x y ys)

theorem sortSections_perm (l : List SolverSection) :
    (sortSections l).Perm l := by
  suffices h : ∀ acc, (l.foldl (fun a x => insertOrd x a) acc).Perm (l ++ acc) by
    simpa using h []
  induction l with
  | nil => intro acc; simp
  | cons x xs ih =>
      intro acc
      have h1 := ih (insertOrd x acc)
      have h3 : (xs ++ insertOrd x acc).Perm (xs ++ (x :: acc)) :=
        List.Perm.append_left xs (insertOrd_perm x acc)
      have h4 : (xs ++ (x :: acc)).Perm (x :: (xs ++ acc)) := List.perm_middle
      exact h1.trans (h3.trans h4)

theorem countP_congr_mem {α : Type} {p q : α → Bool} {l : List α}
    (h : ∀ a ∈ l, p a = q a) : l.countP p = l.countP q := by
  induction l with
  | nil => simp
  | cons x xs ih =>
      rw [List.countP_cons, List.countP_cons, h x (List.mem_cons_self x xs),
        ih (fun a ha => h a (List.mem_cons_of_mem _ ha))]

theorem countP_split {α : Type} (p q : α → Bool) (l : List α) :
    l.countP p = l.countP (fun a => p a && q a) +
      l.countP (fun a => p a && !q a) := by
  induction l with
  | nil => simp
  | cons x xs ih =>
      simp only [List.countP_cons, ih]
      cases hp : p x <;> cases hq : q x <;> simp [hp, hq] <;> omega

theorem countP_le_one_of_unique {α : Type} {l : List α} {p : α → Bool}
    (hN : l.Nodup) (h : ∀ a ∈ l, ∀ b ∈ l, p a = true → p b = true → a = b) :
    l.countP p ≤ 1 := by
  rw [List.countP_eq_length_filter]
  rcases hfl : l.filter p with _ | ⟨x, l'⟩
  · simp
  · rcases l' with _ | ⟨y, l''⟩
    · simp
    · exfalso
      have hx : x ∈ l.filter p := by rw [hfl]; simp
      have hy : y ∈ l.filter p := by rw [hfl]; simp
      have hxl := List.mem_of_mem_filter hx
      have hyl := List.mem_of_mem_filter hy
      have hpx := List.of_mem_filter hx
      have hpy := List.of_mem_filter hy
      have hxy : x = y := h x hxl y hyl hpx hpy
      have hNf : (l.filter p).Nodup := hN.filter p
      rw [hfl] at hNf
      rw [hxy] at hNf
      simp at hNf

theorem countP_le_countP_of_inj {α β : Type} (l₁ : List α) (l₂ : List β)
    (p : α → Bool) (q : β → Bool) (g : α → β)
    (hN : l₁.Nodup)
    (hg : ∀ a ∈ l₁, ∀ a' ∈ l₁, p a = true → p a' = true → g a = g a' → a = a')
    (hmap : ∀ a ∈ l₁, p a = true → g a ∈ l₂ ∧ q (g a) = true) :
    l₁.countP p ≤ l₂.countP q := by
  rw [List.countP_eq_length_filter, List.countP_eq_length_filter]
  have h1 : ((l₁.filter p).map g).Nodup := by
    apply (hN.filter p).map_on
    intro x hx y hy hxy
    exact hg x (List.mem_of_mem_filter hx) y (List.mem_of_mem_filter hy)
      (List.of_mem_filter hx) (List.of_mem_filter hy) hxy
  have h2 : (l₁.filter p).map g ⊆ l₂.filter q := by
    intro b hb
    obtain ⟨a, ha, rfl⟩ := List.mem_map.mp hb
    obtain ⟨hmem, hq⟩ := hmap a (List.mem_of_mem_filter ha) (List.of_mem_filter ha)
    exact List.mem_filter.mpr ⟨hmem, hq⟩
  have := (List.subperm_of_subset h1 h2).length_le
  simpa using this

theorem nodup_flatMap_keyed {α β : Type} (l : List α) (f : α → List β)
    (key : β → Nat) (kf : α → Nat)
    (hN : (l.map kf).Nodup) (hInner : ∀ a ∈ l, (f a).Nodup)
    (hKey : ∀ a ∈ l, ∀ b ∈ f a, key b = kf a) :
    (l.flatMap f).Nodup := by
  induction l with
  | nil => simp
  | cons x xs ih =>
      rw [List.flatMap_cons]
      have hNx := hN
      simp only [List.map_cons, List.nodup_cons, List.mem_map, not_exists] at hNx
      apply (hInner x (List.mem_cons_self x xs)).append
      · exact ih hNx.2 (fun a ha => hInner a (List.mem_cons_of_mem _ ha))
          (fun a ha => hKey a (List.mem_cons_of_mem _ ha))
      · intro b hb hb'
        obtain ⟨a, ha, hfa⟩ := List.mem_flatMap.mp hb'
        have h1 : key b = kf x := hKey x (List.mem_cons_self x xs) b hb
        have h2 : key b = kf a := hKey a (List.mem_cons_of_mem _ ha) b hfa
        exact hNx.1 a ⟨ha, by rw [← h2, h1]⟩

theorem placedExcl_symm : ∀ a b : Placed, placedExcl a b → placedExcl b a := by
  intro a b ⟨h1, h2, h3⟩
  exact ⟨fun ⟨e1, e2⟩ => h1 ⟨e1.symm, e2.symm⟩,
    fun e1 e2 => h2 e1.symm e2.symm,
    fun e1 e2 => h3 e1.symm e2.symm⟩

theorem placedExcl_irrefl : ∀ a : Placed, ¬placedExcl a a := by
  intro a ⟨h1, _, _⟩
  exact h1 ⟨rfl, rfl⟩

theorem pairwise_placedExcl_nodup {l : List Placed}
    (h : l.Pairwise placedExcl) : l.Nodup := by
  apply List.Pairwise.imp_of_mem ?_ h
  intro a b _ _ hab
  intro heq
  subst heq
  exact placedExcl_irrefl a hab

theorem pairwise_excl_of_mem {l : List Placed} (h : l.Pairwise placedExcl)
    {a b : Placed} (ha : a ∈ l) (hb : b ∈ l) (hab : a ≠ b) :
    placedExcl a b :=
  List.Pairwise.forall (fun {u v} huv => placedExcl_symm u v huv) h ha hb hab

theorem xHasKey_intro {sections : List SolverSection} {rooms : List SolverRoom}
    {v : Var} {s : SolverSection} {r : SolverRoom}
    (hs : s ∈ sections) (hid : s.id = v.sec) (hp : v.p < s.required_periods)
    (hr : r ∈ rooms) (hrid : r.id = v.room) (hm : roomMatches s r = true)
    (hslot : v.slot ∈ s.allowed_slot_ids) :
    xHasKey sections rooms v = true := by
  simp only [xHasKey, List.any_eq_true, Bool.and_eq_true, beq_iff_eq,
    decide_eq_true_eq, contains_true_iff]
  exact ⟨s, hs, ⟨⟨hid, hp⟩, ⟨r, hr, by simp [hrid, hm]⟩⟩, by simpa using hslot⟩

/-- A successful top-level fallback run satisfies the search invariant and
covers every requirement, with placements described by `DeltaSpec`. -/
theorem fallback_run {sections : List SolverSection} {rooms : List SolverRoom}
    {ts : List SolverTimeslot} {fuel : Nat} {st' : List Placed}
    (hwf : WFInput sections rooms ts)
    (hrun : fbSections ⟨rooms, ts⟩ fuel (sortSections sections) [] = some st') :
    GoodSt (sortSections sections) rooms ts st' ∧
    DeltaSpec ts (sortSections sections) st' := by
  obtain ⟨htsN, hrN, hsN, hallow, hdur⟩ := hwf
  have hperm := sortSections_perm sections
  have HUid : ((sortSections sections).map (·.id)).Nodup :=
    ((hperm.map (·.id)).nodup_iff).mpr hsN
  have hempty : GoodSt (sortSections sections) rooms ts [] := by
    refine ⟨List.Pairwise.nil, by simp, ?_⟩
    intro s hs hl d
    simp
  obtain ⟨hG, Δ, heq, hD⟩ :=
    (fbMain rooms ts (sortSections sections) HUid htsN hdur fuel).1
      (sortSections sections) [] st' (fun s hs => hs) HUid
      (by intro s hs q hq; simp at hq) hempty hrun
  rw [List.append_nil] at heq
  subst heq
  exact ⟨hG, hD⟩

/-- Exclusivity at the level of the returned assignment dicts. -/
theorem resultExcl_of_goodSt {sections : List SolverSection} {st' : List Placed}
    (hsN : (sections.map (·.id)).Nodup)
    (hPair : st'.Pairwise placedExcl)
    (hMeta : ∀ q ∈ st', ∃ s ∈ sections, q.sec = s.id ∧ q.fac = s.faculty_id ∧
      q.grp = s.section_id) :
    resultExcl sections
      (st'.reverse.map (fun q => ⟨q.sec, q.room, q.slot⟩)) := by
  rw [resultExcl, List.pairwise_map]
  have hPairRev : st'.reverse.Pairwise placedExcl := by
    rw [List.pairwise_reverse]
    exact hPair.imp (fun h => placedExcl_symm _ _ h)
  apply List.Pairwise.imp_of_mem ?_ hPairRev
  intro a b ha hb hab
  have hMa := hMeta a (List.mem_reverse.mp ha)
  have hMb := hMeta b (List.mem_reverse.mp hb)
  obtain ⟨sa, hsa, hasec, hafac, hagrp⟩ := hMa
  obtain ⟨sb, hsb, hbsec, hbfac, hbgrp⟩ := hMb
  obtain ⟨h1, h2, h3⟩ := hab
  refine ⟨?_, ?_, ?_⟩
  · rintro ⟨e1, e2⟩
    exact h1 ⟨e1, e2⟩
  · intro s1 hs1 s2 hs2 hid1 hid2 hfeq
    have hid1' : s1.id = a.sec := hid1
    have hid2' : s2.id = b.sec := hid2
    obtain rfl : s1 = sa := id_inj hsN hs1 hsa (by rw [hid1', hasec])
    obtain rfl : s2 = sb := id_inj hsN hs2 hsb (by rw [hid2', hbsec])
    intro hslots
    exact h2 (by rw [hafac, hbfac, hfeq]) hslots
  · intro s1 hs1 s2 hs2 hid1 hid2 hgeq
    have hid1' : s1.id = a.sec := hid1
    have hid2' : s2.id = b.sec := hid2
    obtain rfl : s1 = sa := id_inj hsN hs1 hsa (by rw [hid1', hasec])
    obtain rfl : s2 = sb := id_inj hsN hs2 hsb (by rw [hid2', hbsec])
    intro hslots
    exact h3 (by rw [hagrp, hbgrp, hgeq]) hslots

/-- **C1.**  Every feasible solver result — a satisfying assignment of the
CP model, or a successful run of the pure-backtracking fallback — has
pairwise exclusive placements: no two placements share a `(room, slot)`
pair, and no two placements of requirements with equal `faculty_id`, or
with equal student-group `section_id`, share a timeslot. -/
theorem claim_C1 (sections : List SolverSection) (rooms : List SolverRoom)
    (ts : List SolverTimeslot) (hwf : WFInput sections rooms ts) :
    (∀ sol, cpSatisfies sections rooms ts sol = true →
      resultExcl sections (mkFeasible sol).assignments) ∧
    (∀ fuel, (solveFallbackFuel fuel sections rooms ts).is_feasible = true →
      resultExcl sections (solveFallbackFuel fuel sections rooms ts).assignments) := by
  constructor
  · intro sol hsat
    have := cp_excl hwf hsat
    rw [resultExcl]
    show ((sol.map fun v => (⟨v.sec, v.room, v.slot⟩ : Alloc))).Pairwise _
    rw [List.pairwise_map]
    exact this
  · intro fuel hfeas
    unfold solveFallbackFuel at hfeas ⊢
    cases hrun : fbSections ⟨rooms, ts⟩ fuel (sortSections sections) [] with
    | none =>
        simp only [hrun] at hfeas
        exact absurd hfeas (by simp)
    | some st' =>
        simp only [hrun] at hfeas ⊢
        obtain ⟨⟨hPair, hMeta, _⟩, _⟩ := fallback_run hwf hrun
        have hMeta' : ∀ q ∈ st', ∃ s ∈ sections, q.sec = s.id ∧
            q.fac = s.faculty_id ∧ q.grp = s.section_id := by
          intro q hq
          obtain ⟨s, hsU, h1, h2, h3, _⟩ := hMeta q hq
          exact ⟨s, (sortSections_perm sections).mem_iff.mp hsU, h1, h2, h3⟩
        exact resultExcl_of_goodSt hwf.2.2.1 hPair hMeta'

theorem length_two_perm {α : Type} {l : List α} {a b : α} (hlen : l.length = 2)
    (ha : a ∈ l) (hb : b ∈ l) (hab : a ≠ b) : l.Perm [a, b] := by
  match l, hlen with
  | [x, y], _ =>
      rcases List.mem_pair.mp ha with rfl | rfl
      · rcases List.mem_pair.mp hb with rfl | rfl
        · exact absurd rfl hab
        · exact List.Perm.refl _
      · rcases List.mem_pair.mp hb with rfl | rfl
        · exact List.Perm.swap _ _ _
        · exact absurd rfl hab

/-- Fallback side of claim C2: a successful run places a 2-period lab as a
same-room adjacent pair. -/
theorem fallback_lab {sections : List SolverSection} {rooms : List SolverRoom}
    {ts : List SolverTimeslot} {fuel : Nat} {st' : List Placed}
    (hwf : WFInput sections rooms ts)
    (hrun : fbSections ⟨rooms, ts⟩ fuel (sortSections sections) [] = some st')
    {s : SolverSection} (hs : s ∈ sections) (hlab : s.is_lab = true)
    (hp2 : s.required_periods = 2) :
    ∃ ro t n, nextLookup ts t = some n ∧
      ((st'.reverse.map (fun q => (⟨q.sec, q.room, q.slot⟩ : Alloc))).filter
        (fun a => a.section_id == s.id)).Perm
        [⟨s.id, ro, t⟩, ⟨s.id, ro, n⟩] ∧
      ∃ T ∈ ts, T.id = t ∧ ∃ T' ∈ ts, T'.id = n ∧ T'.day = T.day ∧
        T'.start_time = T.end_time := by
  obtain ⟨⟨hPair, hMeta, _⟩, hD1, hD2, hD3⟩ := fallback_run hwf hrun
  have hsU : s ∈ sortSections sections := (sortSections_perm sections).mem_iff.mpr hs
  have hsN : (sections.map (·.id)).Nodup := hwf.2.2.1
  have HUid : ((sortSections sections).map (·.id)).Nodup :=
    (((sortSections_perm sections).map (·.id)).nodup_iff).mpr hsN
  have hcnt0 := hD2 s hsU 0 (by omega)
  have hcnt1 := hD2 s hsU 1 (by omega)
  obtain ⟨ro, t, n, hnl, _ht, _hn, hstruct⟩ := hD3 s hsU hlab hp2
  have htn : t ≠ n := fun hcontra =>
    nextLookup_ne_self hwf.1 hwf.2.2.2.2 (hcontra ▸ hnl)
  refine ⟨ro, t, n, hnl, ?_, ?_⟩
  · rw [List.filter_map]
    have hfeq : ((fun a => a.section_id == s.id) ∘
        (fun q : Placed => (⟨q.sec, q.room, q.slot⟩ : Alloc))) =
        fun q : Placed => q.sec == s.id := rfl
    rw [hfeq]
    -- the filtered placement list has exactly the two lab entries
    have hidx2 : ∀ q ∈ st', q.sec = s.id → q.idx < 2 := by
      intro q hq hqs
      obtain ⟨s', hs', hid, _, _, hlt, _⟩ := hMeta q hq
      obtain rfl : s = s' := id_inj HUid hsU hs' (by rw [← hqs, hid])
      omega
    have hsplit := countP_split (fun q : Placed => q.sec == s.id)
      (fun q => q.idx == 0) st'
    have hcongr : st'.countP (fun q => (q.sec == s.id) && !(q.idx == 0)) =
        st'.countP (fun q => q.sec == s.id && q.idx == 1) := by
      apply countP_congr_mem
      intro q hq
      change ((q.sec == s.id) && !(q.idx == 0)) = (q.sec == s.id && q.idx == 1)
      by_cases hqs : q.sec = s.id
      · have hlt := hidx2 q hq hqs
        have h01 : q.idx = 0 ∨ q.idx = 1 := by omega
        rcases h01 with h | h <;> (rw [h, hqs]; simp)
      · have hb : (q.sec == s.id) = false := by
          rw [beq_eq_false_iff_ne]; exact hqs
        simp [hb]
    have hlen : st'.countP (fun q : Placed => q.sec == s.id) = 2 := by
      have e0 : st'.countP (fun q : Placed =>
          (q.sec == s.id) && (q.idx == 0)) = 1 := hcnt0
      have e1 : st'.countP (fun q : Placed =>
          q.sec == s.id && q.idx == 1) = 1 := hcnt1
      omega
    have hrevcnt : st'.reverse.countP (fun q : Placed => q.sec == s.id) = 2 := by
      rw [(st'.reverse_perm).countP_eq]
      exact hlen
    have hLlen : (st'.reverse.filter (fun q : Placed => q.sec == s.id)).length = 2 := by
      rw [← List.countP_eq_length_filter]
      exact hrevcnt
    obtain ⟨q0, hq0, hq0p⟩ := countP_eq_one_exists _ _ hcnt0
    obtain ⟨q1, hq1, hq1p⟩ := countP_eq_one_exists _ _ hcnt1
    simp only [Bool.and_eq_true, beq_iff_eq] at hq0p hq1p
    have hq0s := hstruct q0 hq0 hq0p.1
    have hq1s := hstruct q1 hq1 hq1p.1
    have hq0v : q0.room = ro ∧ q0.slot = t := by
      rcases hq0s with ⟨_, h2, h3⟩ | ⟨h1, _, _⟩
      · exact ⟨h2, h3⟩
      · rw [hq0p.2] at h1; omega
    have hq1v : q1.room = ro ∧ q1.slot = n := by
      rcases hq1s with ⟨h1, _, _⟩ | ⟨_, h2, h3⟩
      · rw [hq1p.2] at h1; omega
      · exact ⟨h2, h3⟩
    have hA0mem : (⟨s.id, ro, t⟩ : Alloc) ∈
        (st'.reverse.filter (fun q : Placed => q.sec == s.id)).map
          (fun q : Placed => (⟨q.sec, q.room, q.slot⟩ : Alloc)) := by
      apply List.mem_map.mpr
      refine ⟨q0, List.mem_filter.mpr ⟨List.mem_reverse.mpr hq0, by simp [hq0p.1]⟩, ?_⟩
      simp [hq0p.1, hq0v.1, hq0v.2]
    have hA1mem : (⟨s.id, ro, n⟩ : Alloc) ∈
        (st'.reverse.filter (fun q : Placed => q.sec == s.id)).map
          (fun q : Placed => (⟨q.sec, q.room, q.slot⟩ : Alloc)) := by
      apply List.mem_map.mpr
      refine ⟨q1, List.mem_filter.mpr ⟨List.mem_reverse.mpr hq1, by simp [hq1p.1]⟩, ?_⟩
      simp [hq1p.1, hq1v.1, hq1v.2]
    have hAll : ∀ x ∈ (st'.reverse.filter (fun q : Placed => q.sec == s.id)).map
        (fun q : Placed => (⟨q.sec, q.room, q.slot⟩ : Alloc)),
        x = ⟨s.id, ro, t⟩ ∨ x = ⟨s.id, ro, n⟩ := by
      intro x hx
      obtain ⟨q, hqf, rfl⟩ := List.mem_map.mp hx
      obtain ⟨hqrev, hqsec⟩ := List.mem_filter.mp hqf
      have hqsec' : q.sec = s.id := by simpa using hqsec
      rcases hstruct q (List.mem_reverse.mp hqrev) hqsec' with ⟨_, h2, h3⟩ | ⟨_, h2, h3⟩
      · exact Or.inl (by simp [hqsec', h2, h3])
      · exact Or.inr (by simp [hqsec', h2, h3])
    have hmaplen : ((st'.reverse.filter (fun q : Placed => q.sec == s.id)).map
        (fun q : Placed => (⟨q.sec, q.room, q.slot⟩ : Alloc))).length = 2 := by
      rw [List.length_map]
      exact hLlen
    have hA01 : (⟨s.id, ro, t⟩ : Alloc) ≠ ⟨s.id, ro, n⟩ := by
      intro hcontra
      exact htn (congrArg Alloc.timeslot_id hcontra)
    exact length_two_perm hmaplen hA0mem hA1mem hA01
  · obtain ⟨_, t', ht', htid, u, hu, huid, hud, hus⟩ := nextLookup_spec hnl
    exact ⟨t', ht', htid, u, hu, huid, hud, hus⟩

/-- **C2 (amended).**  For every 2-period lab requirement *without supplied
fixed assignments*, any feasible solver result (CP model or fallback)
gives it exactly two placements: same room, and the second occupied slot
is the same-day successor of the first (so a slot with no same-day
successor is never chosen for the first period).  The original claim
fails when fixed assignments pin the lab's periods, because pinning skips
the exactly-one constraint. -/
theorem claim_C2 (sections : List SolverSection) (rooms : List SolverRoom)
    (ts : List SolverTimeslot) (hwf : WFInput sections rooms ts)
    (s : SolverSection) (hs : s ∈ sections) (hlab : s.is_lab = true)
    (hp2 : s.required_periods = 2) (hnf : s.fixed_assignments = none) :
    (∀ sol, cpSatisfies sections rooms ts sol = true →
      ∃ ro t n, nextLookup ts t = some n ∧
        ((mkFeasible sol).assignments.filter
          (fun a => a.section_id == s.id)).Perm
          [⟨s.id, ro, t⟩, ⟨s.id, ro, n⟩] ∧
        ∃ T ∈ ts, T.id = t ∧ ∃ T' ∈ ts, T'.id = n ∧ T'.day = T.day ∧
          T'.start_time = T.end_time) ∧
    (∀ fuel, (solveFallbackFuel fuel sections rooms ts).is_feasible = true →
      ∃ ro t n, nextLookup ts t = some n ∧
        (((solveFallbackFuel fuel sections rooms ts).assignments).filter
          (fun a => a.section_id == s.id)).Perm
          [⟨s.id, ro, t⟩, ⟨s.id, ro, n⟩] ∧
        ∃ T ∈ ts, T.id = t ∧ ∃ T' ∈ ts, T'.id = n ∧ T'.day = T.day ∧
          T'.start_time = T.end_time) := by
  constructor
  · intro sol hsat
    obtain ⟨ro, t, n, hnl, hperm, hadj⟩ := cp_lab hwf hsat hs hlab hp2 hnf
    refine ⟨ro, t, n, hnl, ?_, hadj⟩
    show ((sol.map fun v => (⟨v.sec, v.room, v.slot⟩ : Alloc)).filter _).Perm _
    rw [List.filter_map]
    have hfeq : ((fun a : Alloc => a.section_id == s.id) ∘
        (fun v : Var => (⟨v.sec, v.room, v.slot⟩ : Alloc))) =
        fun v : Var => v.sec == s.id := rfl
    rw [hfeq]
    have := hperm.map (fun v : Var => (⟨v.sec, v.room, v.slot⟩ : Alloc))
    simpa using this
  · intro fuel hfeas
    unfold solveFallbackFuel at hfeas ⊢
    cases hrun : fbSections ⟨rooms, ts⟩ fuel (sortSections sections) [] with
    | none =>
        simp only [hrun] at hfeas
        exact absurd hfeas (by simp)
    | some st' =>
        simp only [hrun] at hfeas ⊢
        exact fallback_lab hwf hrun hs hlab hp2

theorem nodup_matchingPairs {rooms : List SolverRoom} {s : SolverSection}
    (hrN : (rooms.map (·.id)).Nodup) (hal : s.allowed_slot_ids.Nodup) :
    (matchingPairs rooms s).Nodup := by
  apply nodup_flatMap_keyed (rooms.filter (roomMatches s)) _ Prod.fst (·.id)
  · exact ((rooms.filter_sublist (p := roomMatches s)).map (·.id)).nodup hrN
  · intro r _
    apply hal.map_on
    intro x _ y _ hxy
    simpa using congrArg Prod.snd hxy
  · intro r _ b hb
    obtain ⟨t, _, rfl⟩ := List.mem_map.mp hb
    rfl

theorem nodup_secPeriodList {sections : List SolverSection}
    (hsN : (sections.map (·.id)).Nodup) : (secPeriodList sections).Nodup := by
  apply nodup_flatMap_keyed sections _ Prod.fst (·.id)
  · exact hsN
  · intro s _
    apply (List.nodup_range s.required_periods).map_on
    intro x _ y _ hxy
    simpa using congrArg Prod.snd hxy
  · intro s _ b hb
    obtain ⟨p, _, rfl⟩ := List.mem_map.mp hb
    rfl

theorem nodup_triples {sections : List SolverSection} {rooms : List SolverRoom}
    (hsN : (sections.map (·.id)).Nodup) (hrN : (rooms.map (·.id)).Nodup)
    (pred : SolverSection → Bool) :
    ((sections.filter pred).flatMap fun s =>
      (List.range s.required_periods).flatMap fun p =>
        rooms.map fun r => (s.id, p, r.id)).Nodup := by
  have hrooms : rooms.Nodup := hrN.of_map
  apply nodup_flatMap_keyed (sections.filter pred) _ Prod.fst (·.id)
  · exact ((sections.filter_sublist (p := pred)).map (·.id)).nodup hsN
  · intro s _
    apply nodup_flatMap_keyed (List.range s.required_periods) _ (·.2.1) id
    · simpa using List.nodup_range s.required_periods
    · intro p _
      apply hrooms.map_on
      intro x hx y hy hxy
      exact id_inj hrN hx hy (by simpa using congrArg (·.2.2) hxy)
    · intro p _ b hb
      obtain ⟨r, _, rfl⟩ := List.mem_map.mp hb
      rfl
  · intro s _ b hb
    obtain ⟨p, _, hb'⟩ := List.mem_flatMap.mp hb
    obtain ⟨r, _, rfl⟩ := List.mem_map.mp hb'
    rfl

theorem nodup_dayTriples {s : SolverSection} {rooms : List SolverRoom}
    {ts : List SolverTimeslot}
    (hrN : (rooms.map (·.id)).Nodup) (htsN : (ts.map (·.id)).Nodup) (d : Nat) :
    ((List.range s.required_periods).flatMap fun p =>
      (rooms.filter (roomMatches s)).flatMap fun r =>
        ((ts.filter (fun t => t.day == d)).map (·.id)).map fun t => (p, r.id, t)).Nodup := by
  have hslotN : ((ts.filter (fun t => t.day == d)).map (·.id)).Nodup :=
    ((ts.filter_sublist (p := fun t => t.day == d)).map (·.id)).nodup htsN
  apply nodup_flatMap_keyed (List.range s.required_periods) _ (·.1) id
  · simpa using List.nodup_range s.required_periods
  · intro p _
    apply nodup_flatMap_keyed (rooms.filter (roomMatches s)) _ (·.2.1) (·.id)
    · exact ((rooms.filter_sublist (p := roomMatches s)).map (·.id)).nodup hrN
    · intro r _
      apply hslotN.map_on
      intro x _ y _ hxy
      exact congrArg (fun z => z.2.2) hxy
    · intro r _ b hb
      obtain ⟨tid, _, rfl⟩ := List.mem_map.mp hb
      rfl
  · intro p _ b hb
    obtain ⟨r, _, hb2⟩ := List.mem_flatMap.mp hb
    obtain ⟨tid, _, rfl⟩ := List.mem_map.mp hb2
    rfl

/-- At most one variable of a fallback-derived solution sits in any one of
the per-key (faculty or group) sums of constraints C3/C4. -/
theorem triple_count_le_one {sections : List SolverSection} {rooms : List SolverRoom}
    {st' : List Placed} {sol : List Var}
    (hsN : (sections.map (·.id)).Nodup) (hrN : (rooms.map (·.id)).Nodup)
    (hcont : ∀ v : Var, sol.contains v = true → ∃ q ∈ st', toVar q = v)
    (hexcl : ∀ q1 ∈ st', ∀ q2 ∈ st', q1 ≠ q2 → placedExcl q1 q2)
    (keyf : SolverSection → Nat) (keySel : Placed → Nat) (f tid : Nat)
    (hlink : ∀ q ∈ st', ∀ s ∈ sections, s.id = q.sec → keySel q = keyf s)
    (hclause : ∀ a b : Placed, placedExcl a b → keySel a = keySel b →
      a.slot ≠ b.slot) :
    ((sections.filter (fun s => keyf s == f)).flatMap fun s =>
      (List.range s.required_periods).flatMap fun p =>
        rooms.map fun r => (s.id, p, r.id)).countP
      (fun k => xHasKey sections rooms ⟨k.1, k.2.1, k.2.2, tid⟩ &&
        sol.contains ⟨k.1, k.2.1, k.2.2, tid⟩) ≤ 1 := by
  apply countP_le_one_of_unique (nodup_triples hsN hrN _)
  intro a ha b hb hpa hpb
  rw [Bool.and_eq_true] at hpa hpb
  obtain ⟨qa, hqa, hva⟩ := hcont _ hpa.2
  obtain ⟨qb, hqb, hvb⟩ := hcont _ hpb.2
  have ha1 : qa.sec = a.1 := congrArg Var.sec hva
  have ha2 : qa.idx = a.2.1 := congrArg Var.p hva
  have ha3 : qa.room = a.2.2 := congrArg Var.room hva
  have ha4 : qa.slot = tid := congrArg Var.slot hva
  have hb1 : qb.sec = b.1 := congrArg Var.sec hvb
  have hb2 : qb.idx = b.2.1 := congrArg Var.p hvb
  have hb3 : qb.room = b.2.2 := congrArg Var.room hvb
  have hb4 : qb.slot = tid := congrArg Var.slot hvb
  by_cases hq : qa = qb
  · subst hq
    refine Prod.ext (by rw [← ha1, hb1]) (Prod.ext (by rw [← ha2, hb2]) (by rw [← ha3, hb3]))
  · exfalso
    obtain ⟨sa, hsaf, hsa2⟩ := List.mem_flatMap.mp ha
    obtain ⟨pa, _, hsa3⟩ := List.mem_flatMap.mp hsa2
    obtain ⟨ra, _, hka⟩ := List.mem_map.mp hsa3
    obtain ⟨sb, hsbf, hsb2⟩ := List.mem_flatMap.mp hb
    obtain ⟨pb, _, hsb3⟩ := List.mem_flatMap.mp hsb2
    obtain ⟨rb, _, hkb⟩ := List.mem_map.mp hsb3
    have hsaS : sa ∈ sections := List.mem_of_mem_filter hsaf
    have hsbS : sb ∈ sections := List.mem_of_mem_filter hsbf
    have hsaF : keyf sa = f := by simpa using List.of_mem_filter hsaf
    have hsbF : keyf sb = f := by simpa using List.of_mem_filter hsbf
    have haa1 : a.1 = sa.id := by rw [← hka]
    have hbb1 : b.1 = sb.id := by rw [← hkb]
    have hida : sa.id = qa.sec := by rw [ha1, haa1]
    have hidb : sb.id = qb.sec := by rw [hb1, hbb1]
    have hfa : keySel qa = f := by rw [hlink qa hqa sa hsaS hida, hsaF]
    have hfb : keySel qb = f := by rw [hlink qb hqb sb hsbS hidb, hsbF]
    have hx := hexcl qa hqa qb hqb hq
    exact hclause qa qb hx (by rw [hfa, hfb]) (by rw [ha4, hb4])

/-- Soundness half of the fallback/CP comparison: under well-formed input
with no fixed assignments, every placement list produced by a successful
fallback run, read as a set of CP variables, satisfies every constraint the
CP backend adds. -/
theorem fallback_cpSatisfies {sections : List SolverSection} {rooms : List SolverRoom}
    {ts : List SolverTimeslot} {fuel : Nat} {st' : List Placed}
    (hwf : WFInput sections rooms ts)
    (hNoFix : ∀ s ∈ sections, s.fixed_assignments = none)
    (hrun : fbSections ⟨rooms, ts⟩ fuel (sortSections sections) [] = some st') :
    cpSatisfies sections rooms ts (st'.reverse.map toVar) = true := by
  obtain ⟨hG, hD⟩ := fallback_run hwf hrun
  obtain ⟨hPair, hMeta, hCap⟩ := hG
  obtain ⟨hD1, hD2, hD3⟩ := hD
  obtain ⟨htsN, hrN, hsN, hallow, hdur⟩ := hwf
  have hperm := sortSections_perm sections
  have memU : ∀ {x : SolverSection}, x ∈ sortSections sections ↔ x ∈ sections :=
    fun {x} => hperm.mem_iff
  -- membership facts about the derived variable list
  have hcont : ∀ v : Var, (st'.reverse.map toVar).contains v = true →
      ∃ q ∈ st', toVar q = v := by
    intro v hv
    rw [contains_true_iff] at hv
    obtain ⟨q, hq, rfl⟩ := List.mem_map.mp hv
    exact ⟨q, List.mem_reverse.mp hq, rfl⟩
  have hcont' : ∀ q ∈ st', (st'.reverse.map toVar).contains (toVar q) = true := by
    intro q hq
    rw [contains_true_iff]
    exact List.mem_map.mpr ⟨q, List.mem_reverse.mpr hq, rfl⟩
  -- metadata of each placement, stated over the unsorted section list
  have hMetaS : ∀ q ∈ st', ∃ s ∈ sections, q.sec = s.id ∧ q.fac = s.faculty_id ∧
      q.grp = s.section_id ∧ q.idx < s.required_periods ∧
      (∃ r ∈ rooms, r.id = q.room ∧ roomMatches s r = true) ∧
      q.slot ∈ s.allowed_slot_ids ∧ (∃ t ∈ ts, t.id = q.slot ∧ q.day = t.day) ∧
      q.countsDay = !(s.is_lab && s.required_periods == 2) := by
    intro q hq
    obtain ⟨s, hs, hrest⟩ := hMeta q hq
    exact ⟨s, memU.mp hs, hrest⟩
  have hMetaAt : ∀ q ∈ st', ∀ s ∈ sections, s.id = q.sec →
      q.fac = s.faculty_id ∧ q.grp = s.section_id ∧ q.idx < s.required_periods ∧
      (∃ r ∈ rooms, r.id = q.room ∧ roomMatches s r = true) ∧
      q.slot ∈ s.allowed_slot_ids ∧ (∃ t ∈ ts, t.id = q.slot ∧ q.day = t.day) ∧
      q.countsDay = !(s.is_lab && s.required_periods == 2) := by
    intro q hq s hs hid
    obtain ⟨s0, hs0, hqsec, hrest⟩ := hMetaS q hq
    obtain rfl : s = s0 := id_inj hsN hs hs0 (by rw [hid, hqsec])
    exact hrest
  have hCnt : ∀ s ∈ sections, ∀ p, p < s.required_periods →
      st'.countP (fun q => q.sec == s.id && q.idx == p) = 1 := by
    intro s hs p hp
    exact hD2 s (memU.mpr hs) p hp
  have hUniqQ : ∀ q1 ∈ st', ∀ q2 ∈ st', q1.sec = q2.sec → q1.idx = q2.idx →
      q1 = q2 := by
    intro q1 hq1 q2 hq2 hsec hidx
    obtain ⟨s, hs, hqsec, _, _, hlt, _, _, _, _⟩ := hMetaS q1 hq1
    apply countP_eq_one_unique _ _ (hCnt s hs q1.idx hlt) q1 q2 hq1 hq2
    · simp [hqsec]
    · simp [← hsec, ← hidx, hqsec]
  have hexclQ : ∀ q1 ∈ st', ∀ q2 ∈ st', q1 ≠ q2 → placedExcl q1 q2 := by
    intro q1 h1 q2 h2 hne
    exact pairwise_excl_of_mem hPair h1 h2 hne
  simp only [cpSatisfies, Bool.and_eq_true]
  refine ⟨⟨⟨⟨⟨⟨⟨⟨?_, ?_⟩, ?_⟩, ?_⟩, ?_⟩, ?_⟩, ?_⟩, ?_⟩, ?_⟩
  -- (1) no duplicate variables
  · rw [decide_eq_true_eq]
    apply (List.nodup_reverse.mpr (pairwise_placedExcl_nodup hPair)).map_on
    intro x hx y hy hxy
    exact hUniqQ x (List.mem_reverse.mp hx) y (List.mem_reverse.mp hy)
      (congrArg Var.sec hxy) (congrArg Var.p hxy)
  -- (2) every variable exists in x
  · rw [List.all_eq_true]
    intro v hv
    obtain ⟨qr, hqr, rfl⟩ := List.mem_map.mp hv
    have hq := List.mem_reverse.mp hqr
    obtain ⟨s, hs, h1, _, _, h4, ⟨r, hr, hrid, hrm⟩, h6, _, _⟩ := hMetaS qr hq
    exact xHasKey_intro hs h1.symm h4 hr hrid hrm h6
  -- (3) pins: vacuous without fixed assignments
  · simp only [pinOk, List.all_eq_true]
    intro s hs p _
    simp [fixedFor, hNoFix s hs]
  -- (4) exactly one candidate per period
  · simp only [exactOneOk, List.all_eq_true]
    intro s hs p hp
    rw [List.mem_range] at hp
    simp only [fixedFor, hNoFix s hs]
    rw [decide_eq_true_eq]
    obtain ⟨e, he, hpe⟩ := countP_eq_one_exists _ _ (hCnt s hs p hp)
    rw [Bool.and_eq_true, beq_iff_eq, beq_iff_eq] at hpe
    obtain ⟨hesec, heidx⟩ := hpe
    obtain ⟨_, _, _, ⟨r, hr, hrid, hrm⟩, hslot, _, _⟩ := hMetaAt e he s hs hesec.symm
    have hmemPair : (e.room, e.slot) ∈ matchingPairs rooms s := by
      apply List.mem_flatMap.mpr
      refine ⟨r, List.mem_filter.mpr ⟨hr, hrm⟩, ?_⟩
      exact List.mem_map.mpr ⟨e.slot, hslot, by rw [hrid]⟩
    have hpred : ((st'.reverse.map toVar).contains ⟨s.id, p, e.room, e.slot⟩) = true := by
      have hev : toVar e = ⟨s.id, p, e.room, e.slot⟩ := by
        simp [toVar, hesec, heidx]
      rw [← hev]
      exact hcont' e he
    have hge : 0 < (matchingPairs rooms s).countP
        (fun rt => (st'.reverse.map toVar).contains ⟨s.id, p, rt.1, rt.2⟩) :=
      List.countP_pos_iff.mpr ⟨(e.room, e.slot), hmemPair, hpred⟩
    have hle : (matchingPairs rooms s).countP
        (fun rt => (st'.reverse.map toVar).contains ⟨s.id, p, rt.1, rt.2⟩) ≤ 1 := by
      apply countP_le_one_of_unique (nodup_matchingPairs hrN (hallow s hs).1)
      intro a ha b hb hpa hpb
      obtain ⟨qa, hqa, hva⟩ := hcont _ hpa
      obtain ⟨qb, hqb, hvb⟩ := hcont _ hpb
      have ha1 : qa.sec = s.id := congrArg Var.sec hva
      have ha2 : qa.idx = p := congrArg Var.p hva
      have ha3 : qa.room = a.1 := congrArg Var.room hva
      have ha4 : qa.slot = a.2 := congrArg Var.slot hva
      have hb1 : qb.sec = s.id := congrArg Var.sec hvb
      have hb2 : qb.idx = p := congrArg Var.p hvb
      have hb3 : qb.room = b.1 := congrArg Var.room hvb
      have hb4 : qb.slot = b.2 := congrArg Var.slot hvb
      have hq : qa = qb := hUniqQ qa hqa qb hqb (by rw [ha1, hb1]) (by rw [ha2, hb2])
      exact Prod.ext (by rw [← ha3, hq, hb3]) (by rw [← ha4, hq, hb4])
    omega
  -- (5) consecutive labs
  · simp only [labOk, List.all_eq_true]
    intro s hs
    by_cases hlab : (s.is_lab && s.required_periods == 2) = true
    · rw [if_pos hlab]
      rw [List.all_eq_true]
      intro r hr
      rw [List.all_eq_true]
      intro t ht
      rw [Bool.and_eq_true, beq_iff_eq] at hlab
      obtain ⟨hisl, hreq⟩ := hlab
      by_cases hc : (st'.reverse.map toVar).contains ⟨s.id, 0, r.id, t⟩ = true
      · rw [if_pos hc]
        obtain ⟨q0, hq0, hv0⟩ := hcont _ hc
        have h01 : q0.sec = s.id := congrArg Var.sec hv0
        have h02 : q0.idx = 0 := congrArg Var.p hv0
        have h03 : q0.room = r.id := congrArg Var.room hv0
        have h04 : q0.slot = t := congrArg Var.slot hv0
        obtain ⟨ro, t0, n, hnext, ht0, hn, hshape⟩ := hD3 s (memU.mpr hs) hisl hreq
        rcases hshape q0 hq0 h01 with ⟨_, hro, hslot0⟩ | ⟨hi1, _, _⟩
        · have hro' : ro = r.id := by rw [← hro, h03]
          have ht0' : t0 = t := by rw [← hslot0, h04]
          rw [ht0'] at hnext
          show (match nextLookup ts t with
            | some n =>
                xHasKey sections rooms ⟨s.id, 1, r.id, n⟩ &&
                (st'.reverse.map toVar).contains ⟨s.id, 1, r.id, n⟩
            | none => false) = true
          rw [hnext]
          rw [Bool.and_eq_true]
          constructor
          · exact xHasKey_intro hs rfl (by show 1 < s.required_periods; rw [hreq]; omega)
              (List.mem_of_mem_filter hr) rfl (List.of_mem_filter hr) hn
          · have h1lt : 1 < s.required_periods := by rw [hreq]; omega
            obtain ⟨e1, he1, hpe1⟩ := countP_eq_one_exists _ _ (hCnt s hs 1 h1lt)
            rw [Bool.and_eq_true, beq_iff_eq, beq_iff_eq] at hpe1
            obtain ⟨he1sec, he1idx⟩ := hpe1
            rcases hshape e1 he1 he1sec with ⟨hi0, _, _⟩ | ⟨_, he1ro, he1slot⟩
            · omega
            · have hev : toVar e1 = ⟨s.id, 1, r.id, n⟩ := by
                simp [toVar, he1sec, he1idx, he1ro, he1slot, hro']
              rw [← hev]
              exact hcont' e1 he1
        · omega
      · rw [if_neg hc]
    · rw [if_neg hlab]
  -- (6) room exclusivity
  · simp only [roomOk, List.all_eq_true]
    intro r hr t ht
    rw [decide_eq_true_eq]
    apply countP_le_one_of_unique (nodup_secPeriodList hsN)
    intro a ha b hb hpa hpb
    obtain ⟨qa, hqa, hva⟩ := hcont _ hpa
    obtain ⟨qb, hqb, hvb⟩ := hcont _ hpb
    have ha1 : qa.sec = a.1 := congrArg Var.sec hva
    have ha2 : qa.idx = a.2 := congrArg Var.p hva
    have ha3 : qa.room = r.id := congrArg Var.room hva
    have ha4 : qa.slot = t.id := congrArg Var.slot hva
    have hb1 : qb.sec = b.1 := congrArg Var.sec hvb
    have hb2 : qb.idx = b.2 := congrArg Var.p hvb
    have hb3 : qb.room = r.id := congrArg Var.room hvb
    have hb4 : qb.slot = t.id := congrArg Var.slot hvb
    have hq : qa = qb := by
      by_contra hne
      obtain ⟨hcl1, _, _⟩ := hexclQ qa hqa qb hqb hne
      exact hcl1 ⟨by rw [ha3, hb3], by rw [ha4, hb4]⟩
    exact Prod.ext (by rw [← ha1, hq, hb1]) (by rw [← ha2, hq, hb2])
  -- (7) faculty exclusivity
  · simp only [facOk, List.all_eq_true]
    intro f hf t ht
    rw [decide_eq_true_eq]
    apply triple_count_le_one hsN hrN hcont hexclQ (·.faculty_id) Placed.fac f t.id
    · intro q hq s hs hid
      exact (hMetaAt q hq s hs hid).1
    · intro a b hx hfeq
      obtain ⟨_, h2, _⟩ := hx
      exact h2 hfeq
  -- (8) group exclusivity
  · simp only [grpOk, List.all_eq_true]
    intro g hg t ht
    rw [decide_eq_true_eq]
    apply triple_count_le_one hsN hrN hcont hexclQ (·.section_id) Placed.grp g t.id
    · intro q hq s hs hid
      exact (hMetaAt q hq s hs hid).2.1
    · intro a b hx hfeq
      obtain ⟨_, _, h3⟩ := hx
      exact h3 hfeq
  -- (9) daily cap for non-labs
  · simp only [dayOk, List.all_eq_true]
    intro s hs
    by_cases hlab : s.is_lab = true
    · rw [if_pos hlab]
    · rw [if_neg hlab]
      rw [List.all_eq_true]
      intro d hd
      rw [decide_eq_true_eq]
      have hlab' : s.is_lab = false := by
        cases h : s.is_lab
        · rfl
        · exact absurd h hlab
      have hcap := hCap s (memU.mpr hs) hlab' d
      have hA : ((List.range s.required_periods).flatMap fun p =>
          (rooms.filter (roomMatches s)).flatMap fun r =>
            ((ts.filter (fun t => t.day == d)).map (·.id)).map fun t => (p, r.id, t)).countP
          (fun k => (st'.reverse.map toVar).contains ⟨s.id, k.1, k.2.1, k.2.2⟩) ≤
          (st'.reverse.map toVar).countP
          (fun v => v.sec == s.id &&
            ((ts.filter (fun t => t.day == d)).map (·.id)).contains v.slot) := by
        apply countP_le_countP_of_inj _ _ _ _
          (fun k => (⟨s.id, k.1, k.2.1, k.2.2⟩ : Var))
          (nodup_dayTriples hrN htsN d)
        · intro a _ a' _ _ _ hga
          exact Prod.ext (congrArg Var.p hga)
            (Prod.ext (congrArg Var.room hga) (congrArg Var.slot hga))
        · intro a hamem hpa
          constructor
          · rw [contains_true_iff] at hpa
            exact hpa
          · rw [Bool.and_eq_true]
            constructor
            · simp
            · obtain ⟨p, _, ha2⟩ := List.mem_flatMap.mp hamem
              obtain ⟨r, _, ha3⟩ := List.mem_flatMap.mp ha2
              obtain ⟨tid, htid, hka⟩ := List.mem_map.mp ha3
              have he : a.2.2 = tid := (congrArg (fun z => z.2.2) hka).symm
              show ((ts.filter (fun t => t.day == d)).map (·.id)).contains a.2.2 = true
              rw [contains_true_iff, he]
              exact htid
      have hB : (st'.reverse.map toVar).countP
          (fun v => v.sec == s.id &&
            ((ts.filter (fun t => t.day == d)).map (·.id)).contains v.slot) =
          st'.countP (fun q => q.sec == s.id && q.day == d && q.countsDay) := by
        rw [List.countP_map, (List.reverse_perm st').countP_eq]
        apply countP_congr_mem
        intro q hq
        show (q.sec == s.id &&
          ((ts.filter (fun t => t.day == d)).map (·.id)).contains q.slot) =
          (q.sec == s.id && q.day == d && q.countsDay)
        by_cases hsec : q.sec = s.id
        · obtain ⟨_, _, _, _, _, ⟨T, hT, hTid, hTday⟩, hcd⟩ := hMetaAt q hq s hs hsec.symm
          have hcd' : q.countsDay = true := by rw [hcd, hlab']; rfl
          have hdayiff : (((ts.filter (fun t => t.day == d)).map (·.id)).contains q.slot
              = true) ↔ q.day = d := by
            rw [contains_true_iff]
            constructor
            · intro hmem
              obtain ⟨T', hT', hT'id⟩ := List.mem_map.mp hmem
              obtain ⟨hT'ts, hT'day⟩ := List.mem_filter.mp hT'
              have hTT : T = T' := id_inj htsN hT hT'ts (by rw [hTid, hT'id])
              rw [beq_iff_eq] at hT'day
              rw [hTday, hTT, hT'day]
            · intro hqd
              apply List.mem_map.mpr
              refine ⟨T, List.mem_filter.mpr ⟨hT, ?_⟩, hTid⟩
              rw [beq_iff_eq, ← hTday]
              exact hqd
          have h1 : (q.sec == s.id) = true := by simp [hsec]
          rw [h1, hcd']
          simp only [Bool.true_and, Bool.and_true]
          by_cases hqd : q.day = d
          · have hl : ((ts.filter (fun t => t.day == d)).map (·.id)).contains q.slot
                = true := hdayiff.mpr hqd
            have hr2 : (q.day == d) = true := by simp [hqd]
            rw [hl, hr2]
          · have hl : ((ts.filter (fun t => t.day == d)).map (·.id)).contains q.slot
                = false := by
              cases h : ((ts.filter (fun t => t.day == d)).map (·.id)).contains q.slot
              · rfl
              · exact absurd (hdayiff.mp h) hqd
            have hr2 : (q.day == d) = false := by
              rw [beq_eq_false_iff_ne]
              exact hqd
            rw [hl, hr2]
        · have h1 : (q.sec == s.id) = false := by
            rw [beq_eq_false_iff_ne]
            exact hsec
          rw [h1]
          simp
      exact hA.trans ((le_of_eq hB).trans hcap)

/-- On the lunch instance the fallback runs out of placements at any
recursion depth. -/
theorem c4_fallback_none :
    ∀ fuel, fbSections ⟨[c4Room], [c4Slot]⟩ fuel (sortSections [c4Sec]) [] = none := by
  intro fuel
  match fuel with
  | 0 => rfl
  | 1 => rfl
  | 2 => rfl
  | 3 => rfl
  | 4 => rfl
  | n + 5 => rfl

/-- C4, counterexample: the backends are not equivalent.  On `c4Sec`'s
instance the CP model is satisfiable (and the early checks pass), yet the
fallback is infeasible at every recursion depth, because `can_place`
refuses every slot starting at 12:00 or 13:00 while the CP model has no
lunch constraint. -/
theorem claim_C4_counterexample :
    cpSatisfies [c4Sec] [c4Room] [c4Slot] [⟨1, 0, 1, 1⟩] = true ∧
    solveChecks [c4Sec] [c4Room] = none ∧
    ∀ fuel, (solveFallbackFuel fuel [c4Sec] [c4Room] [c4Slot]).is_feasible = false := by
  refine ⟨by decide, by decide, ?_⟩
  intro fuel
  unfold solveFallbackFuel
  rw [c4_fallback_none fuel]

/-- C4 (amended): one sound direction holds.  Under well-formed input with
no fixed assignments, whenever the fallback succeeds the CP model is
satisfiable, by a solution with the very same placement list; the converse
fails (`claim_C4_counterexample`). -/
theorem claim_C4 (sections : List SolverSection) (rooms : List SolverRoom)
    (ts : List SolverTimeslot) (hwf : WFInput sections rooms ts)
    (hNoFix : ∀ s ∈ sections, s.fixed_assignments = none) (fuel : Nat)
    (hfeas : (solveFallbackFuel fuel sections rooms ts).is_feasible = true) :
    ∃ sol, cpSatisfies sections rooms ts sol = true ∧
      (solveFallbackFuel fuel sections rooms ts).assignments =
        (mkFeasible sol).assignments := by
  cases hrun : fbSections ⟨rooms, ts⟩ fuel (sortSections sections) [] with
  | none =>
      unfold solveFallbackFuel at hfeas
      rw [hrun] at hfeas
      have h2 : false = true := hfeas
      cases h2
  | some st' =>
      refine ⟨st'.reverse.map toVar, fallback_cpSatisfies hwf hNoFix hrun, ?_⟩
      unfold solveFallbackFuel
      rw [hrun]
      show st'.reverse.map (fun q => (⟨q.sec, q.room, q.slot⟩ : Alloc)) =
        (st'.reverse.map toVar).map (fun v => (⟨v.sec, v.room, v.slot⟩ : Alloc))
      rw [List.map_map]
      rfl

/-- C4, witness: the amended theorem applied to the one-section instance
`c4wSec`, on which the fallback succeeds at depth 6. -/
theorem claim_C4_witness :
    WFInput [c4wSec] [c4wRoom] [c4wSlot] ∧
    (∀ s ∈ [c4wSec], s.fixed_assignments = none) ∧
    (solveFallbackFuel 6 [c4wSec] [c4wRoom] [c4wSlot]).is_feasible = true ∧
    ∃ sol, cpSatisfies [c4wSec] [c4wRoom] [c4wSlot] sol = true ∧
      (solveFallbackFuel 6 [c4wSec] [c4wRoom] [c4wSlot]).assignments =
        (mkFeasible sol).assignments :=
  ⟨by unfold WFInput; decide, by decide, by decide,
    claim_C4 [c4wSec] [c4wRoom] [c4wSlot] (by unfold WFInput; decide)
      (by decide) 6 (by decide)⟩

/-- Every early return of the C1-construction loop is infeasible with empty
placements and status `"INFEASIBLE"`. -/
theorem solveChecks_shape {sections : List SolverSection} {rooms : List SolverRoom}
    {r : SolverResult} (h : solveChecks sections rooms = some r) :
    r.is_feasible = false ∧ r.assignments = [] ∧ r.status = "INFEASIBLE" := by
  obtain ⟨s, _, hs⟩ := firstSome_eq_some _ _ _ h
  obtain ⟨p, _, hp⟩ := firstSome_eq_some _ _ _ hs
  unfold checkPeriod at hp
  cases hff : fixedFor s p with
  | some rt =>
      obtain ⟨fr, ft⟩ := rt
      rw [hff] at hp
      have hp' : (if xHasKey sections rooms ⟨s.id, p, fr, ft⟩ = true then none
          else some (fixedErr s)) = some r := hp
      by_cases hx : xHasKey sections rooms ⟨s.id, p, fr, ft⟩ = true
      · rw [if_pos hx] at hp'
        exact absurd hp' (by simp)
      · rw [if_neg hx] at hp'
        obtain rfl : fixedErr s = r := by simpa using hp'
        exact ⟨rfl, rfl, rfl⟩
  | none =>
      rw [hff] at hp
      have hp' : (if rooms.any (fun ro => s.allowed_slot_ids.any
            (fun t => xHasKey sections rooms ⟨s.id, p, ro.id, t⟩)) = true then none
          else some (noCandErr s p)) = some r := hp
      by_cases hx : rooms.any (fun ro => s.allowed_slot_ids.any
          (fun t => xHasKey sections rooms ⟨s.id, p, ro.id, t⟩)) = true
      · rw [if_pos hx] at hp'
        exact absurd hp' (by simp)
      · rw [if_neg hx] at hp'
        obtain rfl : noCandErr s p = r := by simpa using hp'
        exact ⟨rfl, rfl, rfl⟩

/-- C3, counterexample: the statuses `INFEASIBLE_NO_CANDIDATES` and
`INFEASIBLE_FIXED` never occur.  An empty candidate domain and an invalid
fixed assignment both return status `"INFEASIBLE"` (the cause is only in
`conflict_reason`). -/
theorem claim_C3_counterexample :
    solveChecks [c3Sec] [] = some (noCandErr c3Sec 0) ∧
    (noCandErr c3Sec 0).status = "INFEASIBLE" ∧
    (noCandErr c3Sec 0).status ≠ "INFEASIBLE_NO_CANDIDATES" ∧
    solveChecks [c3FixSec] [] = some (fixedErr c3FixSec) ∧
    (fixedErr c3FixSec).status = "INFEASIBLE" ∧
    (fixedErr c3FixSec).status ≠ "INFEASIBLE_FIXED" := by
  refine ⟨rfl, rfl, by decide, rfl, rfl, by decide⟩

/-- C3 (amended): on any infeasible outcome the solver indeed returns empty
placements — the CP backend with the uniform status `"INFEASIBLE"` (never
the cause-naming codes the spec lists, see `claim_C3_counterexample`), and
the fallback with empty placements as well. -/
theorem claim_C3 (sections : List SolverSection) (rooms : List SolverRoom)
    (ts : List SolverTimeslot) (res : SolverResult)
    (hrel : cpSolveRel sections rooms ts res)
    (hinf : res.is_feasible = false) :
    res.assignments = [] ∧ res.status = "INFEASIBLE" ∧
    ∀ fuel, (solveFallbackFuel fuel sections rooms ts).is_feasible = false →
      (solveFallbackFuel fuel sections rooms ts).assignments = [] := by
  unfold cpSolveRel at hrel
  have hcp : res.assignments = [] ∧ res.status = "INFEASIBLE" := by
    cases hchk : solveChecks sections rooms with
    | some err =>
        rw [hchk] at hrel
        have hrel' : res = err := hrel
        subst hrel'
        obtain ⟨_, h2, h3⟩ := solveChecks_shape hchk
        exact ⟨h2, h3⟩
    | none =>
        rw [hchk] at hrel
        have hrel' : (∃ sol, cpSatisfies sections rooms ts sol = true ∧
            res = mkFeasible sol) ∨
            ((¬ ∃ sol, cpSatisfies sections rooms ts sol = true) ∧
              res = cpNoSolution) := hrel
        rcases hrel' with ⟨sol, _, hres⟩ | ⟨_, hres⟩
        · subst hres
          simp [mkFeasible] at hinf
        · subst hres
          exact ⟨rfl, rfl⟩
  refine ⟨hcp.1, hcp.2, ?_⟩
  intro fuel hf
  unfold solveFallbackFuel at hf ⊢
  cases hrun : fbSections ⟨rooms, ts⟩ fuel (sortSections sections) [] with
  | some st =>
      rw [hrun] at hf
      have h2 : true = false := hf
      cases h2
  | none =>
      rfl

/-- C3, witness: the amended theorem applied to the no-candidates
instance. -/
theorem claim_C3_witness :
    cpSolveRel [c3Sec] [] [] (noCandErr c3Sec 0) ∧
    (noCandErr c3Sec 0).is_feasible = false ∧
    ((noCandErr c3Sec 0).assignments = [] ∧
      (noCandErr c3Sec 0).status = "INFEASIBLE" ∧
      ∀ fuel, (solveFallbackFuel fuel [c3Sec] [] []).is_feasible = false →
        (solveFallbackFuel fuel [c3Sec] [] []).assignments = []) :=
  ⟨rfl, rfl, claim_C3 [c3Sec] [] [] (noCandErr c3Sec 0) rfl rfl⟩

/-- C7: when the solver result is infeasible, `generate_timetable` performs
no mutation — no assignment row and no version row changes, and no version
is returned (it returns `None` before any delete/insert/update). -/
theorem claim_C7 (cat : Catalog) (db : DBState) (version : Nat)
    (targets : Option (List String)) (result : SolverResult)
    (hinf : result.is_feasible = false) :
    generateWith cat db version targets result = (none, db) := by
  unfold generateWith
  by_cases he : db.assignments.isEmpty = true
  · rw [if_pos he]
  · rw [if_neg he]
    show (if result.is_feasible = false then ((none : Option TVersion), db)
      else _) = (none, db)
    rw [if_pos hinf]

/-- C7, witness: the theorem applied to a concrete infeasible run. -/
theorem claim_C7_witness :
    cpNoSolution.is_feasible = false ∧
    generateWith c7Cat c7Db 1 none cpNoSolution = (none, c7Db) :=
  ⟨rfl, claim_C7 c7Cat c7Db 1 none cpNoSolution rfl⟩

/-! ## Claim C5 -/

/-- Membership across the `list.remove`-style lunch loop of
`generate_timetable`: under a duplicate-free base, an id survives the fold
iff it was in the base and no listed timeslot carries it. -/
theorem fold_erase_mem (L : List DBTimeslot) (base : List Nat)
    (hbN : base.Nodup) (i : Nat) :
    i ∈ L.foldl (fun acc t => if acc.contains t.id then acc.erase t.id else acc) base ↔
      i ∈ base ∧ ∀ t ∈ L, t.id ≠ i := by
  induction L generalizing base with
  | nil => simp
  | cons t L ih =>
      rw [List.foldl_cons]
      by_cases hc : base.contains t.id = true
      · rw [if_pos hc, ih _ (hbN.erase _), hbN.mem_erase_iff]
        constructor
        · rintro ⟨⟨hne, hib⟩, hall⟩
          refine ⟨hib, ?_⟩
          intro t' ht'
          rcases List.mem_cons.mp ht' with rfl | ht''
          · exact fun h => hne h.symm
          · exact hall t' ht''
        · rintro ⟨hib, hall⟩
          refine ⟨⟨?_, hib⟩, ?_⟩
          · intro h
            exact hall t (List.mem_cons_self t L) h.symm
          · intro t' ht''
            exact hall t' (List.mem_cons_of_mem _ ht'')
      · rw [if_neg hc, ih _ hbN]
        have ht : t.id ∉ base := by
          intro hmem
          exact hc ((contains_true_iff base t.id).mpr hmem)
        constructor
        · rintro ⟨hib, hall⟩
          refine ⟨hib, ?_⟩
          intro t' ht'
          rcases List.mem_cons.mp ht' with rfl | ht''
          · intro h
            rw [h] at ht
            exact ht hib
          · exact hall t' ht''
        · rintro ⟨hib, hall⟩
          exact ⟨hib, fun t' ht'' => hall t' (List.mem_cons_of_mem _ ht'')⟩

/-- `computeAllowedSlots` membership, in terms of the shift filter and the
lunch table. -/
theorem computeAllowedSlots_mem (shift : Option String) (ts : List DBTimeslot)
    (hN : (ts.map (·.id)).Nodup) (i : Nat) :
    i ∈ computeAllowedSlots shift ts ↔
      ∃ t ∈ ts, t.id = i ∧ slotPasses shift t = true ∧
        ∀ lt, lunchOf shift = some lt → t.start_time ≠ lt := by
  have hbase : ∀ j, j ∈ (ts.filter (slotPasses shift)).map (·.id) ↔
      ∃ t ∈ ts, t.id = j ∧ slotPasses shift t = true := by
    intro j
    simp only [List.mem_map, List.mem_filter]
    constructor
    · rintro ⟨t, ⟨h1, h2⟩, h3⟩
      exact ⟨t, h1, h3, h2⟩
    · rintro ⟨t, h1, h3, h2⟩
      exact ⟨t, ⟨h1, h2⟩, h3⟩
  have hbN : ((ts.filter (slotPasses shift)).map (·.id)).Nodup :=
    ((ts.filter_sublist (p := slotPasses shift)).map (·.id)).nodup hN
  cases hl : lunchOf shift with
  | none =>
      simp only [computeAllowedSlots, hl]
      rw [hbase i]
      constructor
      · rintro ⟨t, h1, h2, h3⟩
        refine ⟨t, h1, h2, h3, ?_⟩
        intro lt hlt
        cases hlt
      · rintro ⟨t, h1, h2, h3, _⟩
        exact ⟨t, h1, h2, h3⟩
  | some lt =>
      simp only [computeAllowedSlots, hl]
      rw [fold_erase_mem _ _ hbN i]
      constructor
      · rintro ⟨hib, hnol⟩
        obtain ⟨t, ht, htid, hpass⟩ := (hbase i).mp hib
        refine ⟨t, ht, htid, hpass, ?_⟩
        intro lt' hlt' hstart
        have hlt'' : lt = lt' := Option.some.inj hlt'
        subst hlt''
        exact hnol t (List.mem_filter.mpr ⟨ht, by simp [hstart]⟩) htid
      · rintro ⟨t, ht, htid, hpass, hlunch⟩
        refine ⟨(hbase i).mpr ⟨t, ht, htid, hpass⟩, ?_⟩
        intro t' ht' htid'
        obtain ⟨ht'ts, ht'start⟩ := List.mem_filter.mp ht'
        rw [beq_iff_eq] at ht'start
        obtain rfl : t' = t := id_inj hN ht'ts ht (by rw [htid', htid])
        exact hlunch lt rfl ht'start

/-- C5: `allowed_slot_ids` is exactly the weekday slots inside the shift
window (08:00-16:00 for SHIFT_8_4, 10:00-18:00 for SHIFT_10_6, no window
otherwise), minus the slots starting at the shift's lunch time (12:00 for
SHIFT_8_4, 13:00 for SHIFT_10_6, none otherwise). -/
theorem claim_C5 (shift : Option String) (ts : List DBTimeslot)
    (hN : (ts.map (·.id)).Nodup) (i : Nat) :
    i ∈ computeAllowedSlots shift ts ↔
      ∃ t ∈ ts, t.id = i ∧ t.day ≤ 4 ∧
        (shift = some "SHIFT_8_4" →
          480 ≤ t.start_time ∧ t.end_time ≤ 960 ∧ t.start_time ≠ 720) ∧
        (shift = some "SHIFT_10_6" →
          600 ≤ t.start_time ∧ t.end_time ≤ 1080 ∧ t.start_time ≠ 780) := by
  rw [computeAllowedSlots_mem shift ts hN i]
  by_cases h84 : shift = some "SHIFT_8_4"
  · subst h84
    constructor
    · rintro ⟨t, ht, htid, hpass, hlunch⟩
      have hp' : (!(decide (4 < t.day)) &&
          (decide (480 ≤ t.start_time) && decide (t.end_time ≤ 960))) = true := by
        simpa [slotPasses] using hpass
      rw [Bool.and_eq_true, Bool.and_eq_true] at hp'
      obtain ⟨hday, hst, hen⟩ := hp'
      rw [Bool.not_eq_true', decide_eq_false_iff_not] at hday
      rw [decide_eq_true_eq] at hst hen
      have hlt := hlunch 720 rfl
      exact ⟨t, ht, htid, by omega, fun _ => ⟨hst, hen, hlt⟩,
        fun hc => absurd hc (by decide)⟩
    · rintro ⟨t, ht, htid, hday, h1, _⟩
      obtain ⟨hst, hen, hlun⟩ := h1 rfl
      refine ⟨t, ht, htid, ?_, ?_⟩
      · simp only [slotPasses]
        simp [decide_eq_true_eq]
        exact ⟨by omega, hst, hen⟩
      · intro lt hlt
        have h720 : (some 720 : Option Nat) = some lt := hlt
        obtain rfl : (720 : Nat) = lt := Option.some.inj h720
        exact hlun
  · by_cases h106 : shift = some "SHIFT_10_6"
    · subst h106
      constructor
      · rintro ⟨t, ht, htid, hpass, hlunch⟩
        have hp' : (!(decide (4 < t.day)) &&
            (decide (600 ≤ t.start_time) && decide (t.end_time ≤ 1080))) = true := by
          simpa [slotPasses] using hpass
        rw [Bool.and_eq_true, Bool.and_eq_true] at hp'
        obtain ⟨hday, hst, hen⟩ := hp'
        rw [Bool.not_eq_true', decide_eq_false_iff_not] at hday
        rw [decide_eq_true_eq] at hst hen
        have hlt := hlunch 780 rfl
        exact ⟨t, ht, htid, by omega, fun hc => absurd hc (by decide),
          fun _ => ⟨hst, hen, hlt⟩⟩
      · rintro ⟨t, ht, htid, hday, _, h2⟩
        obtain ⟨hst, hen, hlun⟩ := h2 rfl
        refine ⟨t, ht, htid, ?_, ?_⟩
        · simp only [slotPasses]
          simp [decide_eq_true_eq]
          exact ⟨by omega, hst, hen⟩
        · intro lt hlt
          have h780 : (some 780 : Option Nat) = some lt := hlt
          obtain rfl : (780 : Nat) = lt := Option.some.inj h780
          exact hlun
    · have hb84 : (shift == some "SHIFT_8_4") = false := beq_eq_false_iff_ne.mpr h84
      have hb106 : (shift == some "SHIFT_10_6") = false := beq_eq_false_iff_ne.mpr h106
      have hlun : lunchOf shift = none := by
        simp [lunchOf, hb84, hb106]
      constructor
      · rintro ⟨t, ht, htid, hpass, _⟩
        have hp' : (!(decide (4 < t.day))) = true := by
          simpa [slotPasses, hb84, hb106] using hpass
        rw [Bool.not_eq_true', decide_eq_false_iff_not] at hp'
        exact ⟨t, ht, htid, by omega, fun hc => absurd hc h84,
          fun hc => absurd hc h106⟩
      · rintro ⟨t, ht, htid, hday, _, _⟩
        refine ⟨t, ht, htid, ?_, ?_⟩
        · simp [slotPasses, hb84, hb106]
          omega
        · intro lt hlt
          rw [hlun] at hlt
          cases hlt

/-- C5, witness: the characterization applied to a two-slot catalog under
SHIFT_8_4; slot 2 starts at 12:00. -/
theorem claim_C5_witness :
    (([⟨1, 0, 540, 600⟩, ⟨2, 0, 720, 780⟩] : List DBTimeslot).map (·.id)).Nodup ∧
    (1 ∈ computeAllowedSlots (some "SHIFT_8_4")
        [⟨1, 0, 540, 600⟩, ⟨2, 0, 720, 780⟩] ↔
      ∃ t ∈ ([⟨1, 0, 540, 600⟩, ⟨2, 0, 720, 780⟩] : List DBTimeslot),
        t.id = 1 ∧ t.day ≤ 4 ∧
        (some "SHIFT_8_4" = some "SHIFT_8_4" →
          480 ≤ t.start_time ∧ t.end_time ≤ 960 ∧ t.start_time ≠ 720) ∧
        (some "SHIFT_8_4" = some "SHIFT_10_6" →
          600 ≤ t.start_time ∧ t.end_time ≤ 1080 ∧ t.start_time ≠ 780)) :=
  ⟨by decide, claim_C5 (some "SHIFT_8_4") [⟨1, 0, 540, 600⟩, ⟨2, 0, 720, 780⟩]
    (by decide) 1⟩

/-! ## Claims C8 and C9: dictionary and fold lemmas -/

theorem dictGet_cons (a b : String) (m : List (String × String)) (k : String) :
    dictGet ((a, b) :: m) k = if a == k then some b else dictGet m k := by
  unfold dictGet
  cases h : a == k with
  | true => simp [List.find?_cons, h]
  | false => simp [List.find?_cons, h]

theorem dictGet_insert_self (m : List (String × String)) (k v : String) :
    dictGet (dictInsert m k v) k = some v := by
  induction m with
  | nil =>
      rw [show dictInsert [] k v = [(k, v)] from rfl, dictGet_cons]
      simp
  | cons kv rest ih =>
      obtain ⟨a, b⟩ := kv
      show dictGet (if (a == k) = true then (k, v) :: rest
        else (a, b) :: dictInsert rest k v) k = some v
      by_cases h : (a == k) = true
      · rw [if_pos h, dictGet_cons]
        simp
      · rw [if_neg h, dictGet_cons, if_neg h]
        exact ih

theorem dictGet_insert_other (m : List (String × String)) (k v k' : String)
    (hne : k' ≠ k) :
    dictGet (dictInsert m k v) k' = dictGet m k' := by
  have hkk' : ¬((k == k') = true) := by
    simp only [beq_iff_eq]
    exact fun h => hne h.symm
  induction m with
  | nil =>
      rw [show dictInsert [] k v = [(k, v)] from rfl, dictGet_cons, if_neg hkk']
  | cons kv rest ih =>
      obtain ⟨a, b⟩ := kv
      show dictGet (if (a == k) = true then (k, v) :: rest
        else (a, b) :: dictInsert rest k v) k' = _
      by_cases h : (a == k) = true
      · rw [if_pos h, dictGet_cons, dictGet_cons]
        have ha : a = k := by simpa using h
        subst ha
        rw [if_neg hkk', if_neg hkk']
      · rw [if_neg h, dictGet_cons, dictGet_cons, ih]

theorem fold_names_get_notmem (names : List String) (canon : String)
    (m : List (String × String)) (name : String) (h : name ∉ names) :
    dictGet (names.foldl (fun m2 n => dictInsert m2 n canon) m) name =
      dictGet m name := by
  induction names generalizing m with
  | nil => rfl
  | cons n names ih =>
      simp only [List.foldl_cons]
      have hne : name ≠ n := fun hh => h (hh ▸ List.mem_cons_self n names)
      rw [ih _ (fun hh => h (List.mem_cons_of_mem _ hh))]
      exact dictGet_insert_other m n canon name hne

theorem fold_names_get_mem (names : List String) (canon : String)
    (m : List (String × String)) (name : String) (h : name ∈ names) :
    dictGet (names.foldl (fun m2 n => dictInsert m2 n canon) m) name =
      some canon := by
  induction names generalizing m with
  | nil => cases h
  | cons n names ih =>
      simp only [List.foldl_cons]
      by_cases hmem : name ∈ names
      · exact ih _ hmem
      · have hn : n = name := by
          rcases List.mem_cons.mp h with h' | h'
          · exact h'.symm
          · exact absurd h' hmem
        subst hn
        rw [fold_names_get_notmem _ _ _ _ hmem, dictGet_insert_self]

theorem apply_fold_notin : ∀ (suggestions : List Suggestion)
    (confs : List (Nat × String)) (m : List (String × String)) (name : String),
    (∀ sug ∈ suggestions, name ∈ sug.detected_names →
      (pyLower (confGet confs sug.cluster_id) == "accepted") = false) →
    dictGet (suggestions.foldl
      (fun mapping sug =>
        if pyLower (confGet confs sug.cluster_id) == "accepted" then
          sug.detected_names.foldl
            (fun m2 n => dictInsert m2 n sug.suggested_canonical) mapping
        else mapping) m) name = dictGet m name := by
  intro suggestions
  induction suggestions with
  | nil => intro confs m name _; rfl
  | cons s rest ih =>
      intro confs m name h
      simp only [List.foldl_cons]
      by_cases hacc : (pyLower (confGet confs s.cluster_id) == "accepted") = true
      · rw [if_pos hacc]
        have hnot : name ∉ s.detected_names := by
          intro hmem
          rw [h s (List.mem_cons_self s rest) hmem] at hacc
          cases hacc
        rw [ih confs _ name (fun s' hs' hn' => h s' (List.mem_cons_of_mem _ hs') hn')]
        exact fold_names_get_notmem _ _ _ _ hnot
      · rw [if_neg hacc]
        exact ih confs _ name (fun s' hs' hn' => h s' (List.mem_cons_of_mem _ hs') hn')

theorem apply_fold_in : ∀ (suggestions : List Suggestion)
    (confs : List (Nat × String)) (m : List (String × String)) (name : String)
    (sug : Suggestion), sug ∈ suggestions → name ∈ sug.detected_names →
    (pyLower (confGet confs sug.cluster_id) == "accepted") = true →
    (∀ s2 ∈ suggestions, name ∈ s2.detected_names → s2 = sug) →
    dictGet (suggestions.foldl
      (fun mapping sg =>
        if pyLower (confGet confs sg.cluster_id) == "accepted" then
          sg.detected_names.foldl
            (fun m2 n => dictInsert m2 n sg.suggested_canonical) mapping
        else mapping) m) name = some sug.suggested_canonical := by
  intro suggestions
  induction suggestions with
  | nil => intro confs m name sug h; cases h
  | cons s rest ih =>
      intro confs m name sug hsug hn hacc huniq
      simp only [List.foldl_cons]
      rcases List.mem_cons.mp hsug with rfl | hmem
      · rw [if_pos hacc]
        by_cases hrest : ∃ s' ∈ rest, name ∈ s'.detected_names ∧
            (pyLower (confGet confs s'.cluster_id) == "accepted") = true
        · obtain ⟨s', hs', hn', hacc'⟩ := hrest
          obtain rfl : s' = sug := huniq s' (List.mem_cons_of_mem _ hs') hn'
          exact ih confs _ name s' hs' hn' hacc'
            (fun s2 hs2 hn2 => huniq s2 (List.mem_cons_of_mem _ hs2) hn2)
        · have hall : ∀ s' ∈ rest, name ∈ s'.detected_names →
              (pyLower (confGet confs s'.cluster_id) == "accepted") = false := by
            intro s' hs' hn'
            cases hx : (pyLower (confGet confs s'.cluster_id) == "accepted") with
            | false => rfl
            | true => exact absurd ⟨s', hs', hn', hx⟩ hrest
          rw [apply_fold_notin rest confs _ name hall]
          exact fold_names_get_mem _ _ _ _ hn
      · have huniq' : ∀ s2 ∈ rest, name ∈ s2.detected_names → s2 = sug :=
          fun s2 hs2 hn2 => huniq s2 (List.mem_cons_of_mem _ hs2) hn2
        by_cases haccs : (pyLower (confGet confs s.cluster_id) == "accepted") = true
        · rw [if_pos haccs]
          exact ih confs _ name sug hmem hn hacc huniq'
        · rw [if_neg haccs]
          exact ih confs _ name sug hmem hn hacc huniq'

theorem apply_fold_some : ∀ (suggestions : List Suggestion)
    (confs : List (Nat × String)) (m : List (String × String)) (x c : String),
    dictGet (suggestions.foldl
      (fun mapping sg =>
        if pyLower (confGet confs sg.cluster_id) == "accepted" then
          sg.detected_names.foldl
            (fun m2 n => dictInsert m2 n sg.suggested_canonical) mapping
        else mapping) m) x = some c →
    (∃ sug ∈ suggestions, x ∈ sug.detected_names ∧
      (pyLower (confGet confs sug.cluster_id) == "accepted") = true ∧
      c = sug.suggested_canonical) ∨ dictGet m x = some c := by
  intro suggestions
  induction suggestions with
  | nil => intro confs m x c h; right; exact h
  | cons s rest ih =>
      intro confs m x c h
      simp only [List.foldl_cons] at h
      by_cases hacc : (pyLower (confGet confs s.cluster_id) == "accepted") = true
      · rw [if_pos hacc] at h
        rcases ih confs _ x c h with ⟨sug, hsug, hrest⟩ | hbase
        · exact Or.inl ⟨sug, List.mem_cons_of_mem _ hsug, hrest⟩
        · by_cases hx : x ∈ s.detected_names
          · rw [fold_names_get_mem _ _ _ _ hx] at hbase
            have hc : c = s.suggested_canonical := (Option.some.inj hbase).symm
            exact Or.inl ⟨s, List.mem_cons_self s rest, hx, hacc, hc⟩
          · rw [fold_names_get_notmem _ _ _ _ hx] at hbase
            exact Or.inr hbase
      · rw [if_neg hacc] at h
        rcases ih confs _ x c h with ⟨sug, hsug, hrest⟩ | hbase
        · exact Or.inl ⟨sug, List.mem_cons_of_mem _ hsug, hrest⟩
        · exact Or.inr hbase

/-- `max(cluster, key=len)` picks an element of the cluster. -/
theorem foldl_pick_mem (rest : List String) : ∀ acc : String,
    rest.foldl (fun acc x => if acc.length < x.length then x else acc) acc = acc ∨
    rest.foldl (fun acc x => if acc.length < x.length then x else acc) acc ∈ rest := by
  induction rest with
  | nil => intro acc; left; rfl
  | cons x rest ih =>
      intro acc
      simp only [List.foldl_cons]
      by_cases h : acc.length < x.length
      · rw [if_pos h]
        rcases ih x with h' | h'
        · right
          rw [h']
          exact List.mem_cons_self x rest
        · right
          exact List.mem_cons_of_mem _ h'
      · rw [if_neg h]
        rcases ih acc with h' | h'
        · left
          exact h'
        · right
          exact List.mem_cons_of_mem _ h'

theorem suggestCanonical_mem {l : List String} (h : l ≠ []) :
    suggestCanonical l ∈ l := by
  cases l with
  | nil => exact absurd rfl h
  | cons n rest =>
      show rest.foldl (fun acc x => if acc.length < x.length then x else acc) n ∈ n :: rest
      rcases foldl_pick_mem rest n with h' | h'
      · rw [h']
        exact List.mem_cons_self n rest
      · exact List.mem_cons_of_mem _ h'

/-- C8: the confirmation-gated mapping.  With confirmation values drawn from
{accepted, rejected} and pairwise-disjoint clusters, a name receives an
entry iff an accepted cluster detected it, and then maps to that cluster's
suggested canonical; rejected or unlisted clusters contribute nothing. -/
theorem claim_C8 (suggestions : List Suggestion) (confs : List (Nat × String))
    (hvals : ∀ p ∈ confs, p.2 = "accepted" ∨ p.2 = "rejected")
    (hdisj : ∀ s1 ∈ suggestions, ∀ s2 ∈ suggestions, ∀ n : String,
      n ∈ s1.detected_names → n ∈ s2.detected_names → s1 = s2)
    (name : String) :
    ((∀ sug ∈ suggestions, name ∈ sug.detected_names →
        confGet confs sug.cluster_id ≠ "accepted") →
      dictGet (applyConfirmations suggestions confs) name = none) ∧
    (∀ sug ∈ suggestions, name ∈ sug.detected_names →
      confGet confs sug.cluster_id = "accepted" →
      dictGet (applyConfirmations suggestions confs) name =
        some sug.suggested_canonical) := by
  have hcg : ∀ cid, confGet confs cid = "accepted" ∨ confGet confs cid = "rejected" := by
    intro cid
    unfold confGet
    cases hf : confs.find? (·.1 == cid) with
    | none => right; rfl
    | some p =>
        have hp := List.mem_of_find?_eq_some hf
        rcases hvals p hp with h | h
        · left; simp [h]
        · right; simp [h]
  have hlower : ∀ cid, ((pyLower (confGet confs cid) == "accepted") = true) ↔
      confGet confs cid = "accepted" := by
    intro cid
    rcases hcg cid with h | h <;> rw [h] <;> decide
  constructor
  · intro hnone
    unfold applyConfirmations
    rw [apply_fold_notin suggestions confs [] name ?_]
    · rfl
    · intro sug hsug hn
      cases hx : (pyLower (confGet confs sug.cluster_id) == "accepted") with
      | false => rfl
      | true => exact absurd ((hlower _).mp hx) (hnone sug hsug hn)
  · intro sug hsug hn hacc
    unfold applyConfirmations
    exact apply_fold_in suggestions confs [] name sug hsug hn
      ((hlower _).mpr hacc)
      (fun s2 hs2 hn2 => hdisj s2 hs2 sug hsug name hn2 hn)

/-- C9: idempotence of the accepted mapping.  When each suggestion's
canonical is the `max(cluster, key=len)` pick from its own non-empty
cluster and clusters are disjoint, applying the final mapping twice equals
applying it once (canonicals map to themselves; absent names pass
through). -/
theorem claim_C9 (suggestions : List Suggestion) (confs : List (Nat × String))
    (hdisj : ∀ s1 ∈ suggestions, ∀ s2 ∈ suggestions, ∀ n : String,
      n ∈ s1.detected_names → n ∈ s2.detected_names → s1 = s2)
    (hcanon : ∀ sug ∈ suggestions,
      sug.suggested_canonical = suggestCanonical sug.detected_names)
    (hne : ∀ sug ∈ suggestions, sug.detected_names ≠ [])
    (x : String) :
    applyName (applyConfirmations suggestions confs)
        (applyName (applyConfirmations suggestions confs) x) =
      applyName (applyConfirmations suggestions confs) x := by
  cases hg : dictGet (applyConfirmations suggestions confs) x with
  | none =>
      unfold applyName
      rw [hg]
      simp only [Option.getD_none]
      rw [hg]
      simp only [Option.getD_none]
  | some c =>
      have hgc : dictGet (applyConfirmations suggestions confs) c = some c := by
        rcases apply_fold_some suggestions confs [] x c hg with
          ⟨sug, hsug, hx, hacc, hc⟩ | hbase
        · have hcmem : c ∈ sug.detected_names := by
            rw [hc, hcanon sug hsug]
            exact suggestCanonical_mem (hne sug hsug)
          unfold applyConfirmations
          rw [apply_fold_in suggestions confs [] c sug hsug hcmem hacc
            (fun s2 hs2 hn2 => hdisj s2 hs2 sug hsug c hn2 hcmem), hc]
        · exact absurd hbase (by simp [dictGet])
      unfold applyName
      rw [hg]
      simp only [Option.getD_some]
      rw [hgc]
      simp only [Option.getD_some]

/-- C8, witness: one accepted cluster {a, bb} with canonical bb. -/
theorem claim_C8_witness :
    (∀ p ∈ [((1 : Nat), "accepted")], p.2 = "accepted" ∨ p.2 = "rejected") ∧
    ((∀ sug ∈ [(⟨1, ["a", "bb"], "bb"⟩ : Suggestion)], "a" ∈ sug.detected_names →
        confGet [(1, "accepted")] sug.cluster_id ≠ "accepted") →
      dictGet (applyConfirmations [⟨1, ["a", "bb"], "bb"⟩] [(1, "accepted")]) "a" =
        none) ∧
    (∀ sug ∈ [(⟨1, ["a", "bb"], "bb"⟩ : Suggestion)], "a" ∈ sug.detected_names →
      confGet [(1, "accepted")] sug.cluster_id = "accepted" →
      dictGet (applyConfirmations [⟨1, ["a", "bb"], "bb"⟩] [(1, "accepted")]) "a" =
        some sug.suggested_canonical) := by
  have hdisj : ∀ s1 ∈ [(⟨1, ["a", "bb"], "bb"⟩ : Suggestion)],
      ∀ s2 ∈ [(⟨1, ["a", "bb"], "bb"⟩ : Suggestion)], ∀ n : String,
      n ∈ s1.detected_names → n ∈ s2.detected_names → s1 = s2 := by
    intro s1 hs1 s2 hs2 n _ _
    rw [List.mem_singleton.mp hs1, List.mem_singleton.mp hs2]
  have h := claim_C8 [⟨1, ["a", "bb"], "bb"⟩] [(1, "accepted")] (by decide) hdisj "a"
  exact ⟨by decide, h.1, h.2⟩

/-- C9, witness: idempotence on the same accepted cluster at the name a. -/
theorem claim_C9_witness :
    (∀ sug ∈ [(⟨1, ["a", "bb"], "bb"⟩ : Suggestion)],
      sug.suggested_canonical = suggestCanonical sug.detected_names) ∧
    applyName (applyConfirmations [⟨1, ["a", "bb"], "bb"⟩] [(1, "accepted")])
        (applyName (applyConfirmations [⟨1, ["a", "bb"], "bb"⟩]
          [(1, "accepted")]) "a") =
      applyName (applyConfirmations [⟨1, ["a", "bb"], "bb"⟩] [(1, "accepted")]) "a" := by
  have hdisj : ∀ s1 ∈ [(⟨1, ["a", "bb"], "bb"⟩ : Suggestion)],
      ∀ s2 ∈ [(⟨1, ["a", "bb"], "bb"⟩ : Suggestion)], ∀ n : String,
      n ∈ s1.detected_names → n ∈ s2.detected_names → s1 = s2 := by
    intro s1 hs1 s2 hs2 n _ _
    rw [List.mem_singleton.mp hs1, List.mem_singleton.mp hs2]
  exact ⟨by decide, claim_C9 [⟨1, ["a", "bb"], "bb"⟩] [(1, "accepted")]
    hdisj (by decide) (by decide) "a"⟩

/-! ## Claim C10: repair invariant -/

/-- Invariant of the modelled repair search: a successful run extends the
held placements by exactly one placement per problem assignment, each moved
off its current `(room, slot)` pair. -/
theorem rpMain (rooms : List SolverRoom) : ∀ fuel : Nat,
    (∀ probs held out, rpProblems rooms fuel probs held = some out →
      ∃ Δ, out = Δ ++ held ∧ (Δ.map (·.a)).Perm probs ∧
        ∀ q ∈ Δ, ¬(q.room = q.a.room_id ∧ q.slot = q.a.timeslot_id)) ∧
    (∀ a rl rest held out, rpRooms rooms fuel a rl rest held = some out →
      ∃ Δ, out = Δ ++ held ∧ (Δ.map (·.a)).Perm (a :: rest) ∧
        ∀ q ∈ Δ, ¬(q.room = q.a.room_id ∧ q.slot = q.a.timeslot_id)) ∧
    (∀ a r tl rest held out, rpSlots rooms fuel a r tl rest held = some out →
      ∃ Δ, out = Δ ++ held ∧ (Δ.map (·.a)).Perm (a :: rest) ∧
        ∀ q ∈ Δ, ¬(q.room = q.a.room_id ∧ q.slot = q.a.timeslot_id)) := by
  intro fuel
  induction fuel with
  | zero =>
      refine ⟨?_, ?_, ?_⟩
      · intro probs held out h
        exact absurd h (by simp [rpProblems])
      · intro a rl rest held out h
        exact absurd h (by simp [rpRooms])
      · intro a r tl rest held out h
        exact absurd h (by simp [rpSlots])
  | succ fuel ih =>
      obtain ⟨ih1, ih2, ih3⟩ := ih
      refine ⟨?_, ?_, ?_⟩
      · intro probs held out h
        cases probs with
        | nil =>
            have h' : some held = some out := h
            obtain rfl : held = out := Option.some.inj h'
            exact ⟨[], rfl, by simp, by simp⟩
        | cons a rest =>
            have h' : rpRooms rooms fuel a rooms rest held = some out := h
            obtain ⟨Δ, h1, h2, h3⟩ := ih2 a rooms rest held out h'
            exact ⟨Δ, h1, h2, h3⟩
      · intro a rl rest held out h
        cases rl with
        | nil => exact absurd h (by simp [rpRooms])
        | cons r rs =>
            have h' : (match rpSlots rooms fuel a r a.allowed_slot_ids rest held with
              | some res => some res
              | none => rpRooms rooms fuel a rs rest held) = some out := h
            cases hs : rpSlots rooms fuel a r a.allowed_slot_ids rest held with
            | some res =>
                rw [hs] at h'
                obtain rfl : res = out := Option.some.inj h'
                exact ih3 a r a.allowed_slot_ids rest held res hs
            | none =>
                rw [hs] at h'
                exact ih2 a rs rest held out h'
      · intro a r tl rest held out h
        cases tl with
        | nil => exact absurd h (by simp [rpSlots])
        | cons t ts' =>
            have h' : (if repairFree held a r t = true then
                (match rpProblems rooms fuel rest (⟨a, r.id, t⟩ :: held) with
                 | some res => some res
                 | none => rpSlots rooms fuel a r ts' rest held)
              else rpSlots rooms fuel a r ts' rest held) = some out := h
            by_cases hfree : repairFree held a r t = true
            · rw [if_pos hfree] at h'
              cases hp : rpProblems rooms fuel rest (⟨a, r.id, t⟩ :: held) with
              | some res =>
                  rw [hp] at h'
                  obtain rfl : res = out := Option.some.inj h'
                  obtain ⟨Δ, h1, h2, h3⟩ := ih1 rest (⟨a, r.id, t⟩ :: held) res hp
                  refine ⟨Δ ++ [⟨a, r.id, t⟩], by rw [h1, List.append_cons], ?_, ?_⟩
                  · rw [List.map_append]
                    exact (List.perm_append_singleton a (Δ.map (·.a))).trans (h2.cons a)
                  · intro q hq
                    rcases List.mem_append.mp hq with hq' | hq'
                    · exact h3 q hq'
                    · obtain rfl : q = ⟨a, r.id, t⟩ := List.mem_singleton.mp hq'
                      unfold repairFree at hfree
                      rw [Bool.and_eq_true, Bool.and_eq_true, Bool.and_eq_true,
                        Bool.and_eq_true, Bool.and_eq_true] at hfree
                      obtain ⟨⟨⟨⟨⟨_, _⟩, hmove⟩, _⟩, _⟩, _⟩ := hfree
                      rw [Bool.not_eq_true', beq_eq_false_iff_ne] at hmove
                      rintro ⟨e1, e2⟩
                      have e1' : r.id = a.room_id := e1
                      have e2' : t = a.timeslot_id := e2
                      exact hmove (by rw [e1', e2'])
              | none =>
                  rw [hp] at h'
                  exact ih3 a r ts' rest held out h'
            · rw [if_neg hfree] at h'
              exact ih3 a r ts' rest held out h'

/-- C10: after a successful repair, every locked assignment retains exactly
its previous `(room, slot)` pair, and every problem assignment's final pair
differs from its previous one; when the search fails, the result reports
`success = false` and returns the current schedule unchanged.  (Modelled
from the spec and its tests: `repair_engine.py` is absent from the
sources.) -/
theorem claim_C10 (fuel : Nat) (current : List RepairAssignment)
    (problem_ids locked_ids : List Nat) (rooms : List SolverRoom)
    (timeslots : List SolverTimeslot)
    (hNod : (current.map (·.id)).Nodup)
    (hlock : ∀ i ∈ locked_ids, i ∉ problem_ids) :
    ((repairSchedule fuel current problem_ids locked_ids rooms timeslots).success
        = true →
      (∀ a ∈ current, a.id ∈ locked_ids →
        (⟨a.id, a.room_id, a.timeslot_id⟩ : Alloc) ∈
          (repairSchedule fuel current problem_ids locked_ids rooms
            timeslots).final_assignments ∧
        ∀ al ∈ (repairSchedule fuel current problem_ids locked_ids rooms
            timeslots).final_assignments, al.section_id = a.id →
          al.room_id = a.room_id ∧ al.timeslot_id = a.timeslot_id) ∧
      (∀ a ∈ current, a.id ∈ problem_ids →
        ∀ al ∈ (repairSchedule fuel current problem_ids locked_ids rooms
            timeslots).final_assignments, al.section_id = a.id →
          ¬(al.room_id = a.room_id ∧ al.timeslot_id = a.timeslot_id))) ∧
    ((repairSchedule fuel current problem_ids locked_ids rooms timeslots).success
        = false →
      (repairSchedule fuel current problem_ids locked_ids rooms
          timeslots).final_assignments =
        current.map (fun a => (⟨a.id, a.room_id, a.timeslot_id⟩ : Alloc))) := by
  have hdef : repairSchedule fuel current problem_ids locked_ids rooms timeslots =
      match rpProblems rooms fuel
        (current.filter (fun a => problem_ids.contains a.id))
        ((current.filter (fun a => !(problem_ids.contains a.id))).map
          (fun a => ⟨a, a.room_id, a.timeslot_id⟩)) with
      | some held =>
          ⟨true, "Repair successful",
            held.reverse.map (fun q => ⟨q.a.id, q.room, q.slot⟩)⟩
      | none =>
          ⟨false, "Repair Failed: no conflict-free reassignment exists",
            current.map (fun a => ⟨a.id, a.room_id, a.timeslot_id⟩)⟩ := rfl
  rw [hdef]
  cases hrun : rpProblems rooms fuel
      (current.filter (fun a => problem_ids.contains a.id))
      ((current.filter (fun a => !(problem_ids.contains a.id))).map
        (fun a => ⟨a, a.room_id, a.timeslot_id⟩)) with
  | none =>
      refine ⟨?_, ?_⟩
      · intro hs
        have : false = true := hs
        cases this
      · intro _
        rfl
  | some held =>
      obtain ⟨Δ, hsplit, hperm, hmove⟩ := (rpMain rooms fuel).1 _ _ _ hrun
      have hmemF : ∀ q ∈ held,
          (⟨q.a.id, q.room, q.slot⟩ : Alloc) ∈
            held.reverse.map (fun q => (⟨q.a.id, q.room, q.slot⟩ : Alloc)) := by
        intro q hq
        exact List.mem_map.mpr ⟨q, List.mem_reverse.mpr hq, rfl⟩
      have hsrcF : ∀ al ∈ held.reverse.map
            (fun q => (⟨q.a.id, q.room, q.slot⟩ : Alloc)),
          ∃ q ∈ held, (⟨q.a.id, q.room, q.slot⟩ : Alloc) = al := by
        intro al hal
        obtain ⟨q, hq, rfl⟩ := List.mem_map.mp hal
        exact ⟨q, List.mem_reverse.mp hq, rfl⟩
      -- where a held placement comes from
      have hheld : ∀ q ∈ held,
          (∃ b ∈ current, problem_ids.contains b.id = false ∧
            q = ⟨b, b.room_id, b.timeslot_id⟩) ∨
          (q.a ∈ current ∧ problem_ids.contains q.a.id = true ∧
            ¬(q.room = q.a.room_id ∧ q.slot = q.a.timeslot_id)) := by
        intro q hq
        rw [hsplit] at hq
        rcases List.mem_append.mp hq with hq' | hq'
        · right
          have hqa : q.a ∈ current.filter (fun a => problem_ids.contains a.id) := by
            have : q.a ∈ Δ.map (·.a) := List.mem_map.mpr ⟨q, hq', rfl⟩
            exact hperm.mem_iff.mp this
          exact ⟨List.mem_of_mem_filter hqa,
            by simpa using List.of_mem_filter hqa, hmove q hq'⟩
        · left
          obtain ⟨b, hb, rfl⟩ := List.mem_map.mp hq'
          refine ⟨b, List.mem_of_mem_filter hb, ?_, rfl⟩
          have := List.of_mem_filter hb
          cases hx : problem_ids.contains b.id with
          | false => rfl
          | true => rw [hx] at this; cases this
      refine ⟨?_, ?_⟩
      · intro _
        constructor
        · intro a ha halock
          have hap : a.id ∉ problem_ids := hlock a.id halock
          have hapc : problem_ids.contains a.id = false := by
            cases hx : problem_ids.contains a.id with
            | false => rfl
            | true => exact absurd ((contains_true_iff _ _).mp hx) hap
          have hpin : a ∈ current.filter (fun a => !(problem_ids.contains a.id)) :=
            List.mem_filter.mpr ⟨ha, by rw [hapc]; rfl⟩
          have he0 : (⟨a, a.room_id, a.timeslot_id⟩ : RPlaced) ∈ held := by
            rw [hsplit]
            exact List.mem_append.mpr (Or.inr (List.mem_map.mpr ⟨a, hpin, rfl⟩))
          constructor
          · exact hmemF _ he0
          · intro al hal haid
            obtain ⟨q, hq, rfl⟩ := hsrcF al hal
            rcases hheld q hq with ⟨b, hb, hbc, rfl⟩ | ⟨hqa, hqc, _⟩
            · obtain rfl : b = a := id_inj hNod hb ha haid
              exact ⟨rfl, rfl⟩
            · exfalso
              obtain rfl : q.a = a := id_inj hNod hqa ha haid
              rw [hapc] at hqc
              cases hqc
        · intro a ha hap al hal haid
          obtain ⟨q, hq, rfl⟩ := hsrcF al hal
          rcases hheld q hq with ⟨b, hb, hbc, rfl⟩ | ⟨hqa, _, hqm⟩
          · exfalso
            obtain rfl : b = a := id_inj hNod hb ha haid
            rw [(contains_true_iff _ _).mpr hap] at hbc
            cases hbc
          · obtain rfl : q.a = a := id_inj hNod hqa ha haid
            exact hqm
      · intro hs
        have : true = false := hs
        cases this

/-- C10, witness: the theorem applied to the two-assignment repair test. -/
theorem claim_C10_witness :
    (c10Current.map (·.id)).Nodup ∧
    (∀ i ∈ [102], i ∉ [101]) ∧
    (((repairSchedule 10 c10Current [101] [102] c10Rooms c10Slots).success = true →
      (∀ a ∈ c10Current, a.id ∈ [102] →
        (⟨a.id, a.room_id, a.timeslot_id⟩ : Alloc) ∈
          (repairSchedule 10 c10Current [101] [102] c10Rooms
            c10Slots).final_assignments ∧
        ∀ al ∈ (repairSchedule 10 c10Current [101] [102] c10Rooms
            c10Slots).final_assignments, al.section_id = a.id →
          al.room_id = a.room_id ∧ al.timeslot_id = a.timeslot_id) ∧
      (∀ a ∈ c10Current, a.id ∈ [101] →
        ∀ al ∈ (repairSchedule 10 c10Current [101] [102] c10Rooms
            c10Slots).final_assignments, al.section_id = a.id →
          ¬(al.room_id = a.room_id ∧ al.timeslot_id = a.timeslot_id))) ∧
    ((repairSchedule 10 c10Current [101] [102] c10Rooms c10Slots).success = false →
      (repairSchedule 10 c10Current [101] [102] c10Rooms
          c10Slots).final_assignments =
        c10Current.map (fun a => (⟨a.id, a.room_id, a.timeslot_id⟩ : Alloc)))) :=
  ⟨by decide, by decide,
    claim_C10 10 c10Current [101] [102] c10Rooms c10Slots (by decide) (by decide)⟩

/-! ## Claim C6: partial-regeneration frame -/

theorem rowById_cons (a : DBAssignment) (rs : List DBAssignment) (i : Nat) :
    rowById (a :: rs) i = if (a.id == i) = true then some a else rowById rs i := by
  unfold rowById
  cases h : (a.id == i) with
  | true => simp [List.find?_cons, h]
  | false => simp [List.find?_cons, h]

theorem rowById_of_mem {rows : List DBAssignment} {a : DBAssignment}
    (hN : (rows.map (·.id)).Nodup) (ha : a ∈ rows) :
    rowById rows a.id = some a := by
  induction rows with
  | nil => cases ha
  | cons x rs ih =>
      rw [rowById_cons]
      rcases List.mem_cons.mp ha with rfl | ha'
      · rw [if_pos (by simp)]
      · have hxN := hN
        simp only [List.map_cons, List.nodup_cons] at hxN
        have hxa : ¬(x.id == a.id) = true := by
          simp only [beq_iff_eq]
          intro he
          exact hxN.1 (by rw [he]; exact List.mem_map.mpr ⟨a, ha', rfl⟩)
        rw [if_neg hxa]
        exact ih hxN.2 ha'

/-- `updateFirst` changes only the first row keyed by the alloc's id, and
`rowById` reads exactly that row. -/
theorem updateFirst_rowById (rows : List DBAssignment) (al : Alloc) (i : Nat) :
    rowById (updateFirst rows al) i =
      if al.section_id = i then
        (rowById rows i).map (fun a =>
          { a with room_id := some al.room_id, timeslot_id := some al.timeslot_id })
      else rowById rows i := by
  induction rows with
  | nil =>
      by_cases h : al.section_id = i
      · rw [if_pos h]; rfl
      · rw [if_neg h]; rfl
  | cons a rs ih =>
      by_cases hmatch : (a.id == al.section_id) = true
      · have haid : a.id = al.section_id := by simpa using hmatch
        have hstep : updateFirst (a :: rs) al =
            ({ a with room_id := some al.room_id, timeslot_id := some al.timeslot_id } : DBAssignment) :: rs := by
          unfold updateFirst
          rw [if_pos hmatch]
        rw [hstep, rowById_cons, rowById_cons]
        by_cases hi : (a.id == i) = true
        · have hi' : al.section_id = i := by rw [← haid]; simpa using hi
          simp [hi, hi']
        · have hsi : ¬ al.section_id = i := fun hsi =>
            hi (by rw [beq_iff_eq, haid]; exact hsi)
          simp [hi, hsi]
      · have haid : ¬ a.id = al.section_id := by simpa using hmatch
        have hstep : updateFirst (a :: rs) al = a :: updateFirst rs al := by
          simp only [updateFirst]
          rw [if_neg hmatch]
        rw [hstep, rowById_cons, rowById_cons, ih]
        by_cases hi : (a.id == i) = true
        · have hsi : ¬ al.section_id = i := fun hsi =>
            haid (by rw [hsi]; simpa using hi)
          simp [hi, hsi]
        · simp [hi]

/-- Folding allocs that may only re-assert a row's current pair leaves the
row unchanged. -/
theorem foldl_updateFirst_keep (allocs : List Alloc) (rows : List DBAssignment)
    (a : DBAssignment) (hrow : rowById rows a.id = some a)
    (h : ∀ al ∈ allocs, al.section_id = a.id →
      some al.room_id = a.room_id ∧ some al.timeslot_id = a.timeslot_id) :
    rowById (allocs.foldl updateFirst rows) a.id = some a := by
  induction allocs generalizing rows with
  | nil => exact hrow
  | cons al rest ih =>
      simp only [List.foldl_cons]
      apply ih
      · by_cases hid : al.section_id = a.id
        · obtain ⟨h1, h2⟩ := h al (List.mem_cons_self al rest) hid
          rw [updateFirst_rowById, if_pos hid, hrow]
          simp only [Option.map_some']
          congr 1
          cases a
          simp_all
        · rw [updateFirst_rowById, if_neg hid]
          exact hrow
      · intro al' hal' hid'
        exact h al' (List.mem_cons_of_mem _ hal') hid'

/-- C6 (amended): a non-target assignment keeps its `(room, slot)` pair
through a successful partial regeneration, provided it is currently
scheduled and the solver's solution sets at most one variable for it (its
pinned one).  Without the parsimony hypothesis the claim fails: a
non-target requirement with two periods has only its first period pinned,
and the solver's placement of the other period overwrites the row
(`claim_C6_counterexample`). -/
theorem claim_C6 (cat : Catalog) (db : DBState) (version : Nat)
    (names : List String) (sol : List Var)
    (hrowsN : (db.assignments.map (·.id)).Nodup)
    (hsat : cpSatisfies (buildSolverSections cat db (some names))
      (buildSolverRooms cat) (buildSolverSlots cat) sol = true)
    (hone : ∀ a ∈ db.assignments, isTarget cat (some names) a = false →
      sol.countP (fun v => v.sec == a.id) ≤ 1) :
    ∀ a ∈ db.assignments, isTarget cat (some names) a = false →
      truthy a.room_id = true → truthy a.timeslot_id = true →
      rowById (generateWith cat db version (some names)
        (mkFeasible sol)).2.assignments a.id = some a := by
  intro a ha htar hr ht
  have hne : db.assignments.isEmpty = false := by
    cases hdb : db.assignments with
    | nil => rw [hdb] at ha; cases ha
    | cons x xs => rfl
  have hgen : (generateWith cat db version (some names)
      (mkFeasible sol)).2.assignments =
      (mkFeasible sol).assignments.foldl updateFirst db.assignments := by
    unfold generateWith
    rw [hne]
    rfl
  rw [hgen]
  obtain ⟨_, hvalid, hpin, _, _, _, _, _, _⟩ := cpSatisfies_elim hsat
  have hsmem : buildSolverSection cat (some names) a ∈
      buildSolverSections cat db (some names) := List.mem_map.mpr ⟨a, ha, rfl⟩
  have hsid : (buildSolverSection cat (some names) a).id = a.id := rfl
  have hsfix : (buildSolverSection cat (some names) a).fixed_assignments =
      some [(a.room_id.getD 0, a.timeslot_id.getD 0)] := by
    show (if !(isTarget cat (some names) a) && truthy a.room_id &&
        truthy a.timeslot_id then
        some [(a.room_id.getD 0, a.timeslot_id.getD 0)] else none) = _
    rw [htar, hr, ht]
    rfl
  have hsecN : ((buildSolverSections cat db (some names)).map (·.id)).Nodup := by
    have hmm : (buildSolverSections cat db (some names)).map (·.id) =
        db.assignments.map (·.id) := by
      unfold buildSolverSections
      rw [List.map_map]
      rfl
    rw [hmm]
    exact hrowsN
  apply foldl_updateFirst_keep
  · exact rowById_of_mem hrowsN ha
  · intro al hal hid
    obtain ⟨v, hv, rfl⟩ := List.mem_map.mp hal
    have hvsec : v.sec = a.id := hid
    obtain ⟨s', hs', hs'id, hvp, _, _⟩ := xHasKey_elim (hvalid v hv)
    obtain rfl : s' = buildSolverSection cat (some names) a :=
      id_inj hsecN hs' hsmem (by rw [hs'id, hvsec, ← hsid])
    have hfix0 : fixedFor (buildSolverSection cat (some names) a) 0 =
        some (a.room_id.getD 0, a.timeslot_id.getD 0) := by
      unfold fixedFor
      rw [hsfix]
      rfl
    have hp0 : 0 < (buildSolverSection cat (some names) a).required_periods :=
      Nat.lt_of_le_of_lt (Nat.zero_le _) hvp
    simp only [pinOk, List.all_eq_true] at hpin
    have hpin1 := hpin (buildSolverSection cat (some names) a) hsmem 0
      (List.mem_range.mpr hp0)
    rw [hfix0] at hpin1
    have hcont : sol.contains ⟨(buildSolverSection cat (some names) a).id, 0,
        a.room_id.getD 0, a.timeslot_id.getD 0⟩ = true := hpin1
    have hvpin : (⟨(buildSolverSection cat (some names) a).id, 0,
        a.room_id.getD 0, a.timeslot_id.getD 0⟩ : Var) ∈ sol :=
      (contains_true_iff _ _).mp hcont
    have hcnt := hone a ha htar
    have hveq : v = ⟨(buildSolverSection cat (some names) a).id, 0,
        a.room_id.getD 0, a.timeslot_id.getD 0⟩ := by
      by_contra hne'
      have h2 := two_mem_le_countP (fun v => v.sec == a.id) sol v
        ⟨(buildSolverSection cat (some names) a).id, 0,
          a.room_id.getD 0, a.timeslot_id.getD 0⟩ hv hvpin hne'
        (by simp [hvsec]) (by simp [hsid])
      omega
    constructor
    · rw [hveq]
      show some (a.room_id.getD 0) = a.room_id
      cases hro : a.room_id with
      | none =>
          rw [hro] at hr
          exact absurd hr (by decide)
      | some n => rfl
    · rw [hveq]
      show some (a.timeslot_id.getD 0) = a.timeslot_id
      cases hto : a.timeslot_id with
      | none =>
          rw [hto] at ht
          exact absurd ht (by decide)
      | some n => rfl

/-- C6, counterexample: a successful partial regeneration moves a
non-target assignment.  The solver's result satisfies the full CP relation
(the fixed pair is pinned), yet the row ends at slot 2 instead of its
previous slot 1, because only period 0 of its two periods is pinned and
the period-1 placement overwrites the same row. -/
theorem claim_C6_counterexample :
    cpSolveRel (buildSolverSections c6Cat c6Db (some ["OTHER"]))
      (buildSolverRooms c6Cat) (buildSolverSlots c6Cat) (mkFeasible c6Sol) ∧
    (mkFeasible c6Sol).is_feasible = true ∧
    c6Row ∈ c6Db.assignments ∧
    isTarget c6Cat (some ["OTHER"]) c6Row = false ∧
    truthy c6Row.room_id = true ∧ truthy c6Row.timeslot_id = true ∧
    rowById (generateWith c6Cat c6Db 1 (some ["OTHER"])
      (mkFeasible c6Sol)).2.assignments c6Row.id ≠ some c6Row := by
  refine ⟨?_, rfl, by decide, by decide, rfl, rfl, by decide⟩
  show (∃ sol, cpSatisfies (buildSolverSections c6Cat c6Db (some ["OTHER"]))
      (buildSolverRooms c6Cat) (buildSolverSlots c6Cat) sol = true ∧
      mkFeasible c6Sol = mkFeasible sol) ∨
    ((¬ ∃ sol, cpSatisfies (buildSolverSections c6Cat c6Db (some ["OTHER"]))
      (buildSolverRooms c6Cat) (buildSolverSlots c6Cat) sol = true) ∧
      mkFeasible c6Sol = cpNoSolution)
  exact Or.inl ⟨c6Sol, by decide, rfl⟩

/-- C6, witness: the amended theorem applied to the 1-credit instance. -/
theorem claim_C6_witness :
    (c6wDb.assignments.map (·.id)).Nodup ∧
    cpSatisfies (buildSolverSections c6wCat c6wDb (some ["OTHER"]))
      (buildSolverRooms c6wCat) (buildSolverSlots c6wCat) c6wSol = true ∧
    (∀ a ∈ c6wDb.assignments, isTarget c6wCat (some ["OTHER"]) a = false →
      c6wSol.countP (fun v => v.sec == a.id) ≤ 1) ∧
    (∀ a ∈ c6wDb.assignments, isTarget c6wCat (some ["OTHER"]) a = false →
      truthy a.room_id = true → truthy a.timeslot_id = true →
      rowById (generateWith c6wCat c6wDb 1 (some ["OTHER"])
        (mkFeasible c6wSol)).2.assignments a.id = some a) :=
  ⟨by decide, by decide, by decide,
    claim_C6 c6wCat c6wDb 1 ["OTHER"] c6wSol (by decide) (by decide) (by decide)⟩

/-- C1, witness: the exclusivity theorem applied to a one-requirement
instance. -/
theorem claim_C1_witness :
    WFInput [c1wSec] [c1wRoom] [c1wSlot] ∧
    ((∀ sol, cpSatisfies [c1wSec] [c1wRoom] [c1wSlot] sol = true →
      resultExcl [c1wSec] (mkFeasible sol).assignments) ∧
    (∀ fuel, (solveFallbackFuel fuel [c1wSec] [c1wRoom] [c1wSlot]).is_feasible
        = true →
      resultExcl [c1wSec]
        (solveFallbackFuel fuel [c1wSec] [c1wRoom] [c1wSlot]).assignments)) :=
  ⟨by unfold WFInput; decide,
    claim_C1 [c1wSec] [c1wRoom] [c1wSlot] (by unfold WFInput; decide)⟩

/-- C2, counterexample: with fixed assignments the claim fails.  The CP
model accepts a solution giving the pinned lab three placements, which can
be no same-room adjacent pair. -/
theorem claim_C2_counterexample :
    WFInput [c2xSec] [c2xRoom] c2xSlots ∧
    c2xSec.is_lab = true ∧ c2xSec.required_periods = 2 ∧
    cpSatisfies [c2xSec] [c2xRoom] c2xSlots c2xSol = true ∧
    ((mkFeasible c2xSol).assignments.filter
      (fun a => a.section_id == c2xSec.id)).length = 3 :=
  ⟨by unfold WFInput; decide, rfl, rfl, by decide, by decide⟩

/-- C2, witness: the amended lab-adjacency theorem applied to the unpinned
lab instance. -/
theorem claim_C2_witness :
    WFInput [c2wSec] [c2wRoom] c2wSlots ∧
    c2wSec ∈ [c2wSec] ∧ c2wSec.is_lab = true ∧
    c2wSec.required_periods = 2 ∧ c2wSec.fixed_assignments = none ∧
    ((∀ sol, cpSatisfies [c2wSec] [c2wRoom] c2wSlots sol = true →
      ∃ ro t n, nextLookup c2wSlots t = some n ∧
        ((mkFeasible sol).assignments.filter
          (fun a => a.section_id == c2wSec.id)).Perm
          [⟨c2wSec.id, ro, t⟩, ⟨c2wSec.id, ro, n⟩] ∧
        ∃ T ∈ c2wSlots, T.id = t ∧ ∃ T' ∈ c2wSlots, T'.id = n ∧
          T'.day = T.day ∧ T'.start_time = T.end_time) ∧
    (∀ fuel, (solveFallbackFuel fuel [c2wSec] [c2wRoom] c2wSlots).is_feasible
        = true →
      ∃ ro t n, nextLookup c2wSlots t = some n ∧
        (((solveFallbackFuel fuel [c2wSec] [c2wRoom] c2wSlots).assignments).filter
          (fun a => a.section_id == c2wSec.id)).Perm
          [⟨c2wSec.id, ro, t⟩, ⟨c2wSec.id, ro, n⟩] ∧
        ∃ T ∈ c2wSlots, T.id = t ∧ ∃ T' ∈ c2wSlots, T'.id = n ∧
          T'.day = T.day ∧ T'.start_time = T.end_time)) :=
  ⟨by unfold WFInput; decide, by decide, rfl, rfl, rfl,
    claim_C2 [c2wSec] [c2wRoom] c2wSlots (by unfold WFInput; decide)
      c2wSec (by decide) rfl rfl rfl⟩

end TTMS
